import Mathlib

/-!
# RISC-V behavioural simulator (`riscv_sim.cpp`): shallow embedding

The simulator keeps a register file of 32 `int32_t`, a memory of 1024 bytes,
a vector of decoded instructions, two label tables and an instruction-index
program counter.  `loadAssembly` reads the source line by line, in text mode
into instruction records and labels, in data mode into memory words and data
labels; `run` then executes the records.  Registers are named by text (`"x5"`)
and resolved at each access with `std::stoi`.

Conventions of the embedding

* `int32_t` values are `Int`; every arithmetic result is wrapped with
  `toInt32` (two's complement, modulo `2^32`).
* `uint32_t` values (`pc`, addresses) are `Nat`, reduced `% 2^32`.
* `registers` and `memory` are functions of the index; the array cells are
  the indices below `NUM_REGS` / `MEM_SIZE`.  A memory access at any other
  index is a fault (`Fault.memoryOutOfBounds`), it is not a cell of the array.
* A C++ exception (`std::invalid_argument`, `std::out_of_range` from
  `std::stoi`) is an `Except.error`; nothing in the simulator catches them.
* The source file is the list of its lines, as `std::getline` delivers them; a
  line is handled as the list of its characters.  The delimiters the assembler
  looks for (blank, tab, `#`, `:`, `,`, `(`, `)`) are single bytes, so cutting
  at a character position is cutting at the byte position of `std::string`.
* The two `unordered_map` label tables are lists of their assignments, latest
  first; `find` is `List.lookup`.
-/

set_option linter.unusedTactic false
set_option linter.unreachableTactic false

namespace RiscV

/-! ## Constants and machine integers -/

/-- Constant `NUM_REGS` of the class (`static const int NUM_REGS = 32`). -/
def NUM_REGS : Nat := 32

/-- Constant `MEM_SIZE` of the class (`static const int MEM_SIZE = 1024`). -/
def MEM_SIZE : Nat := 1024

/-- Conversion of an integer to `int32_t`: the value modulo `2^32`, read as
two's complement. -/
def toInt32 (x : Int) : Int :=
  let u := x % 2 ^ 32
  if u < 2 ^ 31 then u else u - 2 ^ 32

/-- Conversion of an integer to `int64_t`. -/
def toInt64 (x : Int) : Int :=
  let u := x % 2 ^ 64
  if u < 2 ^ 63 then u else u - 2 ^ 64

/-- Conversion of an integer to `uint32_t`. -/
def toUInt32 (x : Int) : Nat :=
  (x % 2 ^ 32).toNat

/-- What can go wrong: the two exceptions of `std::stoi`, an access to
`memory[i]` with `i` outside the array, and a shift `1u << count` whose count is
not in 0..31. -/
inductive Fault where
  | invalid_argument : Fault
  | out_of_range : Fault
  | memoryOutOfBounds (index : Nat) : Fault
  | undefinedShift (count : Int) : Fault
  deriving DecidableEq, Repr

/-! ## Data model (`riscv_sim.hpp`) -/

/-- Record `struct Instruction`: one decoded source line. -/
structure Instruction where
  label : String
  opcode : String
  rs1 : String
  rs2 : String
  rd : String
  labelTarget : String
  imm : Int
  deriving DecidableEq, Repr

/-- The members of `class RiscVSim`. -/
structure RiscVSim where
  registers : Nat → Int
  memory : Nat → Nat
  instructions : List Instruction
  labelToIndex : List (String × Nat)
  dataLabelToAddress : List (String × Nat)
  pc : Nat

/-- Constructor `RiscVSim::RiscVSim()`: `pc(0)`, registers and memory set to 0; the
containers start empty. -/
def RiscVSim.init : RiscVSim :=
  { registers := fun _ => 0
    memory := fun _ => 0
    instructions := []
    labelToIndex := []
    dataLabelToAddress := []
    pc := 0 }

/-! ## `std::stoi` and register names -/

/-- Library `isspace` in the "C" locale. -/
def isspace (c : Char) : Bool :=
  c = ' ' || c = '\t' || c = '\n' || c = '\x0b' || c = '\x0c' || c = '\r'

/-- Library `isdigit`. -/
def isdigit (c : Char) : Bool :=
  decide ('0'.toNat ≤ c.toNat) && decide (c.toNat ≤ '9'.toNat)

/-- Value of a run of decimal digits, most significant first. -/
def digitsValue (ds : List Char) : Nat :=
  ds.foldl (fun acc c => 10 * acc + (c.toNat - '0'.toNat)) 0

/-- Library `std::stoi(s)` (base 10) on the characters of `s`: skip leading
white space, take an optional sign and the longest run of digits; no digit
throws `std::invalid_argument`, a value outside `int` throws
`std::out_of_range`; what follows the digits is ignored. -/
def stoiChars (cs : List Char) : Except Fault Int :=
  let body := cs.dropWhile isspace
  let signed : Bool × List Char :=
    match body with
    | '-' :: t => (true, t)
    | '+' :: t => (false, t)
    | _ => (false, body)
  let ds := signed.2.takeWhile isdigit
  if ds.isEmpty then
    Except.error Fault.invalid_argument
  else
    let v : Int := if signed.1 then -(digitsValue ds : Int) else (digitsValue ds : Int)
    if v < -(2 ^ 31) ∨ v > 2 ^ 31 - 1 then
      Except.error Fault.out_of_range
    else
      Except.ok v

/-- Library `std::stoi` on a string. -/
def stoi (s : String) : Except Fault Int :=
  stoiChars s.toList

/-- Method `RiscVSim::parseRegisterNumber`.  (`regName.size()` counts bytes; a name of
fewer than two characters but two or more bytes starts with a non-ASCII
character and is answered 0 by the next test, so the character count gives the
same result.) -/
def parseRegisterNumber (regName : String) : Except Fault Nat :=
  match regName.toList with
  | [] => Except.ok 0
  | [_] => Except.ok 0
  | c :: rest =>
    if c ≠ 'x' then Except.ok 0
    else
      match stoiChars rest with
      | Except.error e => Except.error e
      | Except.ok num =>
        if num < 0 ∨ num ≥ (NUM_REGS : Int) then Except.ok 0 else Except.ok num.toNat

/-- Method `RiscVSim::getRegister`. -/
def getRegister (s : RiscVSim) (regName : String) : Except Fault Int :=
  match parseRegisterNumber regName with
  | Except.error e => Except.error e
  | Except.ok r => if r = 0 then Except.ok 0 else Except.ok (s.registers r)

/-- Method `RiscVSim::setRegister`. -/
def setRegister (s : RiscVSim) (regName : String) (value : Int) : Except Fault RiscVSim :=
  match parseRegisterNumber regName with
  | Except.error e => Except.error e
  | Except.ok r =>
    if r = 0 then Except.ok s
    else Except.ok { s with registers := Function.update s.registers r value }

/-! ## Memory words -/

/-- Read of `memory[i]`. -/
def readByte (mem : Nat → Nat) (i : Nat) : Except Fault Nat :=
  if i < MEM_SIZE then Except.ok (mem i) else Except.error (Fault.memoryOutOfBounds i)

/-- Assignment `memory[i] = b`. -/
def writeByte (mem : Nat → Nat) (i : Nat) (b : Nat) : Except Fault (Nat → Nat) :=
  if i < MEM_SIZE then Except.ok (Function.update mem i b)
  else Except.error (Fault.memoryOutOfBounds i)

/-- Method `RiscVSim::loadWord`.  The sum `address + 3` and the four indices `address + k` are
computed in `uint32_t`; the bytes are shifted to their place and or-ed into an
`int32_t`. -/
def loadWord (mem : Nat → Nat) (address : Nat) : Except Fault Int :=
  if (address + 3) % 2 ^ 32 ≥ MEM_SIZE then
    Except.ok 0
  else
    match readByte mem ((address + 0) % 2 ^ 32) with
    | Except.error e => Except.error e
    | Except.ok b0 =>
    match readByte mem ((address + 1) % 2 ^ 32) with
    | Except.error e => Except.error e
    | Except.ok b1 =>
    match readByte mem ((address + 2) % 2 ^ 32) with
    | Except.error e => Except.error e
    | Except.ok b2 =>
    match readByte mem ((address + 3) % 2 ^ 32) with
    | Except.error e => Except.error e
    | Except.ok b3 =>
      Except.ok (toInt32 (((b0 <<< 0) ||| (b1 <<< 8) ||| (b2 <<< 16) ||| (b3 <<< 24) : Nat) : Int))

/-- Byte `k` of an `int32_t`: `(value >> (8 * k)) & 0xFF`, the shift being
arithmetic. -/
def byteOf (value : Int) (k : Nat) : Nat :=
  ((value / 2 ^ (8 * k)) % 256).toNat

/-- Method `RiscVSim::storeWord`: same guard as `loadWord`, then the four bytes of
`value`, least significant first. -/
def storeWord (mem : Nat → Nat) (address : Nat) (value : Int) : Except Fault (Nat → Nat) :=
  if (address + 3) % 2 ^ 32 ≥ MEM_SIZE then
    Except.ok mem
  else
    match writeByte mem ((address + 0) % 2 ^ 32) (byteOf value 0) with
    | Except.error e => Except.error e
    | Except.ok m0 =>
    match writeByte m0 ((address + 1) % 2 ^ 32) (byteOf value 1) with
    | Except.error e => Except.error e
    | Except.ok m1 =>
    match writeByte m1 ((address + 2) % 2 ^ 32) (byteOf value 2) with
    | Except.error e => Except.error e
    | Except.ok m2 =>
      writeByte m2 ((address + 3) % 2 ^ 32) (byteOf value 3)

/-! ## Execution engine -/

/-- The end of `executeInstruction`: `pc = nextPc; return (pc < instructions.size());` -/
def commit (s : RiscVSim) (nextPc : Nat) : Bool × RiscVSim :=
  (decide (nextPc < s.instructions.length), { s with pc := nextPc })

/-- Method `RiscVSim::executeInstruction`.  The Boolean is the returned value
(`false`: stop), the state is the simulator after the call.  The two operands of
a binary operator are read left to right; C++ leaves that order open, and it
decides nothing but which of two exceptions is seen first. -/
def executeInstruction (s : RiscVSim) (instr : Instruction) : Except Fault (Bool × RiscVSim) :=
  let nextPc : Nat := (s.pc + 1) % 2 ^ 32
  if instr.opcode = "addi" then
    match getRegister s instr.rs1 with
    | Except.error e => Except.error e
    | Except.ok a =>
    match setRegister s instr.rd (toInt32 (a + instr.imm)) with
    | Except.error e => Except.error e
    | Except.ok s1 => Except.ok (commit s1 nextPc)
  else if instr.opcode = "add" then
    match getRegister s instr.rs1 with
    | Except.error e => Except.error e
    | Except.ok a =>
    match getRegister s instr.rs2 with
    | Except.error e => Except.error e
    | Except.ok b =>
    match setRegister s instr.rd (toInt32 (a + b)) with
    | Except.error e => Except.error e
    | Except.ok s1 => Except.ok (commit s1 nextPc)
  else if instr.opcode = "sub" then
    match getRegister s instr.rs1 with
    | Except.error e => Except.error e
    | Except.ok a =>
    match getRegister s instr.rs2 with
    | Except.error e => Except.error e
    | Except.ok b =>
    match setRegister s instr.rd (toInt32 (a - b)) with
    | Except.error e => Except.error e
    | Except.ok s1 => Except.ok (commit s1 nextPc)
  else if instr.opcode = "mul" then
    match getRegister s instr.rs1 with
    | Except.error e => Except.error e
    | Except.ok a =>
    match getRegister s instr.rs2 with
    | Except.error e => Except.error e
    | Except.ok b =>
    let val : Int := toInt64 (toInt64 a * toInt64 b)
    match setRegister s instr.rd (toInt32 (val % 2 ^ 32)) with
    | Except.error e => Except.error e
    | Except.ok s1 => Except.ok (commit s1 nextPc)
  else if instr.opcode = "sll" then
    match getRegister s instr.rs1 with
    | Except.error e => Except.error e
    | Except.ok val1 =>
    match getRegister s instr.rs2 with
    | Except.error e => Except.error e
    | Except.ok val2 =>
    let shiftAmount : Nat := (val2 % 32).toNat
    let result : Nat := (toUInt32 val1 * 2 ^ shiftAmount) % 2 ^ 32
    match setRegister s instr.rd (toInt32 (result : Int)) with
    | Except.error e => Except.error e
    | Except.ok s1 => Except.ok (commit s1 nextPc)
  else if instr.opcode = "slli" then
    match getRegister s instr.rs1 with
    | Except.error e => Except.error e
    | Except.ok val1 =>
    let shiftAmount : Nat := (instr.imm % 32).toNat
    let result : Nat := (toUInt32 val1 * 2 ^ shiftAmount) % 2 ^ 32
    match setRegister s instr.rd (toInt32 (result : Int)) with
    | Except.error e => Except.error e
    | Except.ok s1 => Except.ok (commit s1 nextPc)
  else if instr.opcode = "lw" then
    match getRegister s instr.rs1 with
    | Except.error e => Except.error e
    | Except.ok base =>
    let addr : Nat := toUInt32 (toInt32 (base + instr.imm))
    match loadWord s.memory addr with
    | Except.error e => Except.error e
    | Except.ok data =>
    match setRegister s instr.rd data with
    | Except.error e => Except.error e
    | Except.ok s1 => Except.ok (commit s1 nextPc)
  else if instr.opcode = "sw" then
    match getRegister s instr.rs1 with
    | Except.error e => Except.error e
    | Except.ok base =>
    let addr : Nat := toUInt32 (toInt32 (base + instr.imm))
    match getRegister s instr.rd with
    | Except.error e => Except.error e
    | Except.ok value =>
    match storeWord s.memory addr value with
    | Except.error e => Except.error e
    | Except.ok mem1 => Except.ok (commit { s with memory := mem1 } nextPc)
  else if instr.opcode = "beq" then
    match getRegister s instr.rs1 with
    | Except.error e => Except.error e
    | Except.ok val1 =>
    match getRegister s instr.rs2 with
    | Except.error e => Except.error e
    | Except.ok val2 =>
    if val1 = val2 then
      if instr.labelTarget ≠ "" then
        match s.labelToIndex.lookup instr.labelTarget with
        | some index => Except.ok (commit s index)
        | none => Except.ok (commit s nextPc)
      else
        Except.ok (commit s (toUInt32 ((s.pc : Int) + 1 + instr.imm)))
    else
      Except.ok (commit s nextPc)
  else if instr.opcode = "bne" then
    match getRegister s instr.rs1 with
    | Except.error e => Except.error e
    | Except.ok val1 =>
    match getRegister s instr.rs2 with
    | Except.error e => Except.error e
    | Except.ok val2 =>
    if val1 ≠ val2 then
      if instr.labelTarget ≠ "" then
        match s.labelToIndex.lookup instr.labelTarget with
        | some index => Except.ok (commit s index)
        | none => Except.ok (commit s nextPc)
      else
        Except.ok (commit s (toUInt32 ((s.pc : Int) + 1 + instr.imm)))
    else
      Except.ok (commit s nextPc)
  else if instr.opcode = "ecall" then
    Except.ok (false, s)
  else
    Except.ok (commit s nextPc)

/-- Outcome of `run`: the simulator when `run` returns, and the calls of
`executeInstruction` it made, each as the program counter at the call and the
record passed. -/
structure RunResult where
  final : RiscVSim
  steps : List (Nat × Instruction)

/-- Method `RiscVSim::run`: while `pc < instructions.size()`, call
`executeInstruction(instructions[pc])` and leave the loop when it returns `false`.
The loop may not end; `fuel` bounds the number of iterations and `none` is
"still running". -/
def run : Nat → RiscVSim → Except Fault (Option RunResult)
  | 0, _ => Except.ok none
  | fuel + 1, s =>
    match s.instructions[s.pc]? with
    | none => Except.ok (some { final := s, steps := [] })
    | some instr =>
      match executeInstruction s instr with
      | Except.error e => Except.error e
      | Except.ok (false, s1) => Except.ok (some { final := s1, steps := [(s.pc, instr)] })
      | Except.ok (true, s1) =>
        match run fuel s1 with
        | Except.error e => Except.error e
        | Except.ok none => Except.ok none
        | Except.ok (some r) =>
          Except.ok (some { final := r.final, steps := (s.pc, instr) :: r.steps })


/-! ## States of a run -/

/-- The simulator when `main` calls `run`: built by the constructor, after which
`loadAssembly` has filled the program, the two label tables and the data bytes
of memory.  Assembly writes no register and leaves `pc` at 0. -/
def assembled (program : List Instruction) (labels dataLabels : List (String × Nat))
    (mem : Nat → Nat) : RiscVSim :=
  { RiscVSim.init with
    instructions := program
    labelToIndex := labels
    dataLabelToAddress := dataLabels
    memory := mem }

/-- States reached from `start` by successful calls of `executeInstruction`, on
any instruction record. -/
inductive Reachable (start : RiscVSim) : RiscVSim → Prop where
  | start : Reachable start start
  | step (s s1 : RiscVSim) (instr : Instruction) (b : Bool) :
      Reachable start s → executeInstruction s instr = Except.ok (b, s1) → Reachable start s1

/-- A record with the given opcode and operands, no label on its line. -/
def mkInstr (opcode rd rs1 rs2 : String) (imm : Int) (labelTarget : String) : Instruction :=
  { label := "", opcode := opcode, rs1 := rs1, rs2 := rs2, rd := rd,
    labelTarget := labelTarget, imm := imm }

/-! ## Assembler: tokens and numerals -/

/-- Tokens read by `while(ss >> tok)`: the maximal runs of characters that are
not white space.  The second argument is the token being read. -/
def splitTokens : List Char → List Char → List String
  | [], cur => if cur.isEmpty then [] else [String.mk cur]
  | c :: cs, cur =>
    if isspace c then
      if cur.isEmpty then splitTokens cs [] else String.mk cur :: splitTokens cs []
    else splitTokens cs (cur ++ [c])

/-- The loop `if(c == ',') c = ' ';` over a string. -/
def commasToSpaces (cs : List Char) : List Char :=
  cs.map (fun c => if c = ',' then ' ' else c)

/-- The token vector built at the start of `parseInstructionLine`. -/
def tokenize (line : String) : List String :=
  splitTokens (commasToSpaces line.toList) []

/-- The test `isNumber` of `parseInstructionLine`: every character is a digit,
`-` or `+`. -/
def isNumberToken (tok : String) : Bool :=
  tok.toList.all (fun c => isdigit c || c = '-' || c = '+')

/-- Position of the first occurrence of a character (`std::string::find`),
`none` for `npos`. -/
def findChar (c : Char) : List Char → Option Nat
  | [] => none
  | d :: ds => if d = c then some 0 else (findChar c ds).map (fun i => i + 1)

/-- Formatted input `ss >> value` for an `int`: skip white space, read an
optional sign and the digits that follow; the extraction fails when there is no
digit or when the number does not fit an `int`.  On success the value comes with
the unread rest of the stream. -/
def extractInt (cs : List Char) : Option (Int × List Char) :=
  let body := cs.dropWhile isspace
  let signed : Bool × List Char :=
    match body with
    | '-' :: t => (true, t)
    | '+' :: t => (false, t)
    | _ => (false, body)
  let ds := signed.2.takeWhile isdigit
  if ds.isEmpty then
    none
  else
    let v : Int := if signed.1 then -(digitsValue ds : Int) else (digitsValue ds : Int)
    if v < -(2 ^ 31) ∨ v > 2 ^ 31 - 1 then none
    else some (v, signed.2.dropWhile isdigit)

/-! ## Assembler: `parseInstructionLine` -/

/-- The record `parseInstructionLine` starts from: every text field empty,
`imm = 0`. -/
def emptyInstruction : Instruction :=
  { label := "", opcode := "", rs1 := "", rs2 := "", rd := "", labelTarget := "", imm := 0 }

/-- The opcode patterns of `parseInstructionLine`: `instr` has its label and
opcode set, `tokens` starts with the opcode token (`tokens[0]`).  In the `lw`/`sw`
pattern `base` is `memStr.substr(openParen + 1, closeParen - openParen - 1)`; when
`)` stands before `(` that count wraps around in `size_t` to more than the
length of the string, and `substr` takes all that remains. -/
def parseOperands (instr : Instruction) (tokens : List String) : Except Fault Instruction :=
  if instr.opcode = "addi" then
    match tokens with
    | _ :: t1 :: t2 :: t3 :: _ =>
      match stoi t3 with
      | Except.error e => Except.error e
      | Except.ok v => Except.ok { instr with rd := t1, rs1 := t2, imm := v }
    | _ => Except.ok instr
  else if instr.opcode = "add" ∨ instr.opcode = "sub" ∨ instr.opcode = "mul" then
    match tokens with
    | _ :: t1 :: t2 :: t3 :: _ => Except.ok { instr with rd := t1, rs1 := t2, rs2 := t3 }
    | _ => Except.ok instr
  else if instr.opcode = "sll" then
    match tokens with
    | _ :: t1 :: t2 :: t3 :: _ =>
      if isNumberToken t3 then
        match stoi t3 with
        | Except.error e => Except.error e
        | Except.ok v => Except.ok { instr with rd := t1, rs1 := t2, opcode := "slli", imm := v }
      else
        Except.ok { instr with rd := t1, rs1 := t2, rs2 := t3 }
    | _ => Except.ok instr
  else if instr.opcode = "lw" ∨ instr.opcode = "sw" then
    match tokens with
    | _ :: t1 :: memStr :: _ =>
      match findChar '(' memStr.toList, findChar ')' memStr.toList with
      | some openParen, some closeParen =>
        let offset := memStr.toList.take openParen
        let count : Nat :=
          if openParen < closeParen then closeParen - openParen - 1 else memStr.toList.length
        let base := (memStr.toList.drop (openParen + 1)).take count
        if offset = [] then
          Except.ok { instr with rd := t1, rs1 := String.mk base }
        else
          match stoiChars offset with
          | Except.error e => Except.error e
          | Except.ok v => Except.ok { instr with rd := t1, rs1 := String.mk base, imm := v }
      | _, _ => Except.ok { instr with rd := t1 }
    | _ => Except.ok instr
  else if instr.opcode = "li" then
    match tokens with
    | _ :: t1 :: t2 :: _ =>
      match stoi t2 with
      | Except.error e => Except.error e
      | Except.ok v => Except.ok { instr with rd := t1, rs1 := "x0", imm := v, opcode := "addi" }
    | _ => Except.ok instr
  else if instr.opcode = "beq" ∨ instr.opcode = "bne" then
    match tokens with
    | _ :: t1 :: t2 :: t3 :: _ =>
      if isNumberToken t3 then
        match stoi t3 with
        | Except.error e => Except.error e
        | Except.ok v => Except.ok { instr with rs1 := t1, rs2 := t2, imm := v }
      else
        Except.ok { instr with rs1 := t1, rs2 := t2, labelTarget := t3 }
    | _ => Except.ok instr
  else
    Except.ok instr

/-- Method `RiscVSim::parseInstructionLine`.  A first token ending in `:` is the
line's label and is removed; the next token, if any, is the opcode. -/
def parseInstructionLine (line : String) : Except Fault Instruction :=
  match tokenize line with
  | [] => Except.ok emptyInstruction
  | t0 :: rest =>
    if t0.toList.getLast? = some ':' then
      match rest with
      | [] => Except.ok { emptyInstruction with label := String.mk t0.toList.dropLast }
      | op :: _ =>
        parseOperands
          { emptyInstruction with label := String.mk t0.toList.dropLast, opcode := op } rest
    else
      parseOperands { emptyInstruction with opcode := t0 } (t0 :: rest)

/-! ## Assembler: `loadAssembly` -/

/-- Method `RiscVSim::handleLabel`: `labelToIndex[label] = instrIndex`.  The map
is kept as the list of its assignments, latest first; `find` is `List.lookup`,
which answers the latest assignment of a key. -/
def handleLabel (s : RiscVSim) (label : String) (instrIndex : Nat) : RiscVSim :=
  { s with labelToIndex := (label, instrIndex) :: s.labelToIndex }

/-- The locals of `loadAssembly` that live across lines, with the simulator. -/
structure Assembly where
  sim : RiscVSim
  parsingText : Bool
  instrIndex : Nat
  dataAddress : Nat

/-- The loop `while(ss >> value) { storeWord(dataAddress, value); dataAddress += 4; }`
of the `.word` directive.  Every successful extraction consumes a character, so
the loop makes at most as many rounds as the text has characters; the first
argument bounds the rounds. -/
def wordLoop : Nat → List Char → Nat → (Nat → Nat) → Except Fault (Nat × (Nat → Nat))
  | 0, _, dataAddress, mem => Except.ok (dataAddress, mem)
  | rounds + 1, text, dataAddress, mem =>
    match extractInt text with
    | none => Except.ok (dataAddress, mem)
    | some (value, rest) =>
      match storeWord mem dataAddress value with
      | Except.error e => Except.error e
      | Except.ok mem1 => wordLoop rounds rest ((dataAddress + 4) % 2 ^ 32) mem1

/-- The body of the `.align` directive, given the converted exponent:
`alignBoundary = 1u << alignValue`, then
`(dataAddress + alignBoundary - 1) & ~(alignBoundary - 1)` in `uint32_t`.  A shift
count outside 0..31 has no defined result. -/
def alignAddress (dataAddress : Nat) (alignValue : Int) : Except Fault Nat :=
  if alignValue < 0 ∨ alignValue ≥ 32 then
    Except.error (Fault.undefinedShift alignValue)
  else
    let alignBoundary : Nat := 2 ^ alignValue.toNat
    Except.ok (((dataAddress + alignBoundary - 1) % 2 ^ 32) &&& (2 ^ 32 - 1 - (alignBoundary - 1)))

/-- The line as `loadAssembly` looks at it: leading blanks and tabs removed
(`find_first_not_of(" \t")`), then cut at the first `#`.  A line of blanks and
tabs only, which the method skips before looking for a comment, comes out empty
like a line that is empty after the cut. -/
def cleanLine (line : String) : List Char :=
  (line.toList.dropWhile (fun c => c = ' ' || c = '\t')).takeWhile (fun c => c ≠ '#')

/-- The text-mode branch of the `getline` loop, on a cleaned line that is not a
section directive. -/
def assembleText (st : Assembly) (text : List Char) : Except Fault Assembly :=
  if text.getLast? = some ':' then
    Except.ok { st with sim := handleLabel st.sim (String.mk text.dropLast) st.instrIndex }
  else
    match parseInstructionLine (String.mk text) with
    | Except.error e => Except.error e
    | Except.ok instr =>
      let sim1 := if instr.label ≠ "" then handleLabel st.sim instr.label st.instrIndex
        else st.sim
      if instr.opcode ≠ "" then
        Except.ok { st with
          sim := { sim1 with instructions := sim1.instructions ++ [instr] }
          instrIndex := (st.instrIndex + 1) % 2 ^ 32 }
      else
        Except.ok { st with sim := sim1 }

/-- The data-mode branch of the `getline` loop, on a cleaned line that is not a
section directive.  The last case is the warning "Unrecognized data directive". -/
def assembleData (st : Assembly) (text : List Char) : Except Fault Assembly :=
  if text.getLast? = some ':' then
    Except.ok { st with
      sim := { st.sim with
        dataLabelToAddress :=
          (String.mk text.dropLast, st.dataAddress) :: st.sim.dataLabelToAddress } }
  else if ".word".toList.isPrefixOf text then
    let rest := commasToSpaces ((text.drop 5).dropWhile isspace)
    match wordLoop (rest.length + 1) rest st.dataAddress st.sim.memory with
    | Except.error e => Except.error e
    | Except.ok (dataAddress1, mem1) =>
      Except.ok { st with sim := { st.sim with memory := mem1 }, dataAddress := dataAddress1 }
  else if ".align".toList.isPrefixOf text then
    let rest := (text.drop 6).dropWhile isspace
    match stoiChars rest with
    | Except.error e => Except.error e
    | Except.ok alignValue =>
      match alignAddress st.dataAddress alignValue with
      | Except.error e => Except.error e
      | Except.ok dataAddress1 => Except.ok { st with dataAddress := dataAddress1 }
  else
    Except.ok st

/-- One round of the `while(std::getline(fin, line))` loop of `loadAssembly`. -/
def assembleLine (st : Assembly) (line : String) : Except Fault Assembly :=
  let text := cleanLine line
  if text.isEmpty then Except.ok st
  else if text = ".text".toList then Except.ok { st with parsingText := true }
  else if text = ".data".toList then Except.ok { st with parsingText := false }
  else if st.parsingText then assembleText st text
  else assembleData st text

/-- The `getline` loop of `loadAssembly` over the lines of the file. -/
def assembleLines : Assembly → List String → Except Fault Assembly
  | st, [] => Except.ok st
  | st, line :: rest =>
    match assembleLine st line with
    | Except.error e => Except.error e
    | Except.ok st1 => assembleLines st1 rest

/-- What `loadAssembly` sets before reading the first line: cleared containers,
`pc = 0`, data mode, no instruction stored, data written from address 32. -/
def Assembly.start (s : RiscVSim) : Assembly :=
  { sim := { s with instructions := [], labelToIndex := [], dataLabelToAddress := [], pc := 0 }
    parsingText := false
    instrIndex := 0
    dataAddress := 32 }

/-- Method `RiscVSim::loadAssembly` on a file that opens, given as its lines;
the result is the simulator when the method returns `true`. -/
def loadAssembly (s : RiscVSim) (lines : List String) : Except Fault RiscVSim :=
  match assembleLines (Assembly.start s) lines with
  | Except.error e => Except.error e
  | Except.ok st => Except.ok st.sim

/-! ## Source text of numbers -/

/-- Decimal digits of a natural number, most significant first; the first
argument bounds the number of digits. -/
def decimalDigits : Nat → Nat → List Char
  | 0, _ => []
  | fuel + 1, n =>
    if n < 10 then [Nat.digitChar n]
    else decimalDigits fuel (n / 10) ++ [Nat.digitChar (n % 10)]

/-- Decimal text of an integer as a source file writes it: the digits, after a
`-` for a negative number. -/
def decimal (v : Int) : List Char :=
  if v < 0 then '-' :: decimalDigits (v.natAbs + 1) v.natAbs
  else decimalDigits (v.natAbs + 1) v.natAbs

/-- Operand text `v1,...,vk` of a `.word` directive. -/
def wordOperands : List Int → List Char
  | [] => []
  | [v] => decimal v
  | v :: vs => decimal v ++ ',' :: wordOperands vs

/-- Source line `.word v1,...,vk`. -/
def wordLine (vs : List Int) : String :=
  String.mk (".word ".toList ++ wordOperands vs)

/-- Source line `.align n`. -/
def alignLine (n : Nat) : String :=
  String.mk (".align ".toList ++ decimal (n : Int))

/-- The token vector of `line` is an optional label token (ending in `:`), the
mnemonic `m` and the operand tokens; `label` is the label token without its
colon, empty when there is none. -/
def lineShape (line : String) (label m : String) (operands : List String) : Prop :=
  (tokenize line = m :: operands ∧ m.toList.getLast? ≠ some ':' ∧ label = "") ∨
  (∃ t0, tokenize line = t0 :: m :: operands ∧ t0.toList.getLast? = some ':' ∧
    label = String.mk t0.toList.dropLast)

/-- Source line `li rd, imm`. -/
def liLine (rd : String) (imm : Int) : String :=
  String.mk ("li ".toList ++ rd.toList ++ ", ".toList ++ decimal imm)

/-- Source line `addi rd, rs1, imm`. -/
def addiLine (rd rs1 : String) (imm : Int) : String :=
  String.mk ("addi ".toList ++ rd.toList ++ ", ".toList ++ rs1.toList ++ ", ".toList ++ decimal imm)

/-! ## Machine integers: basic facts -/

theorem toInt32_range (x : Int) : -(2 ^ 31) ≤ toInt32 x ∧ toInt32 x < 2 ^ 31 := by
  unfold toInt32
  simp only []
  split <;> omega

theorem toInt32_congr (x : Int) : (toInt32 x - x) % 2 ^ 32 = 0 := by
  unfold toInt32
  simp only []
  split <;> omega

theorem toInt32_of_range (x : Int) (h1 : -(2 ^ 31) ≤ x) (h2 : x < 2 ^ 31) : toInt32 x = x := by
  unfold toInt32
  simp only []
  split <;> omega

theorem toInt64_of_range (x : Int) (h1 : -(2 ^ 63) ≤ x) (h2 : x < 2 ^ 63) : toInt64 x = x := by
  unfold toInt64
  simp only []
  split <;> omega

/-! ## Register access -/

theorem parseRegisterNumber_lt (name : String) (r : Nat)
    (h : parseRegisterNumber name = Except.ok r) : r < NUM_REGS := by
  unfold parseRegisterNumber at h
  unfold NUM_REGS at *
  split at h
  · cases h; omega
  · cases h; omega
  · split at h
    · cases h; omega
    · split at h
      · cases h
      · split at h
        · cases h; omega
        · cases h; omega

theorem setRegister_zero (s s1 : RiscVSim) (name : String) (v : Int)
    (h : setRegister s name v = Except.ok s1) :
    s1.registers 0 = s.registers 0 ∧ s1.memory = s.memory ∧ s1.pc = s.pc ∧
      s1.instructions = s.instructions ∧ s1.labelToIndex = s.labelToIndex := by
  unfold setRegister at h
  split at h
  · cases h
  · split at h
    · cases h; simp
    · cases h
      rename_i r _ hr
      simp [Function.update, Ne.symm hr]

theorem opcode_cases (op : String) :
    op = "addi" ∨ op = "add" ∨ op = "sub" ∨ op = "mul" ∨ op = "sll" ∨ op = "slli" ∨
      op = "lw" ∨ op = "sw" ∨ op = "beq" ∨ op = "bne" ∨ op = "ecall" ∨
      (op ≠ "addi" ∧ op ≠ "add" ∧ op ≠ "sub" ∧ op ≠ "mul" ∧ op ≠ "sll" ∧ op ≠ "slli" ∧
        op ≠ "lw" ∧ op ≠ "sw" ∧ op ≠ "beq" ∧ op ≠ "bne" ∧ op ≠ "ecall") := by
  tauto

/-- What every successful call of `executeInstruction` leaves alone, and what
its returned flag says. -/
theorem executeInstruction_frame (s s1 : RiscVSim) (instr : Instruction) (b : Bool)
    (h : executeInstruction s instr = Except.ok (b, s1)) :
    s1.registers 0 = s.registers 0 ∧ s1.instructions = s.instructions ∧
      s1.labelToIndex = s.labelToIndex ∧
      (b = true → s1.pc < s1.instructions.length) ∧
      (b = false → (instr.opcode = "ecall" ∧ s1 = s) ∨ s1.instructions.length ≤ s1.pc) := by
  rcases opcode_cases instr.opcode with
    hop | hop | hop | hop | hop | hop | hop | hop | hop | hop | hop |
    ⟨h1, h2, h3, h4, h5, h6, h7, h8, h9, h10, h11⟩
  case inr.inr.inr.inr.inr.inr.inr.inr.inr.inr.inr =>
    simp only [executeInstruction, h1, h2, h3, h4, h5, h6, h7, h8, h9, h10, h11, if_false] at h
    cases h
    simp +contextual [commit]
  all_goals
    simp only [executeInstruction, hop] at h
    simp +decide only [if_true, if_false] at h
    repeat' split at h
    all_goals first
      | (cases h; done)
      | (rename_i hs; have hz := setRegister_zero _ _ _ _ hs; cases h
         simp +contextual [commit, hz]; done)
      | (cases h; simp +contextual [commit]; done)
      | (cases h; exact ⟨rfl, rfl, rfl, by simp, fun _ => Or.inl ⟨hop, rfl⟩⟩)

/-! ## Register 0 -/

theorem parseRegisterNumber_x0 : parseRegisterNumber "x0" = Except.ok 0 := by
  rfl

theorem reachable_zero (start s : RiscVSim) (h0 : start.registers 0 = 0)
    (h : Reachable start s) : s.registers 0 = 0 := by
  induction h with
  | start => exact h0
  | step s s1 instr b _ hstep ih =>
    rw [(executeInstruction_frame s s1 instr b hstep).1]
    exact ih

/-- C1: in every state reachable from the zero-initialised, assembled simulator,
register 0 holds 0, `getRegister` on `x0` returns 0 and `setRegister` on `x0`
changes nothing; the same holds again after any further successful step,
whatever the instruction executed. -/
theorem x0_hardwired (program : List Instruction) (labels dataLabels : List (String × Nat))
    (mem : Nat → Nat) (s : RiscVSim)
    (h : Reachable (assembled program labels dataLabels mem) s) :
    (s.registers 0 = 0 ∧ getRegister s "x0" = Except.ok 0 ∧
        ∀ v : Int, setRegister s "x0" v = Except.ok s) ∧
      ∀ (instr : Instruction) (b : Bool) (s1 : RiscVSim),
        executeInstruction s instr = Except.ok (b, s1) →
          s1.registers 0 = 0 ∧ getRegister s1 "x0" = Except.ok 0 ∧
            ∀ v : Int, setRegister s1 "x0" v = Except.ok s1 := by
  have hs : s.registers 0 = 0 := reachable_zero _ s rfl h
  refine ⟨⟨hs, ?_, ?_⟩, ?_⟩
  · simp [getRegister, parseRegisterNumber_x0]
  · intro v
    simp [setRegister, parseRegisterNumber_x0]
  · intro instr b s1 hstep
    refine ⟨?_, ?_, ?_⟩
    · rw [(executeInstruction_frame s s1 instr b hstep).1]
      exact hs
    · simp [getRegister, parseRegisterNumber_x0]
    · intro v
      simp [setRegister, parseRegisterNumber_x0]

/-- Instance of C1: after `addi x0, x0, 5` from the assembled start, register 0
is still 0, also across a following `addi x0, x0, 7`. -/
theorem x0_hardwired_witness :
    Reachable (assembled [mkInstr "addi" "x0" "x0" "" 5 ""] [] [] (fun _ => 0))
        { assembled [mkInstr "addi" "x0" "x0" "" 5 ""] [] [] (fun _ => 0) with pc := 1 } ∧
      ∀ (b : Bool) (s1 : RiscVSim),
        executeInstruction
            { assembled [mkInstr "addi" "x0" "x0" "" 5 ""] [] [] (fun _ => 0) with pc := 1 }
            (mkInstr "addi" "x0" "x0" "" 7 "") = Except.ok (b, s1) →
          s1.registers 0 = 0 := by
  have hr : Reachable (assembled [mkInstr "addi" "x0" "x0" "" 5 ""] [] [] (fun _ => 0))
      { assembled [mkInstr "addi" "x0" "x0" "" 5 ""] [] [] (fun _ => 0) with pc := 1 } :=
    Reachable.step _ _ (mkInstr "addi" "x0" "x0" "" 5 "") false Reachable.start (by rfl)
  exact ⟨hr, fun b s1 hstep =>
    ((x0_hardwired _ [] [] (fun _ => 0) _ hr).2 (mkInstr "addi" "x0" "x0" "" 7 "") b s1 hstep).1⟩


/-! ## Memory words -/

theorem byteOf_lt (v : Int) (k : Nat) : byteOf v k < 256 := by
  unfold byteOf
  omega

theorem or_bytes_eq_add (b0 b1 b2 b3 : Nat) (h0 : b0 < 256) (h1 : b1 < 256) (h2 : b2 < 256) :
    (b0 <<< 0) ||| (b1 <<< 8) ||| (b2 <<< 16) ||| (b3 <<< 24)
      = b0 + b1 * 2 ^ 8 + b2 * 2 ^ 16 + b3 * 2 ^ 24 := by
  have e1 : b1 * 2 ^ 8 + b0 = (b1 <<< 8) ||| b0 := by
    rw [Nat.shiftLeft_eq, Nat.mul_comm b1]
    exact Nat.mul_add_lt_is_or (by omega) b1
  have e2 : b2 * 2 ^ 16 + (b1 * 2 ^ 8 + b0) = (b2 <<< 16) ||| (b1 * 2 ^ 8 + b0) := by
    rw [Nat.shiftLeft_eq, Nat.mul_comm b2]
    exact Nat.mul_add_lt_is_or (by omega) b2
  have e3 : b3 * 2 ^ 24 + (b2 * 2 ^ 16 + (b1 * 2 ^ 8 + b0))
      = (b3 <<< 24) ||| (b2 * 2 ^ 16 + (b1 * 2 ^ 8 + b0)) := by
    rw [Nat.shiftLeft_eq, Nat.mul_comm b3]
    exact Nat.mul_add_lt_is_or (by omega) b3
  have e4 : b0 + b1 * 2 ^ 8 + b2 * 2 ^ 16 + b3 * 2 ^ 24
      = b3 * 2 ^ 24 + (b2 * 2 ^ 16 + (b1 * 2 ^ 8 + b0)) := by omega
  rw [e4, e3, e2, e1, Nat.shiftLeft_zero]
  rw [Nat.or_comm (b3 <<< 24), Nat.or_comm (b2 <<< 16), Nat.or_comm (b1 <<< 8)]

theorem word_of_bytes (v : Int) (h1 : -(2 ^ 31) ≤ v) (h2 : v < 2 ^ 31) :
    toInt32 (((byteOf v 0 <<< 0) ||| (byteOf v 1 <<< 8) ||| (byteOf v 2 <<< 16)
      ||| (byteOf v 3 <<< 24) : Nat) : Int) = v := by
  rw [or_bytes_eq_add _ _ _ _ (byteOf_lt v 0) (byteOf_lt v 1) (byteOf_lt v 2)]
  unfold toInt32 byteOf
  simp only [Nat.mul_zero, Nat.mul_one, pow_zero]
  push_cast
  split <;> omega

theorem storeWord_in_range (mem : Nat → Nat) (A : Nat) (v : Int) (h : A + 3 < MEM_SIZE) :
    storeWord mem A v = Except.ok
      (Function.update (Function.update (Function.update (Function.update mem A (byteOf v 0))
        (A + 1) (byteOf v 1)) (A + 2) (byteOf v 2)) (A + 3) (byteOf v 3)) := by
  unfold MEM_SIZE at h
  have e0 : (A + 0) % 2 ^ 32 = A := by omega
  have e1 : (A + 1) % 2 ^ 32 = A + 1 := by omega
  have e2 : (A + 2) % 2 ^ 32 = A + 2 := by omega
  have e3 : (A + 3) % 2 ^ 32 = A + 3 := by omega
  have l0 : A < 1024 := by omega
  have l1 : A + 1 < 1024 := by omega
  have l2 : A + 2 < 1024 := by omega
  have n3 : ¬ (A + 3 ≥ 1024) := by omega
  simp only [storeWord, writeByte, MEM_SIZE, e0, e1, e2, e3, l0, l1, l2, h, n3, if_true, if_false]

theorem loadWord_in_range (mem : Nat → Nat) (A : Nat) (h : A + 3 < MEM_SIZE) :
    loadWord mem A = Except.ok (toInt32
      (((mem A <<< 0) ||| (mem (A + 1) <<< 8) ||| (mem (A + 2) <<< 16)
        ||| (mem (A + 3) <<< 24) : Nat) : Int)) := by
  unfold MEM_SIZE at h
  have e0 : (A + 0) % 2 ^ 32 = A := by omega
  have e1 : (A + 1) % 2 ^ 32 = A + 1 := by omega
  have e2 : (A + 2) % 2 ^ 32 = A + 2 := by omega
  have e3 : (A + 3) % 2 ^ 32 = A + 3 := by omega
  have l0 : A < 1024 := by omega
  have l1 : A + 1 < 1024 := by omega
  have l2 : A + 2 < 1024 := by omega
  have n3 : ¬ (A + 3 ≥ 1024) := by omega
  simp only [loadWord, readByte, MEM_SIZE, e0, e1, e2, e3, l0, l1, l2, h, n3, if_true, if_false]

/-- Within the guard `address + 3 < MEM_SIZE`, a stored word is loaded back. -/
theorem loadWord_storeWord (mem : Nat → Nat) (A : Nat) (v : Int) (h : A + 3 < MEM_SIZE)
    (h1 : -(2 ^ 31) ≤ v) (h2 : v < 2 ^ 31) :
    ∃ mem1, storeWord mem A v = Except.ok mem1 ∧ loadWord mem1 A = Except.ok v := by
  refine ⟨_, storeWord_in_range mem A v h, ?_⟩
  rw [loadWord_in_range _ A h]
  have a1 : A ≠ A + 1 := by omega
  have a2 : A ≠ A + 2 := by omega
  have a3 : A ≠ A + 3 := by omega
  have a12 : A + 1 ≠ A + 2 := by omega
  have a13 : A + 1 ≠ A + 3 := by omega
  have a23 : A + 2 ≠ A + 3 := by omega
  simp only [Function.update_same, Function.update_noteq a1, Function.update_noteq a2,
    Function.update_noteq a3, Function.update_noteq a12, Function.update_noteq a13,
    Function.update_noteq a23, ne_eq]
  rw [word_of_bytes v h1 h2]

/-- Without wrap-around of `address + 3`, an access that does not fit in memory
is refused: the load answers 0 and the store changes nothing. -/
theorem loadWord_storeWord_refused (mem : Nat → Nat) (A : Nat) (v : Int)
    (h : MEM_SIZE ≤ A + 3) (hA : A + 3 < 2 ^ 32) :
    loadWord mem A = Except.ok 0 ∧ storeWord mem A v = Except.ok mem := by
  unfold MEM_SIZE at h
  have e3 : (A + 3) % 2 ^ 32 = A + 3 := by omega
  simp only [loadWord, storeWord, MEM_SIZE, e3, ge_iff_le, h, if_true, and_self]

theorem setRegister_of_parse (s : RiscVSim) (name : String) (v : Int) (r : Nat)
    (h : parseRegisterNumber name = Except.ok r) :
    setRegister s name v = Except.ok
      (if r = 0 then s else { s with registers := Function.update s.registers r v }) := by
  unfold setRegister
  rw [h]
  simp only []
  split <;> rfl

theorem getRegister_of_parse (s : RiscVSim) (name : String) (r : Nat)
    (h : parseRegisterNumber name = Except.ok r) :
    getRegister s name = Except.ok (if r = 0 then 0 else s.registers r) := by
  unfold getRegister
  rw [h]
  simp only []
  split <;> rfl

theorem executeInstruction_sw (s : RiscVSim) (instr : Instruction) (base value : Int)
    (mem1 : Nat → Nat) (h : instr.opcode = "sw")
    (hb : getRegister s instr.rs1 = Except.ok base)
    (hv : getRegister s instr.rd = Except.ok value)
    (hm : storeWord s.memory (toUInt32 (toInt32 (base + instr.imm))) value = Except.ok mem1) :
    executeInstruction s instr
      = Except.ok (commit { s with memory := mem1 } ((s.pc + 1) % 2 ^ 32)) := by
  simp only [executeInstruction, h]
  simp +decide only [if_true, if_false, hb, hv, hm]

theorem executeInstruction_lw (s : RiscVSim) (instr : Instruction) (base data : Int) (r : Nat)
    (h : instr.opcode = "lw")
    (hb : getRegister s instr.rs1 = Except.ok base)
    (hm : loadWord s.memory (toUInt32 (toInt32 (base + instr.imm))) = Except.ok data)
    (hr : parseRegisterNumber instr.rd = Except.ok r) :
    executeInstruction s instr
      = Except.ok (commit
          (if r = 0 then s else { s with registers := Function.update s.registers r data })
          ((s.pc + 1) % 2 ^ 32)) := by
  simp only [executeInstruction, h]
  simp +decide only [if_true, if_false, hb, hm, setRegister_of_parse s instr.rd data r hr]

/-- C2 (amended): for every 32-bit value `v` and every effective address `A`
with `A + 3 < 1024`, aligned or not, executing SW of a register holding `v` to
`A` and then LW from the same effective address `A` into a register other than
x0 leaves that register equal to `v`; on the memory alone, `storeWord(A, v)`
followed by `loadWord(A)` returns `v`. -/
theorem sw_lw_roundtrip (s : RiscVSim) (sw lw : Instruction) (v base : Int) (A r : Nat)
    (hsw : sw.opcode = "sw") (hlw : lw.opcode = "lw")
    (hv : getRegister s sw.rd = Except.ok v) (hv1 : -(2 ^ 31) ≤ v) (hv2 : v < 2 ^ 31)
    (hb : getRegister s sw.rs1 = Except.ok base)
    (hA : toUInt32 (toInt32 (base + sw.imm)) = A) (hfit : A + 3 < MEM_SIZE)
    (hr : parseRegisterNumber lw.rd = Except.ok r) (hr0 : r ≠ 0) :
    (∃ mem1, storeWord s.memory A v = Except.ok mem1 ∧ loadWord mem1 A = Except.ok v) ∧
      ∃ b1 s1, executeInstruction s sw = Except.ok (b1, s1) ∧
        ∀ base1 : Int, getRegister s1 lw.rs1 = Except.ok base1 →
          toUInt32 (toInt32 (base1 + lw.imm)) = A →
          ∃ b2 s2, executeInstruction s1 lw = Except.ok (b2, s2) ∧ s2.registers r = v := by
  obtain ⟨mem1, hst, hld⟩ := loadWord_storeWord s.memory A v hfit hv1 hv2
  refine ⟨⟨mem1, hst, hld⟩, ?_⟩
  refine ⟨_, _, executeInstruction_sw s sw base v mem1 hsw hb hv (by rw [hA]; exact hst), ?_⟩
  intro base1 hb1 hA1
  refine ⟨_, _, executeInstruction_lw _ lw base1 v r hlw hb1 ?_ hr, ?_⟩
  · rw [hA1]
    simpa [commit] using hld
  · simp [commit, hr0]

/-- Instance of C2 (amended): `sw x1, 1019(x0)` then `lw x2, 1019(x0)`, an
unaligned address whose four bytes fit, with x1 = -5. -/
theorem sw_lw_roundtrip_witness :
    ∃ b1 s1, executeInstruction
        { RiscVSim.init with registers := Function.update (fun _ => 0) 1 (-5) }
        (mkInstr "sw" "x1" "x0" "" 1019 "") = Except.ok (b1, s1) ∧
      ∀ base1 : Int, getRegister s1 "x0" = Except.ok base1 →
        toUInt32 (toInt32 (base1 + 1019)) = 1019 →
        ∃ b2 s2, executeInstruction s1 (mkInstr "lw" "x2" "x0" "" 1019 "") = Except.ok (b2, s2) ∧
          s2.registers 2 = -5 :=
  (sw_lw_roundtrip { RiscVSim.init with registers := Function.update (fun _ => 0) 1 (-5) }
    (mkInstr "sw" "x1" "x0" "" 1019 "") (mkInstr "lw" "x2" "x0" "" 1019 "") (-5) 0 1019 2
    rfl rfl (by rfl) (by decide) (by decide) (by rfl) (by rfl) (by decide) (by rfl)
    (by decide)).2

/-- C2 as stated fails at `A = 1021`, an address below the capacity 1024: with
x1 = 1, `sw x1, 1021(x0)` stores nothing and `lw x2, 1021(x0)` leaves x2 = 0. -/
theorem sw_lw_roundtrip_fails_at_1021 :
    (1021 : Nat) < MEM_SIZE ∧
    getRegister { RiscVSim.init with registers := Function.update (fun _ => 0) 1 1 } "x1"
      = Except.ok 1 ∧
    storeWord (fun _ => 0) 1021 1 = Except.ok (fun _ => 0) ∧
    loadWord (fun _ => 0) 1021 = Except.ok 0 ∧
    ∃ b1 s1 b2 s2,
      executeInstruction { RiscVSim.init with registers := Function.update (fun _ => 0) 1 1 }
        (mkInstr "sw" "x1" "x0" "" 1021 "") = Except.ok (b1, s1) ∧
      executeInstruction s1 (mkInstr "lw" "x2" "x0" "" 1021 "") = Except.ok (b2, s2) ∧
      s2.registers 2 = 0 ∧ s2.registers 2 ≠ 1 := by
  refine ⟨by decide, by rfl, by rfl, by rfl, _, _, _, _, by rfl, by rfl, by rfl, ?_⟩
  show (0 : Int) ≠ 1
  decide

/-- C3 (code at the failing input): with x1 = -3 the effective address of
`lw x2, 0(x1)` and of `sw x2, 0(x1)` is `2^32 - 3`; `address + 3` wraps to 0,
the guard `address + 3 >= MEM_SIZE` lets the access through, and the first byte
touched is `memory[4294967293]`, outside the 1024-byte array. -/
theorem lw_sw_wraparound_out_of_bounds :
    toUInt32 (toInt32 (-3 + 0)) = 4294967293 ∧
    (∀ mem : Nat → Nat,
      loadWord mem 4294967293 = Except.error (Fault.memoryOutOfBounds 4294967293)) ∧
    (∀ (mem : Nat → Nat) (v : Int),
      storeWord mem 4294967293 v = Except.error (Fault.memoryOutOfBounds 4294967293)) ∧
    executeInstruction { RiscVSim.init with registers := Function.update (fun _ => 0) 1 (-3) }
      (mkInstr "lw" "x2" "x1" "" 0 "") = Except.error (Fault.memoryOutOfBounds 4294967293) ∧
    executeInstruction { RiscVSim.init with registers := Function.update (fun _ => 0) 1 (-3) }
      (mkInstr "sw" "x2" "x1" "" 0 "") = Except.error (Fault.memoryOutOfBounds 4294967293) := by
  refine ⟨by rfl, fun mem => by rfl, fun mem v => by rfl, by rfl, by rfl⟩


/-! ## Branches -/

/-- C4: for a BEQ whose sources compare equal, or a BNE whose sources compare
unequal, the committed program counter is the index bound to the label target
when the record carries one that is in the instruction label table, and
`pc + 1 + imm` (modulo `2^32`) when the record carries no label target; when the
condition does not hold it is `pc + 1` (in `uint32_t`).  Registers and memory
are unchanged in every case. -/
theorem branch_commit (s : RiscVSim) (instr : Instruction) (a b : Int)
    (hop : instr.opcode = "beq" ∨ instr.opcode = "bne")
    (h1 : getRegister s instr.rs1 = Except.ok a)
    (h2 : getRegister s instr.rs2 = Except.ok b) :
    ∃ flag s1, executeInstruction s instr = Except.ok (flag, s1) ∧
      s1.registers = s.registers ∧ s1.memory = s.memory ∧
      (((instr.opcode = "beq" ∧ a = b) ∨ (instr.opcode = "bne" ∧ a ≠ b)) →
        ∀ i : Nat, instr.labelTarget ≠ "" →
          s.labelToIndex.lookup instr.labelTarget = some i → s1.pc = i) ∧
      (((instr.opcode = "beq" ∧ a = b) ∨ (instr.opcode = "bne" ∧ a ≠ b)) →
        instr.labelTarget = "" → s1.pc = (((s.pc : Int) + 1 + instr.imm) % 2 ^ 32).toNat) ∧
      (¬ ((instr.opcode = "beq" ∧ a = b) ∨ (instr.opcode = "bne" ∧ a ≠ b)) →
        s1.pc = (s.pc + 1) % 2 ^ 32 ∧ (s.pc + 1 < 2 ^ 32 → s1.pc = s.pc + 1)) := by
  rcases hop with hop | hop
  · by_cases hab : a = b
    · by_cases hl : instr.labelTarget = ""
      · have hexec : executeInstruction s instr
            = Except.ok (commit s (toUInt32 ((s.pc : Int) + 1 + instr.imm))) := by
          simp only [executeInstruction, hop]
          simp +decide only [if_true, if_false, h1, h2, hab, hl, ne_eq, not_true_eq_false,
            not_false_eq_true]
        refine ⟨_, _, hexec, rfl, rfl, ?_, ?_, ?_⟩
        · intro _ i hne; exact absurd hl hne
        · intro _ _; rfl
        · intro h; exact absurd (Or.inl ⟨hop, hab⟩) h
      · cases hlk : s.labelToIndex.lookup instr.labelTarget with
        | none =>
          have hexec : executeInstruction s instr
              = Except.ok (commit s ((s.pc + 1) % 2 ^ 32)) := by
            simp only [executeInstruction, hop]
            simp +decide only [if_true, if_false, h1, h2, hab, hl, hlk, ne_eq,
              not_true_eq_false, not_false_eq_true]
          refine ⟨_, _, hexec, rfl, rfl, ?_, ?_, ?_⟩
          · intro _ i _ hi; cases hi
          · intro _ he; exact absurd he hl
          · intro h; exact absurd (Or.inl ⟨hop, hab⟩) h
        | some j =>
          have hexec : executeInstruction s instr = Except.ok (commit s j) := by
            simp only [executeInstruction, hop]
            simp +decide only [if_true, if_false, h1, h2, hab, hl, hlk, ne_eq,
              not_true_eq_false, not_false_eq_true]
          refine ⟨_, _, hexec, rfl, rfl, ?_, ?_, ?_⟩
          · intro _ i _ hi; cases hi; rfl
          · intro _ he; exact absurd he hl
          · intro h; exact absurd (Or.inl ⟨hop, hab⟩) h
    · have hexec : executeInstruction s instr
          = Except.ok (commit s ((s.pc + 1) % 2 ^ 32)) := by
        simp only [executeInstruction, hop]
        simp +decide only [if_true, if_false, h1, h2, hab, ne_eq, not_true_eq_false,
          not_false_eq_true]
      have hnot : ¬ ((instr.opcode = "beq" ∧ a = b) ∨ (instr.opcode = "bne" ∧ a ≠ b)) := by
        rw [hop]
        simp +decide [hab]
      refine ⟨_, _, hexec, rfl, rfl, ?_, ?_, ?_⟩
      · intro h; exact absurd h hnot
      · intro h; exact absurd h hnot
      · intro _; exact ⟨rfl, fun h => Nat.mod_eq_of_lt h⟩
  · by_cases hab : a = b
    · have hexec : executeInstruction s instr
          = Except.ok (commit s ((s.pc + 1) % 2 ^ 32)) := by
        simp only [executeInstruction, hop]
        simp +decide only [if_true, if_false, h1, h2, hab, ne_eq, not_true_eq_false,
          not_false_eq_true]
      have hnot : ¬ ((instr.opcode = "beq" ∧ a = b) ∨ (instr.opcode = "bne" ∧ a ≠ b)) := by
        rw [hop]
        simp +decide [hab]
      refine ⟨_, _, hexec, rfl, rfl, ?_, ?_, ?_⟩
      · intro h; exact absurd h hnot
      · intro h; exact absurd h hnot
      · intro _; exact ⟨rfl, fun h => Nat.mod_eq_of_lt h⟩
    · by_cases hl : instr.labelTarget = ""
      · have hexec : executeInstruction s instr
            = Except.ok (commit s (toUInt32 ((s.pc : Int) + 1 + instr.imm))) := by
          simp only [executeInstruction, hop]
          simp +decide only [if_true, if_false, h1, h2, hab, hl, ne_eq, not_true_eq_false,
            not_false_eq_true]
        refine ⟨_, _, hexec, rfl, rfl, ?_, ?_, ?_⟩
        · intro _ i hne; exact absurd hl hne
        · intro _ _; rfl
        · intro h; exact absurd (Or.inr ⟨hop, hab⟩) h
      · cases hlk : s.labelToIndex.lookup instr.labelTarget with
        | none =>
          have hexec : executeInstruction s instr
              = Except.ok (commit s ((s.pc + 1) % 2 ^ 32)) := by
            simp only [executeInstruction, hop]
            simp +decide only [if_true, if_false, h1, h2, hab, hl, hlk, ne_eq,
              not_true_eq_false, not_false_eq_true]
          refine ⟨_, _, hexec, rfl, rfl, ?_, ?_, ?_⟩
          · intro _ i _ hi; cases hi
          · intro _ he; exact absurd he hl
          · intro h; exact absurd (Or.inr ⟨hop, hab⟩) h
        | some j =>
          have hexec : executeInstruction s instr = Except.ok (commit s j) := by
            simp only [executeInstruction, hop]
            simp +decide only [if_true, if_false, h1, h2, hab, hl, hlk, ne_eq,
              not_true_eq_false, not_false_eq_true]
          refine ⟨_, _, hexec, rfl, rfl, ?_, ?_, ?_⟩
          · intro _ i _ hi; cases hi; rfl
          · intro _ he; exact absurd he hl
          · intro h; exact absurd (Or.inr ⟨hop, hab⟩) h

/-- Instance of C4: at program counter 2, `beq x0, x0, loop` with `loop` bound
to 7 commits 7 and leaves registers and memory as they were. -/
theorem branch_commit_witness :
    ∃ flag s1,
      executeInstruction { assembled [] [("loop", 7)] [] (fun _ => 0) with pc := 2 }
        (mkInstr "beq" "" "x0" "x0" 0 "loop") = Except.ok (flag, s1) ∧
      s1.registers = (fun _ => 0) ∧ s1.memory = (fun _ => 0) ∧ s1.pc = 7 := by
  obtain ⟨flag, s1, hexec, hr, hm, hlabel, _, _⟩ :=
    branch_commit { assembled [] [("loop", 7)] [] (fun _ => 0) with pc := 2 }
      (mkInstr "beq" "" "x0" "x0" 0 "loop") 0 0 (Or.inl rfl) (by rfl) (by rfl)
  exact ⟨flag, s1, hexec, hr, hm, hlabel (Or.inl ⟨rfl, rfl⟩) 7 (by decide) (by rfl)⟩

/-! ## Arithmetic -/

theorem toInt32_emod (x : Int) : toInt32 (x % 2 ^ 32) = toInt32 x := by
  unfold toInt32
  simp only []
  rw [Int.emod_emod_of_dvd x (dvd_refl _)]

/-- State committed after a write to a destination that is not register 0. -/
theorem commit_setRd (s : RiscVSim) (r : Nat) (v : Int) (n : Nat) (hr0 : r ≠ 0) :
    ∃ flag s1,
      commit (if r = 0 then s else { s with registers := Function.update s.registers r v }) n
        = (flag, s1) ∧
      s1.registers r = v ∧ (∀ j, j ≠ r → s1.registers j = s.registers j) ∧
      s1.memory = s.memory ∧ s1.pc = n := by
  refine ⟨_, _, rfl, ?_, ?_, ?_, ?_⟩
  · simp [commit, hr0]
  · intro j hj
    simp [commit, hr0, Function.update_noteq hj]
  · simp [commit, hr0]
  · simp [commit]

/-- C5: with the sources holding `a` and `b` and a destination other than x0,
ADD leaves the destination equal to `a + b` and SUB to `a - b`, each reduced
modulo `2^32` into the signed 32-bit range; `2147483647 + 1` gives
`-2147483648`. -/
theorem add_sub_wrap (s : RiscVSim) (instr : Instruction) (a b : Int) (r : Nat)
    (h1 : getRegister s instr.rs1 = Except.ok a)
    (h2 : getRegister s instr.rs2 = Except.ok b)
    (hr : parseRegisterNumber instr.rd = Except.ok r) (hr0 : r ≠ 0) :
    (instr.opcode = "add" →
      ∃ flag s1, executeInstruction s instr = Except.ok (flag, s1) ∧
        s1.registers r = toInt32 (a + b) ∧
        -(2 ^ 31) ≤ s1.registers r ∧ s1.registers r < 2 ^ 31 ∧
        (s1.registers r - (a + b)) % 2 ^ 32 = 0) ∧
    (instr.opcode = "sub" →
      ∃ flag s1, executeInstruction s instr = Except.ok (flag, s1) ∧
        s1.registers r = toInt32 (a - b) ∧
        -(2 ^ 31) ≤ s1.registers r ∧ s1.registers r < 2 ^ 31 ∧
        (s1.registers r - (a - b)) % 2 ^ 32 = 0) ∧
    toInt32 (2147483647 + 1) = -2147483648 := by
  refine ⟨?_, ?_, by rfl⟩
  · intro hop
    have hexec : executeInstruction s instr = Except.ok (commit
        (if r = 0 then s
          else { s with registers := Function.update s.registers r (toInt32 (a + b)) })
        ((s.pc + 1) % 2 ^ 32)) := by
      simp only [executeInstruction, hop]
      simp +decide only [if_true, if_false, h1, h2, setRegister_of_parse s instr.rd _ r hr]
    obtain ⟨flag, s1, hc, hv, _⟩ := commit_setRd s r (toInt32 (a + b)) ((s.pc + 1) % 2 ^ 32) hr0
    refine ⟨flag, s1, by rw [hexec, hc], hv, ?_, ?_, ?_⟩
    · rw [hv]; exact (toInt32_range _).1
    · rw [hv]; exact (toInt32_range _).2
    · rw [hv]; exact toInt32_congr _
  · intro hop
    have hexec : executeInstruction s instr = Except.ok (commit
        (if r = 0 then s
          else { s with registers := Function.update s.registers r (toInt32 (a - b)) })
        ((s.pc + 1) % 2 ^ 32)) := by
      simp only [executeInstruction, hop]
      simp +decide only [if_true, if_false, h1, h2, setRegister_of_parse s instr.rd _ r hr]
    obtain ⟨flag, s1, hc, hv, _⟩ := commit_setRd s r (toInt32 (a - b)) ((s.pc + 1) % 2 ^ 32) hr0
    refine ⟨flag, s1, by rw [hexec, hc], hv, ?_, ?_, ?_⟩
    · rw [hv]; exact (toInt32_range _).1
    · rw [hv]; exact (toInt32_range _).2
    · rw [hv]; exact toInt32_congr _

/-- Instance of C5: with x1 = 2147483647 and x2 = 1, `add x3, x1, x2` leaves
x3 = -2147483648. -/
theorem add_sub_wrap_witness :
    ∃ flag s1,
      executeInstruction
        { RiscVSim.init with
          registers := Function.update (Function.update (fun _ => 0) 1 2147483647) 2 1 }
        (mkInstr "add" "x3" "x1" "x2" 0 "") = Except.ok (flag, s1) ∧
      s1.registers 3 = -2147483648 := by
  obtain ⟨flag, s1, hexec, hv, _⟩ :=
    (add_sub_wrap
      { RiscVSim.init with
        registers := Function.update (Function.update (fun _ => 0) 1 2147483647) 2 1 }
      (mkInstr "add" "x3" "x1" "x2" 0 "") 2147483647 1 3 (by rfl) (by rfl) (by rfl)
      (by decide)).1 rfl
  exact ⟨flag, s1, hexec, by rw [hv]; rfl⟩

theorem int32_product_fits (a b : Int) (ha1 : -(2 ^ 31) ≤ a) (ha2 : a < 2 ^ 31)
    (hb1 : -(2 ^ 31) ≤ b) (hb2 : b < 2 ^ 31) :
    -(2 ^ 63) ≤ a * b ∧ a * b < 2 ^ 63 := by
  constructor <;> nlinarith

/-- C6: with the sources holding signed 32-bit values `a` and `b` and a
destination other than x0, MUL leaves the destination equal to the exact
product `a * b` reduced modulo `2^32` into the signed 32-bit range, whatever the
size of the product. -/
theorem mul_low_word (s : RiscVSim) (instr : Instruction) (a b : Int) (r : Nat)
    (hop : instr.opcode = "mul")
    (h1 : getRegister s instr.rs1 = Except.ok a)
    (h2 : getRegister s instr.rs2 = Except.ok b)
    (ha1 : -(2 ^ 31) ≤ a) (ha2 : a < 2 ^ 31) (hb1 : -(2 ^ 31) ≤ b) (hb2 : b < 2 ^ 31)
    (hr : parseRegisterNumber instr.rd = Except.ok r) (hr0 : r ≠ 0) :
    ∃ flag s1, executeInstruction s instr = Except.ok (flag, s1) ∧
      s1.registers r = toInt32 (a * b) ∧
      -(2 ^ 31) ≤ s1.registers r ∧ s1.registers r < 2 ^ 31 ∧
      (s1.registers r - a * b) % 2 ^ 32 = 0 := by
  have hexec : executeInstruction s instr = Except.ok (commit
      (if r = 0 then s
        else { s with
          registers :=
            Function.update s.registers r (toInt32 (toInt64 (toInt64 a * toInt64 b) % 2 ^ 32)) })
      ((s.pc + 1) % 2 ^ 32)) := by
    simp only [executeInstruction, hop]
    simp +decide only [if_true, if_false, h1, h2, setRegister_of_parse s instr.rd _ r hr]
  have hval : toInt32 (toInt64 (toInt64 a * toInt64 b) % 2 ^ 32) = toInt32 (a * b) := by
    have hp := int32_product_fits a b ha1 ha2 hb1 hb2
    rw [toInt64_of_range a (by omega) (by omega), toInt64_of_range b (by omega) (by omega),
      toInt64_of_range (a * b) hp.1 hp.2, toInt32_emod]
  rw [hval] at hexec
  obtain ⟨flag, s1, hc, hv, _⟩ := commit_setRd s r (toInt32 (a * b)) ((s.pc + 1) % 2 ^ 32) hr0
  refine ⟨flag, s1, by rw [hexec, hc], hv, ?_, ?_, ?_⟩
  · rw [hv]; exact (toInt32_range _).1
  · rw [hv]; exact (toInt32_range _).2
  · rw [hv]; exact toInt32_congr _

/-- Instance of C6: with x1 = 2147483647 and x2 = 2 the product 4294967294 is
outside the signed range and `mul x3, x1, x2` leaves x3 = -2. -/
theorem mul_low_word_witness :
    ∃ flag s1,
      executeInstruction
        { RiscVSim.init with
          registers := Function.update (Function.update (fun _ => 0) 1 2147483647) 2 2 }
        (mkInstr "mul" "x3" "x1" "x2" 0 "") = Except.ok (flag, s1) ∧
      s1.registers 3 = -2 := by
  obtain ⟨flag, s1, hexec, hv, _⟩ :=
    mul_low_word
      { RiscVSim.init with
        registers := Function.update (Function.update (fun _ => 0) 1 2147483647) 2 2 }
      (mkInstr "mul" "x3" "x1" "x2" 0 "") 2147483647 2 3 rfl (by rfl) (by rfl)
      (by decide) (by decide) (by decide) (by decide) (by rfl) (by decide)
  exact ⟨flag, s1, hexec, by rw [hv]; rfl⟩

/-- C7: with rs1 holding `a` and a destination other than x0, ADDI leaves the
destination equal to `a + imm` reduced modulo `2^32` into the signed 32-bit
range, leaves every other register and the memory unchanged and commits
`pc + 1` (in `uint32_t`); `addi x5, x0, 100` leaves x5 = 100 from any state. -/
theorem addi_effect (s : RiscVSim) (instr : Instruction) (a : Int) (r : Nat)
    (hop : instr.opcode = "addi")
    (h1 : getRegister s instr.rs1 = Except.ok a)
    (hr : parseRegisterNumber instr.rd = Except.ok r) (hr0 : r ≠ 0) :
    (∃ flag s1, executeInstruction s instr = Except.ok (flag, s1) ∧
      s1.registers r = toInt32 (a + instr.imm) ∧
      -(2 ^ 31) ≤ s1.registers r ∧ s1.registers r < 2 ^ 31 ∧
      (s1.registers r - (a + instr.imm)) % 2 ^ 32 = 0 ∧
      (∀ j, j ≠ r → s1.registers j = s.registers j) ∧
      s1.memory = s.memory ∧
      s1.pc = (s.pc + 1) % 2 ^ 32 ∧ (s.pc + 1 < 2 ^ 32 → s1.pc = s.pc + 1)) ∧
    ∃ flag s5, executeInstruction s (mkInstr "addi" "x5" "x0" "" 100 "") = Except.ok (flag, s5) ∧
      s5.registers 5 = 100 := by
  constructor
  · have hexec : executeInstruction s instr = Except.ok (commit
        (if r = 0 then s
          else { s with registers := Function.update s.registers r (toInt32 (a + instr.imm)) })
        ((s.pc + 1) % 2 ^ 32)) := by
      simp only [executeInstruction, hop]
      simp +decide only [if_true, if_false, h1, setRegister_of_parse s instr.rd _ r hr]
    obtain ⟨flag, s1, hc, hv, hframe, hmem, hpc⟩ :=
      commit_setRd s r (toInt32 (a + instr.imm)) ((s.pc + 1) % 2 ^ 32) hr0
    refine ⟨flag, s1, by rw [hexec, hc], hv, ?_, ?_, ?_, hframe, hmem, hpc, ?_⟩
    · rw [hv]; exact (toInt32_range _).1
    · rw [hv]; exact (toInt32_range _).2
    · rw [hv]; exact toInt32_congr _
    · intro h; rw [hpc]; exact Nat.mod_eq_of_lt h
  · have hexec : executeInstruction s (mkInstr "addi" "x5" "x0" "" 100 "") = Except.ok (commit
        (if (5 : Nat) = 0 then s
          else { s with registers := Function.update s.registers 5 (toInt32 (0 + 100)) })
        ((s.pc + 1) % 2 ^ 32)) := by
      have g : getRegister s "x0" = Except.ok 0 := by
        simp [getRegister, parseRegisterNumber_x0]
      have p5 : parseRegisterNumber "x5" = Except.ok 5 := by rfl
      simp only [executeInstruction, mkInstr]
      simp +decide only [if_true, if_false, g, setRegister_of_parse s "x5" _ 5 p5]
    obtain ⟨flag, s5, hc, hv, _⟩ :=
      commit_setRd s 5 (toInt32 (0 + 100)) ((s.pc + 1) % 2 ^ 32) (by decide)
    exact ⟨flag, s5, by rw [hexec, hc], by rw [hv]; rfl⟩

/-- Instance of C7: with x1 = -7, `addi x2, x1, 10` at program counter 0 leaves
x2 = 3, x1 = -7 and commits program counter 1. -/
theorem addi_effect_witness :
    ∃ flag s1,
      executeInstruction
        { RiscVSim.init with registers := Function.update (fun _ => 0) 1 (-7) }
        (mkInstr "addi" "x2" "x1" "" 10 "") = Except.ok (flag, s1) ∧
      s1.registers 2 = 3 ∧ s1.registers 1 = -7 ∧ s1.pc = 1 := by
  obtain ⟨flag, s1, hexec, hv, _, _, _, hframe, _, _, hpc⟩ :=
    (addi_effect
      { RiscVSim.init with registers := Function.update (fun _ => 0) 1 (-7) }
      (mkInstr "addi" "x2" "x1" "" 10 "") (-7) 2 rfl (by rfl) (by rfl) (by decide)).1
  exact ⟨flag, s1, hexec, by rw [hv]; rfl, by rw [hframe 1 (by decide)]; rfl,
    hpc (by decide)⟩

/-! ## Shifts -/

theorem shifted_cast (v : Int) (n : Nat) :
    (((toUInt32 v * 2 ^ n) % 2 ^ 32 : Nat) : Int) = ((v % 2 ^ 32) * 2 ^ n) % 2 ^ 32 := by
  unfold toUInt32
  push_cast
  rw [Int.toNat_of_nonneg (Int.emod_nonneg v (by norm_num))]

/-- C8: with rs1 holding `v`, the register form SLL whose rs2 holds `k` and the
immediate form SLLI with `imm = k`, on the same rd and rs1, have the same
outcome from the same state; a destination other than x0 is left equal to
`((v mod 2^32) * 2^(k mod 32)) mod 2^32` read as signed 32-bit, which is 8 for
`v = 1`, `k = 3`. -/
theorem sll_slli_agree (s : RiscVSim) (reg immForm : Instruction) (v k : Int)
    (hreg : reg.opcode = "sll") (himmForm : immForm.opcode = "slli")
    (hrd : immForm.rd = reg.rd) (hrs1 : immForm.rs1 = reg.rs1)
    (hv : getRegister s reg.rs1 = Except.ok v)
    (hk : getRegister s reg.rs2 = Except.ok k) (himm : immForm.imm = k) :
    executeInstruction s reg = executeInstruction s immForm ∧
    ∀ r : Nat, parseRegisterNumber reg.rd = Except.ok r → r ≠ 0 →
      ∃ flag s1, executeInstruction s reg = Except.ok (flag, s1) ∧
        executeInstruction s immForm = Except.ok (flag, s1) ∧
        s1.registers r = toInt32 (((v % 2 ^ 32) * 2 ^ (k % 32).toNat) % 2 ^ 32) ∧
        (v = 1 → k = 3 → s1.registers r = 8) := by
  have hsame : executeInstruction s reg = executeInstruction s immForm := by
    simp only [executeInstruction, hreg, himmForm]
    simp +decide only [if_true, if_false, hv, hk, hrd, hrs1, himm]
  refine ⟨hsame, ?_⟩
  intro r hr hr0
  have hexec : executeInstruction s reg = Except.ok (commit
      (if r = 0 then s
        else { s with
          registers :=
            Function.update s.registers r
              (toInt32 (((toUInt32 v * 2 ^ (k % 32).toNat) % 2 ^ 32 : Nat) : Int)) })
      ((s.pc + 1) % 2 ^ 32)) := by
    simp only [executeInstruction, hreg]
    simp +decide only [if_true, if_false, hv, hk, setRegister_of_parse s reg.rd _ r hr]
  rw [shifted_cast] at hexec
  obtain ⟨flag, s1, hc, hval, _⟩ :=
    commit_setRd s r (toInt32 (((v % 2 ^ 32) * 2 ^ (k % 32).toNat) % 2 ^ 32))
      ((s.pc + 1) % 2 ^ 32) hr0
  refine ⟨flag, s1, by rw [hexec, hc], by rw [← hsame, hexec, hc], hval, ?_⟩
  intro h1 h3
  rw [hval, h1, h3]
  rfl

/-- Instance of C8: with x2 = 1 and x3 = 3, `sll x1, x2, x3` and `slli x1, x2, 3`
both leave x1 = 8. -/
theorem sll_slli_agree_witness :
    ∃ flag s1,
      executeInstruction
        { RiscVSim.init with registers := Function.update (Function.update (fun _ => 0) 2 1) 3 3 }
        (mkInstr "sll" "x1" "x2" "x3" 0 "") = Except.ok (flag, s1) ∧
      executeInstruction
        { RiscVSim.init with registers := Function.update (Function.update (fun _ => 0) 2 1) 3 3 }
        (mkInstr "slli" "x1" "x2" "" 3 "") = Except.ok (flag, s1) ∧
      s1.registers 1 = 8 := by
  obtain ⟨flag, s1, h1, h2, _, h8⟩ :=
    (sll_slli_agree
      { RiscVSim.init with registers := Function.update (Function.update (fun _ => 0) 2 1) 3 3 }
      (mkInstr "sll" "x1" "x2" "x3" 0 "") (mkInstr "slli" "x1" "x2" "" 3 "") 1 3
      rfl rfl rfl rfl (by rfl) (by rfl) rfl).2 1 (by rfl) (by decide)
  exact ⟨flag, s1, h1, h2, h8 rfl rfl⟩

/-! ## Halting and the run loop -/

/-- C9: an ECALL record makes `executeInstruction` return `false` with the
state (program counter, registers, memory) exactly as before; `run` on the
program made of that one record, started from the zero-initialised state,
returns after that single call with program counter 0 and every register 0. -/
theorem ecall_halts (s : RiscVSim) (instr : Instruction) (hop : instr.opcode = "ecall") :
    executeInstruction s instr = Except.ok (false, s) ∧
    ∀ (fuel : Nat) (labels dataLabels : List (String × Nat)) (mem : Nat → Nat),
      ∃ r, run (fuel + 1) (assembled [instr] labels dataLabels mem) = Except.ok (some r) ∧
        r.steps = [(0, instr)] ∧ r.final.pc = 0 ∧ (∀ i, r.final.registers i = 0) ∧
        r.final.memory = mem := by
  have hexec : ∀ t : RiscVSim, executeInstruction t instr = Except.ok (false, t) := by
    intro t
    simp only [executeInstruction, hop]
    simp +decide only [if_true, if_false]
  refine ⟨hexec s, ?_⟩
  intro fuel labels dataLabels mem
  refine ⟨{ final := assembled [instr] labels dataLabels mem, steps := [(0, instr)] }, ?_,
    rfl, rfl, fun _ => rfl, rfl⟩
  have hfetch : (assembled [instr] labels dataLabels mem).instructions[
      (assembled [instr] labels dataLabels mem).pc]? = some instr := rfl
  simp only [run, hfetch, hexec]
  rfl

/-- Instance of C9: the program `ecall`. -/
theorem ecall_halts_witness :
    ∃ r, run 1 (assembled [mkInstr "ecall" "" "" "" 0 ""] [] [] (fun _ => 0))
        = Except.ok (some r) ∧
      r.steps = [(0, mkInstr "ecall" "" "" "" 0 "")] ∧ r.final.pc = 0 ∧
      (∀ i, r.final.registers i = 0) ∧ r.final.memory = (fun _ => 0) :=
  (ecall_halts RiscVSim.init (mkInstr "ecall" "" "" "" 0 "") rfl).2 0 [] [] (fun _ => 0)

/-- C10: whenever `run` returns, the program is the one it started with, the
final program counter is past the end of the program or points at an ECALL
record, and every call of `executeInstruction` that `run` made was at a program
counter below the program length, on the record stored at that index. -/
theorem run_postcondition (fuel : Nat) (s : RiscVSim) (r : RunResult)
    (h : run fuel s = Except.ok (some r)) :
    r.final.instructions = s.instructions ∧
    (s.instructions.length ≤ r.final.pc ∨
      ∃ instr, s.instructions[r.final.pc]? = some instr ∧ instr.opcode = "ecall") ∧
    ∀ p ∈ r.steps, p.1 < s.instructions.length ∧ s.instructions[p.1]? = some p.2 := by
  induction fuel generalizing s r with
  | zero => simp [run] at h
  | succ n ih =>
    unfold run at h
    split at h
    · rename_i hnone
      cases h
      refine ⟨rfl, Or.inl ?_, ?_⟩
      · exact List.getElem?_eq_none_iff.mp hnone
      · intro p hp; cases hp
    · rename_i instr hsome
      have hlt : s.pc < s.instructions.length := by
        by_contra hge
        rw [List.getElem?_eq_none_iff.mpr (Nat.le_of_not_lt hge)] at hsome
        cases hsome
      split at h
      · cases h
      · rename_i s1 hexec
        cases h
        obtain ⟨_, hins, _, _, hstop⟩ := executeInstruction_frame s s1 instr false hexec
        refine ⟨hins, ?_, ?_⟩
        · rcases hstop rfl with ⟨hop, hs⟩ | hpast
          · right
            rw [hs]
            exact ⟨instr, hsome, hop⟩
          · left
            rw [← hins]
            exact hpast
        · intro p hp
          simp only [List.mem_singleton] at hp
          subst hp
          exact ⟨hlt, hsome⟩
      · rename_i s1 hexec
        obtain ⟨_, hins, _, _, _⟩ := executeInstruction_frame s s1 instr true hexec
        split at h
        · cases h
        · cases h
        · rename_i r1 hrun
          cases h
          obtain ⟨hfin, hend, hsteps⟩ := ih s1 r1 hrun
          rw [hins] at hfin hend hsteps
          refine ⟨hfin, hend, ?_⟩
          intro p hp
          simp only [List.mem_cons] at hp
          rcases hp with hp | hp
          · subst hp
            exact ⟨hlt, hsome⟩
          · exact hsteps p hp

/-- Instance of C10: `addi x1, x0, 5` followed by `ecall`. -/
theorem run_postcondition_witness :
    ∃ r, run 5 (assembled [mkInstr "addi" "x1" "x0" "" 5 "", mkInstr "ecall" "" "" "" 0 ""]
        [] [] (fun _ => 0)) = Except.ok (some r) ∧
      r.final.pc = 1 ∧ r.steps.map Prod.fst = [0, 1] ∧
      ((2 : Nat) ≤ r.final.pc ∨
        ∃ instr, [mkInstr "addi" "x1" "x0" "" 5 "", mkInstr "ecall" "" "" "" 0 ""][r.final.pc]?
          = some instr ∧ instr.opcode = "ecall") := by
  have hrun : run 5 (assembled [mkInstr "addi" "x1" "x0" "" 5 "", mkInstr "ecall" "" "" "" 0 ""]
      [] [] (fun _ => 0)) = Except.ok (some
        { final := { assembled [mkInstr "addi" "x1" "x0" "" 5 "", mkInstr "ecall" "" "" "" 0 ""]
              [] [] (fun _ => 0) with
            registers := Function.update (fun _ => 0) 1 5, pc := 1 }
          steps := [(0, mkInstr "addi" "x1" "x0" "" 5 ""), (1, mkInstr "ecall" "" "" "" 0 "")] }) := by
    rfl
  exact ⟨_, hrun, rfl, rfl, (run_postcondition 5 _ _ hrun).2.1⟩

/-! ## Errors during execution -/

/-- C11 (code at the failing input): the assembler stores the operand tokens of
`add xa, x1, x2` as they are; executing the record, `parseRegisterNumber` hands
`"a"` to `std::stoi`, which throws `std::invalid_argument`, and `run` ends by
that exception.  With `addi x99999999999, x0, 1` the exception is
`std::out_of_range`. -/
theorem execution_throws_on_register_name :
    (∃ s, loadAssembly RiscVSim.init [".text", "add xa, x1, x2"] = Except.ok s ∧
      s.instructions = [mkInstr "add" "xa" "x1" "x2" 0 ""] ∧
      executeInstruction s (mkInstr "add" "xa" "x1" "x2" 0 "")
        = Except.error Fault.invalid_argument ∧
      ∀ fuel, run (fuel + 1) s = Except.error Fault.invalid_argument) ∧
    (∃ s, loadAssembly RiscVSim.init [".text", "addi x99999999999, x0, 1"] = Except.ok s ∧
      s.instructions = [mkInstr "addi" "x99999999999" "x0" "" 1 ""] ∧
      ∀ fuel, run (fuel + 1) s = Except.error Fault.out_of_range) := by
  refine ⟨⟨_, rfl, rfl, rfl, fun fuel => rfl⟩, ⟨_, rfl, rfl, fun fuel => rfl⟩⟩

/-- C12: a BEQ or BNE whose condition holds and whose non-empty label target
has no entry in the instruction label table is not taken: the call succeeds,
commits `pc + 1` (in `uint32_t`) and leaves registers and memory unchanged. -/
theorem branch_unresolved_label (s : RiscVSim) (instr : Instruction) (a b : Int)
    (h1 : getRegister s instr.rs1 = Except.ok a)
    (h2 : getRegister s instr.rs2 = Except.ok b)
    (hcond : (instr.opcode = "beq" ∧ a = b) ∨ (instr.opcode = "bne" ∧ a ≠ b))
    (hl : instr.labelTarget ≠ "")
    (hnone : s.labelToIndex.lookup instr.labelTarget = none) :
    ∃ flag s1, executeInstruction s instr = Except.ok (flag, s1) ∧
      s1.registers = s.registers ∧ s1.memory = s.memory ∧
      s1.pc = (s.pc + 1) % 2 ^ 32 ∧ (s.pc + 1 < 2 ^ 32 → s1.pc = s.pc + 1) := by
  have hexec : executeInstruction s instr = Except.ok (commit s ((s.pc + 1) % 2 ^ 32)) := by
    rcases hcond with ⟨hop, hab⟩ | ⟨hop, hab⟩
    · simp only [executeInstruction, hop]
      simp +decide only [if_true, if_false, h1, h2, hab, hl, hnone, ne_eq, not_true_eq_false,
        not_false_eq_true]
    · simp only [executeInstruction, hop]
      simp +decide only [if_true, if_false, h1, h2, hab, hl, hnone, ne_eq, not_true_eq_false,
        not_false_eq_true]
  exact ⟨_, _, hexec, rfl, rfl, rfl, fun h => Nat.mod_eq_of_lt h⟩

/-- Instance of C12: at program counter 4, `bne x1, x0, nowhere` with x1 = 1 and
an empty label table commits 5. -/
theorem branch_unresolved_label_witness :
    ∃ flag s1,
      executeInstruction
        { RiscVSim.init with registers := Function.update (fun _ => 0) 1 1, pc := 4 }
        (mkInstr "bne" "" "x1" "x0" 0 "nowhere") = Except.ok (flag, s1) ∧
      s1.pc = 5 := by
  obtain ⟨flag, s1, hexec, _, _, _, hpc⟩ :=
    branch_unresolved_label
      { RiscVSim.init with registers := Function.update (fun _ => 0) 1 1, pc := 4 }
      (mkInstr "bne" "" "x1" "x0" 0 "nowhere") 1 0 (by rfl) (by rfl)
      (Or.inr ⟨rfl, by decide⟩) (by decide) (by rfl)
  exact ⟨flag, s1, hexec, hpc (by decide)⟩

/-! ## Assembler: label declarations -/

/-- The operand patterns keep the label and never empty the opcode. -/
theorem parseOperands_label (instr out : Instruction) (tokens : List String)
    (h : parseOperands instr tokens = Except.ok out) :
    out.label = instr.label ∧ (instr.opcode ≠ "" → out.opcode ≠ "") := by
  unfold parseOperands at h
  repeat' split at h
  all_goals try simp only [] at h
  repeat' split at h
  all_goals first
    | (cases h; done)
    | (cases h; exact ⟨rfl, fun hne => hne⟩)
    | (cases h; exact ⟨rfl, fun _ => by simp⟩)

theorem assembleLine_text (st : Assembly) (line : String) (htext : st.parsingText = true)
    (h1 : cleanLine line ≠ []) (h2 : cleanLine line ≠ ".text".toList)
    (h3 : cleanLine line ≠ ".data".toList) :
    assembleLine st line = assembleText st (cleanLine line) := by
  simp only [assembleLine, List.isEmpty_iff, h1, h2, h3, htext, if_true, if_false]

theorem assembleLine_data (st : Assembly) (line : String) (hdata : st.parsingText = false)
    (h1 : cleanLine line ≠ []) (h2 : cleanLine line ≠ ".text".toList)
    (h3 : cleanLine line ≠ ".data".toList) :
    assembleLine st line = assembleData st (cleanLine line) := by
  simp only [assembleLine, List.isEmpty_iff, h1, h2, h3, hdata, if_true, if_false]
  rfl

/-- What one line does to the program, the instruction counter and the
instruction label table. -/
theorem assembleLine_effect (st st1 : Assembly) (line : String)
    (h : assembleLine st line = Except.ok st1) :
    (∃ new, st1.sim.labelToIndex = new ++ st.sim.labelToIndex ∧
      ∀ p ∈ new, p.2 = st.instrIndex) ∧
    ((st1.sim.instructions = st.sim.instructions ∧ st1.instrIndex = st.instrIndex) ∨
      ∃ instr, instr.opcode ≠ "" ∧ st1.sim.instructions = st.sim.instructions ++ [instr] ∧
        st1.instrIndex = (st.instrIndex + 1) % 2 ^ 32) := by
  have hnone : (∃ new, st.sim.labelToIndex = new ++ st.sim.labelToIndex ∧
      ∀ p ∈ new, p.2 = st.instrIndex) := ⟨[], rfl, fun p hp => by cases hp⟩
  unfold assembleLine at h
  simp only [] at h
  split at h
  · cases h; exact ⟨hnone, Or.inl ⟨rfl, rfl⟩⟩
  split at h
  · cases h; exact ⟨hnone, Or.inl ⟨rfl, rfl⟩⟩
  split at h
  · cases h; exact ⟨hnone, Or.inl ⟨rfl, rfl⟩⟩
  split at h
  · unfold assembleText at h
    split at h
    · cases h
      exact ⟨⟨[_], rfl, fun p hp => by simp at hp; subst hp; rfl⟩, Or.inl ⟨rfl, rfl⟩⟩
    · split at h
      · cases h
      · rename_i instr _
        simp only [] at h
        by_cases hl : instr.label = "" <;> by_cases ho : instr.opcode = ""
        all_goals simp only [hl, ho, ne_eq, not_true_eq_false, not_false_eq_true, if_true,
          if_false] at h
        all_goals cases h
        · exact ⟨hnone, Or.inl ⟨rfl, rfl⟩⟩
        · exact ⟨hnone, Or.inr ⟨instr, ho, rfl, rfl⟩⟩
        · exact ⟨⟨[_], rfl, fun p hp => by simp at hp; subst hp; rfl⟩, Or.inl ⟨rfl, rfl⟩⟩
        · exact ⟨⟨[_], rfl, fun p hp => by simp at hp; subst hp; rfl⟩,
            Or.inr ⟨instr, ho, rfl, rfl⟩⟩
  · unfold assembleData at h
    split at h
    · cases h; exact ⟨hnone, Or.inl ⟨rfl, rfl⟩⟩
    split at h
    · simp only [] at h
      split at h
      · cases h
      · cases h; exact ⟨hnone, Or.inl ⟨rfl, rfl⟩⟩
    split at h
    · simp only [] at h
      split at h
      · cases h
      · split at h
        · cases h
        · cases h; exact ⟨hnone, Or.inl ⟨rfl, rfl⟩⟩
    · cases h; exact ⟨hnone, Or.inl ⟨rfl, rfl⟩⟩

theorem assembleLines_append (st : Assembly) (pre post : List String) :
    assembleLines st (pre ++ post) =
      match assembleLines st pre with
      | Except.error e => Except.error e
      | Except.ok st1 => assembleLines st1 post := by
  induction pre generalizing st with
  | nil => rfl
  | cons l ls ih =>
    simp only [List.cons_append, assembleLines]
    cases assembleLine st l with
    | error e => rfl
    | ok st1 => exact ih st1

/-- Over any run of lines the label table grows at its head, the program at its
end, and the instruction counter follows the program length. -/
theorem assembleLines_effect (st st1 : Assembly) (lines : List String)
    (h : assembleLines st lines = Except.ok st1)
    (hinv : st.instrIndex = st.sim.instructions.length % 2 ^ 32) :
    (∃ new, st1.sim.labelToIndex = new ++ st.sim.labelToIndex) ∧
    (∃ more, st1.sim.instructions = st.sim.instructions ++ more ∧
      ∀ instr ∈ more, instr.opcode ≠ "") ∧
    st1.instrIndex = st1.sim.instructions.length % 2 ^ 32 := by
  induction lines generalizing st with
  | nil =>
    simp only [assembleLines] at h
    cases h
    exact ⟨⟨[], rfl⟩, ⟨[], by simp, fun i hi => by cases hi⟩, hinv⟩
  | cons l ls ih =>
    simp only [assembleLines] at h
    split at h
    · cases h
    · rename_i st2 hl
      obtain ⟨⟨new, hnew, _⟩, hins⟩ := assembleLine_effect st st2 l hl
      have hinv2 : st2.instrIndex = st2.sim.instructions.length % 2 ^ 32 := by
        rcases hins with ⟨h1, h2⟩ | ⟨instr, _, h1, h2⟩
        · rw [h1, h2]; exact hinv
        · rw [h1, h2, hinv]; simp [Nat.add_mod]
      obtain ⟨⟨new2, hnew2⟩, ⟨more2, hmore2, hop2⟩, hinv3⟩ := ih st2 h hinv2
      refine ⟨⟨new2 ++ new, by rw [hnew2, hnew, List.append_assoc]⟩, ?_, hinv3⟩
      rcases hins with ⟨h1, _⟩ | ⟨instr, ho, h1, _⟩
      · exact ⟨more2, by rw [hmore2, h1], hop2⟩
      · refine ⟨instr :: more2, by rw [hmore2, h1]; simp, ?_⟩
        intro i hi
        simp only [List.mem_cons] at hi
        rcases hi with hi | hi
        · subst hi; exact ho
        · exact hop2 i hi

theorem lookup_skip (L : String) (n : Nat) (new old : List (String × Nat))
    (h : (new.filter (fun p => p.1 = L)) = []) :
    (new ++ (L, n) :: old).lookup L = some n := by
  induction new with
  | nil => simp [List.lookup]
  | cons p ps ih =>
    obtain ⟨k, v⟩ := p
    by_cases hk : k = L
    · simp [List.filter, hk] at h
    · have h2 : (ps.filter (fun p => p.1 = L)) = [] := by
        simpa [List.filter, hk] using h
      have hb : (L == k) = false := by
        simp [beq_eq_false_iff_ne]; exact fun e => hk e.symm
      simp only [List.cons_append, List.lookup, hb]
      exact ih h2

theorem branch_to_label (s : RiscVSim) (instr : Instruction) (a b : Int) (i : Nat)
    (h1 : getRegister s instr.rs1 = Except.ok a)
    (h2 : getRegister s instr.rs2 = Except.ok b)
    (hcond : (instr.opcode = "beq" ∧ a = b) ∨ (instr.opcode = "bne" ∧ a ≠ b))
    (hl : instr.labelTarget ≠ "")
    (hfound : s.labelToIndex.lookup instr.labelTarget = some i) :
    executeInstruction s instr = Except.ok (commit s i) := by
  rcases hcond with ⟨hop, hab⟩ | ⟨hop, hab⟩
  · simp only [executeInstruction, hop]
    simp +decide only [if_true, if_false, h1, h2, hab, hl, hfound, ne_eq, not_true_eq_false,
      not_false_eq_true]
  · simp only [executeInstruction, hop]
    simp +decide only [if_true, if_false, h1, h2, hab, hl, hfound, ne_eq, not_true_eq_false,
      not_false_eq_true]

/-- A text-mode line that declares `L`, alone on the line or in front of an
instruction, puts `(L, instrIndex)` at the head of the instruction label table;
a co-located instruction is appended to the program. -/
theorem assembleText_declares (st st2 : Assembly) (text : List Char) (L : String)
    (hdecl : text = L.toList ++ [':'] ∨
      (text.getLast? ≠ some ':' ∧ L ≠ "" ∧
        ∃ rest, tokenize (String.mk text) = String.mk (L.toList ++ [':']) :: rest))
    (h : assembleText st text = Except.ok st2) :
    st2.sim.labelToIndex = (L, st.instrIndex) :: st.sim.labelToIndex ∧
    (text = L.toList ++ [':'] → st2.sim.instructions = st.sim.instructions) ∧
    (text.getLast? ≠ some ':' → ∀ instr, parseInstructionLine (String.mk text) = Except.ok instr →
      instr.opcode ≠ "" → st2.sim.instructions = st.sim.instructions ++ [instr]) := by
  rcases hdecl with hown | ⟨hlast, hL, rest, htok⟩
  · have hl : text.getLast? = some ':' := by rw [hown]; simp
    simp only [assembleText, hl, if_true] at h
    cases h
    refine ⟨?_, fun _ => rfl, fun hne => absurd hl hne⟩
    simp [handleLabel, hown]
  · simp only [assembleText, hlast, if_false] at h
    cases hp : parseInstructionLine (String.mk text) with
    | error e => rw [hp] at h; cases h
    | ok instr =>
      rw [hp] at h
      have hlabel : instr.label = L := by
        simp only [parseInstructionLine, htok] at hp
        have hcolon : (String.mk (L.toList ++ [':'])).toList.getLast? = some ':' := by simp
        simp only [hcolon, if_true] at hp
        have hdrop : String.mk ((String.mk (L.toList ++ [':'])).toList.dropLast) = L := by
          simp
        cases rest with
        | nil =>
          simp only [hdrop] at hp
          cases hp
          rfl
        | cons op more =>
          simp only [hdrop] at hp
          exact (parseOperands_label _ _ _ hp).1
      have hne : instr.label ≠ "" := by rw [hlabel]; exact hL
      by_cases ho : instr.opcode = ""
      · simp only [hne, ho, ne_eq, not_true_eq_false, not_false_eq_true, if_true, if_false] at h
        cases h
        refine ⟨by simp [handleLabel, hlabel], fun hown => ?_, fun _ i hi hio => ?_⟩
        · rfl
        · cases hi; exact absurd ho hio
      · simp only [hne, ho, ne_eq, not_true_eq_false, not_false_eq_true, if_true, if_false] at h
        cases h
        refine ⟨by simp [handleLabel, hlabel], fun hown => ?_, fun _ i hi _ => ?_⟩
        · rw [hown] at hlast; simp at hlast
        · cases hi; simp [handleLabel]

theorem cleanLine_ne_directive (text : List Char) (L : String)
    (hdecl : text = L.toList ++ [':'] ∨
      (text.getLast? ≠ some ':' ∧ L ≠ "" ∧
        ∃ rest, tokenize (String.mk text) = String.mk (L.toList ++ [':']) :: rest)) :
    text ≠ [] ∧ text ≠ ".text".toList ∧ text ≠ ".data".toList := by
  rcases hdecl with hown | ⟨_, _, rest, htok⟩
  · have hl : text.getLast? = some ':' := by rw [hown]; simp
    refine ⟨?_, ?_, ?_⟩ <;> (intro h; rw [h] at hl; revert hl; decide)
  · refine ⟨?_, ?_, ?_⟩
    · intro h
      rw [h] at htok
      have h0 : tokenize (String.mk []) = [] := by rfl
      rw [h0] at htok
      cases htok
    · intro h
      rw [h] at htok
      have h0 : tokenize (String.mk ".text".toList) = [".text"] := by rfl
      rw [h0] at htok
      have h1 := congrArg (fun l => l.head?.map (fun t => t.toList.getLast?)) htok
      simp at h1
    · intro h
      rw [h] at htok
      have h0 : tokenize (String.mk ".data".toList) = [".data"] := by rfl
      rw [h0] at htok
      have h1 := congrArg (fun l => l.head?.map (fun t => t.toList.getLast?)) htok
      simp at h1

/-- C13: let `pre` be the lines before the declaring line `d`, assembled from
the start into `st1` with the assembler in text mode, and let `d` declare `L`
either alone (`L:`) or in front of an instruction (first token `L:`).  If `L`
is declared once in the whole text (the final instruction label table holds one
assignment of `L`), then after `loadAssembly` the table maps `L` to the number
of records stored before `d`; the records stored from `d` on follow at that
index, the co-located instruction first; and a taken branch naming `L` commits
that index, wherever the branch stands in the text. -/
theorem label_bound_to_next_index (s0 final : RiscVSim) (pre post : List String) (d L : String)
    (st1 : Assembly)
    (hpre : assembleLines (Assembly.start s0) pre = Except.ok st1)
    (htext : st1.parsingText = true)
    (hdecl : cleanLine d = L.toList ++ [':'] ∨
      ((cleanLine d).getLast? ≠ some ':' ∧ L ≠ "" ∧
        ∃ rest, tokenize (String.mk (cleanLine d)) = String.mk (L.toList ++ [':']) :: rest))
    (hload : loadAssembly s0 (pre ++ d :: post) = Except.ok final)
    (honce : (final.labelToIndex.filter (fun p => p.1 = L)).length = 1)
    (hsize : st1.sim.instructions.length < 2 ^ 32) :
    final.labelToIndex.lookup L = some st1.sim.instructions.length ∧
    (∃ more, final.instructions = st1.sim.instructions ++ more ∧
      ((cleanLine d).getLast? ≠ some ':' →
        ∀ instr, parseInstructionLine (String.mk (cleanLine d)) = Except.ok instr →
          instr.opcode ≠ "" → more.head? = some instr)) ∧
    ∀ (s : RiscVSim) (instr : Instruction) (a b : Int),
      s.labelToIndex = final.labelToIndex →
      getRegister s instr.rs1 = Except.ok a → getRegister s instr.rs2 = Except.ok b →
      ((instr.opcode = "beq" ∧ a = b) ∨ (instr.opcode = "bne" ∧ a ≠ b)) →
      instr.labelTarget = L → L ≠ "" →
      ∃ flag s1, executeInstruction s instr = Except.ok (flag, s1) ∧
        s1.pc = st1.sim.instructions.length := by
  -- split the assembly at the declaring line
  unfold loadAssembly at hload
  rw [assembleLines_append, hpre] at hload
  simp only [assembleLines] at hload
  cases hd : assembleLine st1 d with
  | error e => rw [hd] at hload; cases hload
  | ok st2 =>
    rw [hd] at hload
    dsimp only at hload
    cases hpost : assembleLines st2 post with
    | error e => rw [hpost] at hload; cases hload
    | ok st3 =>
      rw [hpost] at hload
      cases hload
      -- the counter at the declaring line is the program length
      have hinv0 : (Assembly.start s0).instrIndex
          = (Assembly.start s0).sim.instructions.length % 2 ^ 32 := by rfl
      obtain ⟨_, _, hinv1⟩ := assembleLines_effect _ st1 pre hpre hinv0
      rw [Nat.mod_eq_of_lt hsize] at hinv1
      -- the declaring line
      obtain ⟨hne, hnt, hnd⟩ := cleanLine_ne_directive (cleanLine d) L hdecl
      rw [assembleLine_text st1 d htext hne hnt hnd] at hd
      obtain ⟨hlab2, hown2, hco2⟩ := assembleText_declares st1 st2 (cleanLine d) L hdecl hd
      obtain ⟨_, hins2⟩ := assembleLine_effect st1 st2 d
        (by rw [assembleLine_text st1 d htext hne hnt hnd]; exact hd)
      have hinv2 : st2.instrIndex = st2.sim.instructions.length % 2 ^ 32 := by
        rcases hins2 with ⟨e1, e2⟩ | ⟨i, _, e1, e2⟩
        · rw [e1, e2, hinv1, Nat.mod_eq_of_lt hsize]
        · rw [e1, e2, hinv1]; simp
      -- the lines after it
      obtain ⟨⟨new3, hnew3⟩, ⟨more3, hmore3, _⟩, _⟩ := assembleLines_effect st2 st3 post hpost hinv2
      have htable : st3.sim.labelToIndex
          = new3 ++ (L, st1.sim.instructions.length) :: st1.sim.labelToIndex := by
        rw [hnew3, hlab2, hinv1]
      have hlookup : st3.sim.labelToIndex.lookup L = some st1.sim.instructions.length := by
        rw [htable]
        apply lookup_skip
        rw [htable] at honce
        simp only [List.filter_append, List.filter_cons, decide_True, if_true, List.length_append,
          List.length_cons] at honce
        have h0 : (new3.filter (fun p => p.1 = L)).length = 0 := by omega
        exact List.length_eq_zero.mp h0
      refine ⟨hlookup, ?_, ?_⟩
      · rcases hins2 with ⟨e1, _⟩ | ⟨i, _, e1, _⟩
        · refine ⟨more3, by rw [hmore3, e1], ?_⟩
          intro hlast instr hp ho
          have := hco2 hlast instr hp ho
          rw [e1] at this
          simp at this
        · refine ⟨i :: more3, by rw [hmore3, e1]; simp, ?_⟩
          intro hlast instr hp ho
          have := hco2 hlast instr hp ho
          rw [e1] at this
          simp only [List.append_cancel_left_eq, List.cons.injEq, and_true] at this
          simp [this]
      · intro s instr a b hs h1 h2 hcond htarget hL
        have hfound : s.labelToIndex.lookup instr.labelTarget
            = some st1.sim.instructions.length := by
          rw [hs, htarget]; exact hlookup
        exact ⟨_, _, branch_to_label s instr a b _ h1 h2 hcond (by rw [htarget]; exact hL) hfound,
          rfl⟩

/-- Instance of C13: a forward reference.  In `.text`, `beq x0, x0, done`,
`addi x1, x0, 1`, `done:`, `addi x2, x0, 2`, `ecall` the label `done` is bound
to 2 and the branch of line 2 commits 2. -/
theorem label_bound_to_next_index_witness :
    ∃ final,
      loadAssembly RiscVSim.init
        [".text", "beq x0, x0, done", "addi x1, x0, 1", "done:", "addi x2, x0, 2", "ecall"]
        = Except.ok final ∧
      final.labelToIndex.lookup "done" = some 2 ∧
      ∃ flag s1, executeInstruction final (mkInstr "beq" "" "x0" "x0" 0 "done")
        = Except.ok (flag, s1) ∧ s1.pc = 2 := by
  have hload : loadAssembly RiscVSim.init
      ([".text", "beq x0, x0, done", "addi x1, x0, 1"] ++ "done:" :: ["addi x2, x0, 2", "ecall"])
      = Except.ok
        { RiscVSim.init with
          instructions := [mkInstr "beq" "" "x0" "x0" 0 "done", mkInstr "addi" "x1" "x0" "" 1 "",
            mkInstr "addi" "x2" "x0" "" 2 "", mkInstr "ecall" "" "" "" 0 ""]
          labelToIndex := [("done", 2)] } := by rfl
  obtain ⟨hlookup, _, hbranch⟩ :=
    label_bound_to_next_index RiscVSim.init _
      [".text", "beq x0, x0, done", "addi x1, x0, 1"] ["addi x2, x0, 2", "ecall"] "done:" "done" _
      (by rfl) (by rfl) (Or.inl (by rfl)) hload (by rfl) (by decide)
  exact ⟨_, hload, hlookup,
    hbranch _ (mkInstr "beq" "" "x0" "x0" 0 "done") 0 0 rfl (by rfl) (by rfl)
      (Or.inl ⟨rfl, rfl⟩) rfl (by decide)⟩

/-! ## Decimal text -/

theorem digitChar_spec (d : Nat) (h : d < 10) :
    isdigit (Nat.digitChar d) = true ∧ (Nat.digitChar d).toNat - '0'.toNat = d := by
  interval_cases d <;> exact ⟨by rfl, by rfl⟩

theorem digitsValue_append (l : List Char) (c : Char) :
    digitsValue (l ++ [c]) = 10 * digitsValue l + (c.toNat - '0'.toNat) := by
  simp [digitsValue, List.foldl_append]

theorem decimalDigits_spec (fuel n : Nat) (h : n < fuel) :
    decimalDigits fuel n ≠ [] ∧ (∀ c ∈ decimalDigits fuel n, isdigit c = true) ∧
      digitsValue (decimalDigits fuel n) = n := by
  induction fuel generalizing n with
  | zero => omega
  | succ f ih =>
    unfold decimalDigits
    by_cases hn : n < 10
    · simp only [hn, if_true]
      refine ⟨by simp, ?_, ?_⟩
      · intro c hc
        simp only [List.mem_singleton] at hc
        rw [hc]; exact (digitChar_spec n hn).1
      · simp only [digitsValue, List.foldl_cons, List.foldl_nil]
        have := (digitChar_spec n hn).2
        omega
    · simp only [hn, if_false]
      obtain ⟨_, hd, hv⟩ := ih (n / 10) (by omega)
      refine ⟨by simp, ?_, ?_⟩
      · intro c hc
        simp only [List.mem_append, List.mem_singleton] at hc
        rcases hc with hc | hc
        · exact hd c hc
        · rw [hc]; exact (digitChar_spec (n % 10) (Nat.mod_lt _ (by decide))).1
      · rw [digitsValue_append, hv, (digitChar_spec (n % 10) (Nat.mod_lt _ (by decide))).2]
        omega

theorem digit_not_special (c : Char) (h : isdigit c = true) :
    isspace c = false ∧ c ≠ '-' ∧ c ≠ '+' ∧ c ≠ '#' ∧ c ≠ ':' ∧ c ≠ ',' ∧ c ≠ ' ' ∧ c ≠ '\t'
      ∧ c ≠ '.' := by
  have key : ∀ s : Char, isdigit s = false → c ≠ s := by
    intro s hs e
    rw [e, hs] at h
    cases h
  refine ⟨?_, key _ (by rfl), key _ (by rfl), key _ (by rfl), key _ (by rfl), key _ (by rfl),
    key _ (by rfl), key _ (by rfl), key _ (by rfl)⟩
  simp [isspace, key ' ' (by rfl), key '\t' (by rfl), key '\n' (by rfl), key '\x0b' (by rfl),
    key '\x0c' (by rfl), key '\r' (by rfl)]

theorem takeWhile_digits (ds rest : List Char) (hd : ∀ c ∈ ds, isdigit c = true)
    (hr : ∀ c, rest.head? = some c → isdigit c = false) :
    (ds ++ rest).takeWhile isdigit = ds ∧ (ds ++ rest).dropWhile isdigit = rest := by
  induction ds with
  | nil =>
    cases rest with
    | nil => simp
    | cons c cs =>
      have := hr c rfl
      simp [List.takeWhile, List.dropWhile, this]
  | cons d ds ih =>
    have h1 := hd d (by simp)
    obtain ⟨i1, i2⟩ := ih (fun c hc => hd c (by simp [hc]))
    simp [List.takeWhile, List.dropWhile, h1, i1, i2]

/-- Extraction of a decimal numeral in the `int` range gives its value and
leaves what follows it, when that does not start with a digit. -/
theorem extractInt_decimal (v : Int) (rest : List Char) (h1 : -(2 ^ 31) ≤ v) (h2 : v < 2 ^ 31)
    (hr : ∀ c, rest.head? = some c → isdigit c = false) :
    extractInt (decimal v ++ rest) = some (v, rest) ∧
      stoiChars (decimal v ++ rest) = Except.ok v := by
  obtain ⟨hne, hd, hv⟩ := decimalDigits_spec (v.natAbs + 1) v.natAbs (by omega)
  obtain ⟨t1, t2⟩ := takeWhile_digits _ rest hd hr
  by_cases hneg : v < 0
  · have e : decimal v ++ rest = '-' :: (decimalDigits (v.natAbs + 1) v.natAbs ++ rest) := by
      simp [decimal, hneg]
    have hval : -(v.natAbs : Int) = v := by omega
    have hnotempty : (decimalDigits (v.natAbs + 1) v.natAbs).isEmpty = false := by
      simpa [List.isEmpty_iff] using hne
    constructor
    · rw [e]
      simp only [extractInt, List.dropWhile, show isspace '-' = false by rfl, t1, t2, hnotempty,
        hv, hval]
      simp
      omega
    · rw [e]
      simp only [stoiChars, List.dropWhile, show isspace '-' = false by rfl, t1, hnotempty,
        hv, hval]
      simp
      omega
  · have e : decimal v ++ rest = decimalDigits (v.natAbs + 1) v.natAbs ++ rest := by
      simp [decimal, hneg]
    have hval : (v.natAbs : Int) = v := by omega
    have hnotempty : (decimalDigits (v.natAbs + 1) v.natAbs).isEmpty = false := by
      simpa [List.isEmpty_iff] using hne
    rw [e]
    cases hds : decimalDigits (v.natAbs + 1) v.natAbs with
    | nil => exact absurd hds hne
    | cons c0 ds =>
      rw [hds] at t1 t2 hv hnotempty
      obtain ⟨hsp, hm, hp, _⟩ := digit_not_special c0 (hd c0 (by rw [hds]; simp))
      have hbody : (c0 :: ds ++ rest).dropWhile isspace = c0 :: ds ++ rest := by
        simp [List.dropWhile, hsp]
      constructor
      · rw [List.cons_append] at t1 t2 hbody
        rw [List.cons_append]
        simp only [extractInt, hbody]
        simp [hm, hp, t1, t2, hv, hval]
        omega
      · rw [List.cons_append] at t1 t2 hbody
        rw [List.cons_append]
        simp only [stoiChars, hbody]
        simp [hm, hp, t1, hv, hval]
        omega

theorem decimal_chars (v : Int) :
    decimal v ≠ [] ∧ (∀ c ∈ decimal v, isdigit c = true ∨ c = '-') ∧
      ∀ c, (decimal v).head? = some c → isspace c = false := by
  obtain ⟨hne, hd, _⟩ := decimalDigits_spec (v.natAbs + 1) v.natAbs (by omega)
  unfold decimal
  by_cases hneg : v < 0
  · simp only [hneg, if_true]
    refine ⟨by simp, ?_, ?_⟩
    · intro c hc
      simp only [List.mem_cons] at hc
      rcases hc with hc | hc
      · exact Or.inr hc
      · exact Or.inl (hd c hc)
    · intro c hc
      simp only [List.head?_cons, Option.some.injEq] at hc
      rw [← hc]; rfl
  · simp only [hneg, if_false]
    refine ⟨hne, fun c hc => Or.inl (hd c hc), ?_⟩
    intro c hc
    cases hds : decimalDigits (v.natAbs + 1) v.natAbs with
    | nil => exact absurd hds hne
    | cons c0 ds =>
      rw [hds] at hc
      simp only [List.head?_cons, Option.some.injEq] at hc
      rw [← hc]
      exact (digit_not_special c0 (hd c0 (by rw [hds]; simp))).1

theorem commasToSpaces_not_comma (cs : List Char) (h : ∀ c ∈ cs, c ≠ ',') :
    commasToSpaces cs = cs := by
  induction cs with
  | nil => rfl
  | cons c cs ih =>
    have hc : c ≠ ',' := h c (by simp)
    have ih2 := ih (fun d hd => h d (by simp [hd]))
    unfold commasToSpaces at ih2 ⊢
    simp [hc, ih2]

theorem commasToSpaces_append (a b : List Char) :
    commasToSpaces (a ++ b) = commasToSpaces a ++ commasToSpaces b := by
  simp [commasToSpaces]

theorem commasToSpaces_decimal (v : Int) : commasToSpaces (decimal v) = decimal v := by
  apply commasToSpaces_not_comma
  intro c hc
  rcases (decimal_chars v).2.1 c hc with h | h
  · exact (digit_not_special c h).2.2.2.2.2.1
  · rw [h]; decide

theorem extractInt_skip (lead cs : List Char) (h : ∀ c ∈ lead, isspace c = true) :
    extractInt (lead ++ cs) = extractInt cs := by
  have e : (lead ++ cs).dropWhile isspace = cs.dropWhile isspace := by
    induction lead with
    | nil => rfl
    | cons c l ih =>
      have hc := h c (by simp)
      simp only [List.cons_append, List.dropWhile, hc]
      exact ih (fun d hd => h d (by simp [hd]))
  simp only [extractInt, e]

/-- The `.word` loop over the operand text of the values `vs`, possibly after
blanks: every value is stored at its place, the bytes outside the words keep
their value, and the cursor ends after the last word. -/
theorem wordLoop_operands (vs : List Int) :
    ∀ (rounds c : Nat) (mem : Nat → Nat) (lead : List Char),
      vs.length ≤ rounds → (∀ ch ∈ lead, isspace ch = true) →
      (∀ v ∈ vs, -(2 ^ 31) ≤ v ∧ v < 2 ^ 31) → c + 4 * vs.length ≤ MEM_SIZE →
      ∃ mem1, wordLoop rounds (lead ++ commasToSpaces (wordOperands vs)) c mem
          = Except.ok (c + 4 * vs.length, mem1) ∧
        (∀ i v, vs[i]? = some v → ∀ j, j < 4 → mem1 (c + 4 * i + j) = byteOf v j) ∧
        ∀ a, a < c ∨ c + 4 * vs.length ≤ a → mem1 a = mem a := by
  induction vs with
  | nil =>
    intro rounds c mem lead _ hlead _ _
    refine ⟨mem, ?_, ?_, fun _ _ => rfl⟩
    · have hnone : extractInt (lead ++ commasToSpaces (wordOperands [])) = none := by
        rw [extractInt_skip lead _ hlead]
        rfl
      cases rounds with
      | zero => rfl
      | succ r => simp only [wordLoop, hnone]; rfl
    · intro i v hi; simp at hi
  | cons v vs ih =>
    intro rounds c mem lead hrounds hlead hrange hfit
    obtain ⟨r, rfl⟩ : ∃ r, rounds = r + 1 := ⟨rounds - 1, by simp at hrounds; omega⟩
    have hv := hrange v (by simp)
    simp only [List.length_cons] at hfit hrounds
    have hfit0 : c + 3 < MEM_SIZE := by unfold MEM_SIZE at *; omega
    -- the text after the first numeral
    obtain ⟨tail, htext, htail, hsplit⟩ : ∃ tail : List Char,
        commasToSpaces (wordOperands (v :: vs)) = decimal v ++ tail ∧
        (∀ c, tail.head? = some c → isdigit c = false) ∧
        ∃ lead2 : List Char, tail = lead2 ++ commasToSpaces (wordOperands vs) ∧
          ∀ ch ∈ lead2, isspace ch = true := by
      cases vs with
      | nil =>
        refine ⟨[], ?_, ?_, [], ?_, ?_⟩
        · simp [wordOperands, commasToSpaces_decimal]
        · intro c hc; simp at hc
        · rfl
        · intro ch hch; cases hch
      | cons w ws =>
        refine ⟨' ' :: commasToSpaces (wordOperands (w :: ws)), ?_, ?_, [' '], ?_, ?_⟩
        · simp only [wordOperands, commasToSpaces_append, commasToSpaces_decimal]
          simp [commasToSpaces]
        · intro c hc
          simp only [List.head?_cons, Option.some.injEq] at hc
          rw [← hc]; rfl
        · rfl
        · intro ch hch
          simp only [List.mem_singleton] at hch
          rw [hch]; rfl
    obtain ⟨lead2, htail2, hlead2⟩ := hsplit
    have hext : extractInt (lead ++ commasToSpaces (wordOperands (v :: vs))) = some (v, tail) := by
      rw [extractInt_skip lead _ hlead, htext]
      exact (extractInt_decimal v tail hv.1 hv.2 htail).1
    have hstore := storeWord_in_range mem c v hfit0
    obtain ⟨mem1, hloop, hbytes, hframe⟩ :=
      ih r (c + 4) _ lead2 (by omega) hlead2 (fun w hw => hrange w (by simp [hw]))
        (by unfold MEM_SIZE at *; omega)
    have hnext : (c + 4) % 2 ^ 32 = c + 4 := by
      unfold MEM_SIZE at hfit0; omega
    refine ⟨mem1, ?_, ?_, ?_⟩
    · simp only [wordLoop, hext, hstore, hnext, htail2]
      rw [hloop]
      have : c + 4 + 4 * vs.length = c + 4 * (v :: vs).length := by
        simp only [List.length_cons]; omega
      rw [this]
    · intro i w hi j hj
      cases i with
      | zero =>
        simp only [List.getElem?_cons_zero, Option.some.injEq] at hi
        subst hi
        rw [hframe (c + 4 * 0 + j) (Or.inl (by omega))]
        have h1 : c + 4 * 0 + j = c + j := by omega
        rw [h1]
        interval_cases j
        · simp [Function.update]
        · simp [Function.update]
        · simp [Function.update]
        · simp [Function.update]
      | succ i =>
        simp only [List.getElem?_cons_succ] at hi
        have := hbytes i w hi j hj
        have h1 : c + 4 * (i + 1) + j = c + 4 + 4 * i + j := by omega
        rw [h1]; exact this
    · intro a ha
      simp only [List.length_cons] at ha
      rw [hframe a (by omega)]
      have n0 : a ≠ c := by omega
      have n1 : a ≠ c + 1 := by omega
      have n2 : a ≠ c + 2 := by omega
      have n3 : a ≠ c + 3 := by omega
      simp [Function.update, n0, n1, n2, n3]

theorem wordOperands_chars (vs : List Int) :
    (∀ c ∈ wordOperands vs, isdigit c = true ∨ c = '-' ∨ c = ',') ∧
      (∀ c, (wordOperands vs).head? = some c → isspace c = false) ∧
      vs.length ≤ (wordOperands vs).length := by
  induction vs with
  | nil =>
    refine ⟨?_, ?_, Nat.le_refl _⟩
    · intro c hc; cases hc
    · intro c hc; cases hc
  | cons v vs ih =>
    obtain ⟨hne, hch, hhead⟩ := decimal_chars v
    have hlen : 1 ≤ (decimal v).length := by
      cases hd : decimal v with
      | nil => exact absurd hd hne
      | cons c cs => simp
    cases vs with
    | nil =>
      refine ⟨?_, hhead, hlen⟩
      intro c hc
      rcases hch c hc with h | h
      · exact Or.inl h
      · exact Or.inr (Or.inl h)
    | cons w ws =>
      obtain ⟨ih1, _, ih3⟩ := ih
      refine ⟨?_, ?_, ?_⟩
      · intro c hc
        simp only [wordOperands, List.mem_append, List.mem_cons] at hc
        rcases hc with hc | hc | hc
        · rcases hch c hc with h | h
          · exact Or.inl h
          · exact Or.inr (Or.inl h)
        · exact Or.inr (Or.inr hc)
        · exact ih1 c hc
      · intro c hc
        apply hhead
        cases hd : decimal v with
        | nil => exact absurd hd hne
        | cons c0 cs =>
          simp only [wordOperands, hd, List.cons_append, List.head?_cons] at hc ⊢
          exact hc
      · simp only [wordOperands, List.length_append, List.length_cons] at ih3 ⊢
        omega

theorem operand_char_plain (c : Char) (h : isdigit c = true ∨ c = '-' ∨ c = ',') :
    c ≠ '#' ∧ c ≠ ':' := by
  rcases h with h | h | h
  · exact ⟨(digit_not_special c h).2.2.2.1, (digit_not_special c h).2.2.2.2.1⟩
  · rw [h]; exact ⟨by decide, by decide⟩
  · rw [h]; exact ⟨by decide, by decide⟩

theorem takeWhile_all (p : Char → Bool) (l : List Char) (h : ∀ c ∈ l, p c = true) :
    l.takeWhile p = l := by
  induction l with
  | nil => rfl
  | cons c cs ih =>
    simp only [List.takeWhile, h c (by simp)]
    rw [ih (fun d hd => h d (by simp [hd]))]

theorem getLast_mem (l : List Char) (c : Char) (h : l.getLast? = some c) : c ∈ l := by
  induction l with
  | nil => cases h
  | cons d ds ih =>
    cases ds with
    | nil =>
      simp only [List.getLast?_singleton, Option.some.injEq] at h
      simp [h]
    | cons e es =>
      rw [List.getLast?_cons_cons] at h
      exact List.mem_cons_of_mem _ (ih h)

/-- The cleaned text of a `.word` line and what the data branch sees of it. -/
theorem wordLine_clean (vs : List Int) :
    cleanLine (wordLine vs) = ".word ".toList ++ wordOperands vs ∧
      cleanLine (wordLine vs) ≠ [] ∧ cleanLine (wordLine vs) ≠ ".text".toList ∧
      cleanLine (wordLine vs) ≠ ".data".toList ∧
      (cleanLine (wordLine vs)).getLast? ≠ some ':' ∧
      ".word".toList.isPrefixOf (cleanLine (wordLine vs)) = true ∧
      ((cleanLine (wordLine vs)).drop 5).dropWhile isspace = wordOperands vs := by
  obtain ⟨hch, hhead, _⟩ := wordOperands_chars vs
  have hplain : ∀ c ∈ ".word ".toList ++ wordOperands vs, c ≠ '#' ∧ c ≠ ':' := by
    intro c hc
    simp only [List.mem_append] at hc
    rcases hc with hc | hc
    · revert c; decide
    · exact operand_char_plain c (hch c hc)
  have hclean : cleanLine (wordLine vs) = ".word ".toList ++ wordOperands vs := by
    have e : (wordLine vs).toList = '.' :: ("word ".toList ++ wordOperands vs) := rfl
    unfold cleanLine
    rw [e]
    simp only [List.dropWhile]
    have : (decide ('.' = ' ') || decide ('.' = '\t')) = false := by decide
    simp only [this]
    exact takeWhile_all _ _ (fun c hc => by simpa using (hplain c hc).1)
  rw [hclean]
  refine ⟨rfl, by simp, by simp, by simp, ?_, by rfl, ?_⟩
  · intro hl
    exact (hplain ':' (getLast_mem _ _ hl)).2 rfl
  · have e : (".word ".toList ++ wordOperands vs).drop 5 = ' ' :: wordOperands vs := rfl
    rw [e]
    simp only [List.dropWhile, show isspace ' ' = true by rfl]
    cases hw : wordOperands vs with
    | nil => rfl
    | cons c cs =>
      have := hhead c (by rw [hw]; rfl)
      simp [List.dropWhile, this]

/-- A word whose four bytes are those of `v` is loaded as `v`. -/
theorem loadWord_of_bytes (mem : Nat → Nat) (a : Nat) (v : Int) (hin : a + 3 < MEM_SIZE)
    (h1 : -(2 ^ 31) ≤ v) (h2 : v < 2 ^ 31)
    (hb : ∀ j, j < 4 → mem (a + j) = byteOf v j) :
    loadWord mem a = Except.ok v := by
  rw [loadWord_in_range _ _ hin]
  have b0 := hb 0 (by decide)
  have b1 := hb 1 (by decide)
  have b2 := hb 2 (by decide)
  have b3 := hb 3 (by decide)
  simp only [Nat.add_zero] at b0
  show Except.ok (toInt32 _) = Except.ok v
  simp only [b0, b1, b2, b3]
  rw [word_of_bytes v h1 h2]

/-- The data branch on a `.word` line: the state after the line, with the bytes
it wrote and the bytes it left. -/
theorem wordLine_assembled (st : Assembly) (vs : List Int)
    (hdata : st.parsingText = false)
    (hrange : ∀ v ∈ vs, -(2 ^ 31) ≤ v ∧ v < 2 ^ 31)
    (hfit : st.dataAddress + 4 * vs.length ≤ MEM_SIZE) :
    ∃ mem1, assembleLine st (wordLine vs) = Except.ok { st with
        sim := { st.sim with memory := mem1 }
        dataAddress := st.dataAddress + 4 * vs.length } ∧
      (∀ i v, vs[i]? = some v → ∀ j, j < 4 → mem1 (st.dataAddress + 4 * i + j) = byteOf v j) ∧
      ∀ a, a < st.dataAddress ∨ st.dataAddress + 4 * vs.length ≤ a → mem1 a = st.sim.memory a := by
  obtain ⟨_, hne, hnt, hnd, hlast, hpre, hrest⟩ := wordLine_clean vs
  obtain ⟨_, _, hlen⟩ := wordOperands_chars vs
  have hrounds : vs.length ≤ (commasToSpaces (wordOperands vs)).length + 1 := by
    simp only [commasToSpaces, List.length_map]; omega
  obtain ⟨mem1, hloop, hbytes, hframe⟩ :=
    wordLoop_operands vs _ st.dataAddress st.sim.memory [] hrounds
      (fun ch hch => by cases hch) hrange hfit
  rw [List.nil_append] at hloop
  refine ⟨mem1, ?_, hbytes, hframe⟩
  rw [assembleLine_data st _ hdata hne hnt hnd]
  simp only [assembleData, hlast, hpre, hrest, hloop, if_true, if_false]

/-- C14: in data mode with the cursor at `c`, the line `.word v1,...,vk` of
decimal 32-bit integers with `c + 4k` within the memory stores each `vi` as a
little-endian word at `c + 4(i-1)` (its four bytes, so that `loadWord` there
returns `vi`), leaves every other byte unchanged, advances the cursor to
`c + 4k` and changes nothing else. -/
theorem word_directive (st : Assembly) (vs : List Int)
    (hdata : st.parsingText = false)
    (hrange : ∀ v ∈ vs, -(2 ^ 31) ≤ v ∧ v < 2 ^ 31)
    (hfit : st.dataAddress + 4 * vs.length ≤ MEM_SIZE) :
    ∃ st1, assembleLine st (wordLine vs) = Except.ok st1 ∧
      st1.dataAddress = st.dataAddress + 4 * vs.length ∧
      (∀ i v, vs[i]? = some v →
        (∀ j, j < 4 → st1.sim.memory (st.dataAddress + 4 * i + j) = byteOf v j) ∧
        loadWord st1.sim.memory (st.dataAddress + 4 * i) = Except.ok v) ∧
      (∀ a, a < st.dataAddress ∨ st.dataAddress + 4 * vs.length ≤ a →
        st1.sim.memory a = st.sim.memory a) ∧
      st1.sim.registers = st.sim.registers ∧ st1.sim.instructions = st.sim.instructions ∧
      st1.sim.labelToIndex = st.sim.labelToIndex ∧
      st1.sim.dataLabelToAddress = st.sim.dataLabelToAddress ∧
      st1.parsingText = st.parsingText ∧ st1.instrIndex = st.instrIndex := by
  obtain ⟨mem1, hline, hbytes, hframe⟩ := wordLine_assembled st vs hdata hrange hfit
  refine ⟨_, hline, rfl, ?_, hframe, rfl, rfl, rfl, rfl, rfl, rfl⟩
  intro i v hi
  have hb := hbytes i v hi
  refine ⟨hb, ?_⟩
  have hi2 : i < vs.length := by
    rcases List.getElem?_eq_some_iff.mp hi with ⟨h, _⟩
    exact h
  have hv := hrange v (List.getElem?_mem hi)
  have hin : st.dataAddress + 4 * i + 3 < MEM_SIZE := by
    unfold MEM_SIZE at *; omega
  exact loadWord_of_bytes _ _ v hin hv.1 hv.2 hb

/-- Instance of C14: `.word 10,20,30` with the cursor at 32 puts 10, 20 and 30
at 32, 36 and 40 and moves the cursor to 44. -/
theorem word_directive_witness :
    ∃ st1, assembleLine (Assembly.start RiscVSim.init) ".word 10,20,30" = Except.ok st1 ∧
      st1.dataAddress = 44 ∧
      loadWord st1.sim.memory 32 = Except.ok 10 ∧
      loadWord st1.sim.memory 36 = Except.ok 20 ∧
      loadWord st1.sim.memory 40 = Except.ok 30 := by
  obtain ⟨st1, hline, haddr, hwords, _⟩ :=
    word_directive (Assembly.start RiscVSim.init) [10, 20, 30] rfl (by decide) (by decide)
  exact ⟨st1, hline, haddr, (hwords 0 10 rfl).2, (hwords 1 20 rfl).2, (hwords 2 30 rfl).2⟩

/-! ## The `.align` directive -/

theorem and_not_low_mask (x n : Nat) (hx : x < 2 ^ 32) (hn : n < 32) :
    x &&& (2 ^ 32 - 1 - (2 ^ n - 1)) = 2 ^ n * (x / 2 ^ n) := by
  have hm : 2 ^ 32 - 1 - (2 ^ n - 1) = (2 ^ (32 - n) - 1) <<< n := by
    rw [Nat.shiftLeft_eq, Nat.sub_mul, ← Nat.pow_add, Nat.sub_add_cancel (Nat.le_of_lt hn)]
    have : 0 < 2 ^ n := Nat.pow_pos (by decide)
    omega
  have hr : 2 ^ n * (x / 2 ^ n) = (x >>> n) <<< n := by
    rw [Nat.shiftLeft_eq, Nat.shiftRight_eq_div_pow, Nat.mul_comm]
  rw [hm, hr]
  apply Nat.eq_of_testBit_eq
  intro i
  rw [Nat.testBit_and, Nat.testBit_shiftLeft, Nat.testBit_shiftLeft, Nat.testBit_shiftRight,
    Nat.testBit_two_pow_sub_one]
  by_cases hi : n ≤ i
  · have e : n + (i - n) = i := by omega
    rw [e]
    by_cases h32 : i < 32
    · have : i - n < 32 - n := by omega
      simp [hi, this]
    · have hfalse : x.testBit i = false := by
        apply Nat.testBit_lt_two_pow
        exact Nat.lt_of_lt_of_le hx (Nat.pow_le_pow_right (by decide) (by omega))
      simp [hfalse]
  · simp [hi]

/-- Rounding up by adding `p - 1` and clearing the remainder gives the least
multiple of `p` that is not below `c`. -/
theorem round_up_least (c p : Nat) (hp : 0 < p) :
    p ∣ p * ((c + p - 1) / p) ∧ c ≤ p * ((c + p - 1) / p) ∧
      (∀ m, p ∣ m → c ≤ m → p * ((c + p - 1) / p) ≤ m) ∧
      (p ∣ c → p * ((c + p - 1) / p) = c) := by
  have hdm := Nat.div_add_mod (c + p - 1) p
  have hmod := Nat.mod_lt (c + p - 1) hp
  have hge : c ≤ p * ((c + p - 1) / p) := by omega
  have hleast : ∀ m, p ∣ m → c ≤ m → p * ((c + p - 1) / p) ≤ m := by
    intro m ⟨q, hq⟩ hcm
    subst hq
    apply Nat.mul_le_mul_left
    apply Nat.le_of_lt_succ
    apply (Nat.div_lt_iff_lt_mul hp).mpr
    rw [Nat.succ_mul, Nat.mul_comm q p]
    omega
  refine ⟨Nat.dvd_mul_right _ _, hge, hleast, ?_⟩
  intro hdiv
  exact Nat.le_antisymm (hleast c hdiv (Nat.le_refl _)) hge

theorem alignLine_clean (n : Nat) :
    cleanLine (alignLine n) = ".align ".toList ++ decimal (n : Int) ∧
      cleanLine (alignLine n) ≠ [] ∧ cleanLine (alignLine n) ≠ ".text".toList ∧
      cleanLine (alignLine n) ≠ ".data".toList ∧
      (cleanLine (alignLine n)).getLast? ≠ some ':' ∧
      ".word".toList.isPrefixOf (cleanLine (alignLine n)) = false ∧
      ".align".toList.isPrefixOf (cleanLine (alignLine n)) = true ∧
      ((cleanLine (alignLine n)).drop 6).dropWhile isspace = decimal (n : Int) := by
  obtain ⟨hne, hch, hhead⟩ := decimal_chars (n : Int)
  have hplain : ∀ c ∈ ".align ".toList ++ decimal (n : Int), c ≠ '#' ∧ c ≠ ':' := by
    intro c hc
    simp only [List.mem_append] at hc
    rcases hc with hc | hc
    · revert c; decide
    · rcases hch c hc with h | h
      · exact operand_char_plain c (Or.inl h)
      · exact operand_char_plain c (Or.inr (Or.inl h))
  have hclean : cleanLine (alignLine n) = ".align ".toList ++ decimal (n : Int) := by
    have e : (alignLine n).toList = '.' :: ("align ".toList ++ decimal (n : Int)) := rfl
    unfold cleanLine
    rw [e]
    simp only [List.dropWhile]
    have : (decide ('.' = ' ') || decide ('.' = '\t')) = false := by decide
    simp only [this]
    exact takeWhile_all _ _ (fun c hc => by simpa using (hplain c hc).1)
  rw [hclean]
  refine ⟨rfl, by simp, by simp, by simp, ?_, by rfl, by rfl, ?_⟩
  · intro hl
    exact (hplain ':' (getLast_mem _ _ hl)).2 rfl
  · have e : (".align ".toList ++ decimal (n : Int)).drop 6 = ' ' :: decimal (n : Int) := rfl
    rw [e]
    simp only [List.dropWhile, show isspace ' ' = true by rfl]
    cases hw : decimal (n : Int) with
    | nil => rfl
    | cons c cs =>
      have := hhead c (by rw [hw]; rfl)
      simp [List.dropWhile, this]

/-- C15: in data mode with the cursor at `c`, the line `.align n` with
`0 ≤ n < 32` and `c + 2^n - 1 < 2^32` sets the cursor to the least multiple of
`2^n` that is at least `c` (to `c` itself when `c` is such a multiple) and
changes nothing else, memory included. -/
theorem align_directive (st : Assembly) (n : Nat)
    (hdata : st.parsingText = false) (hn : n < 32)
    (hc : st.dataAddress + 2 ^ n - 1 < 2 ^ 32) :
    ∃ st1, assembleLine st (alignLine n) = Except.ok st1 ∧
      2 ^ n ∣ st1.dataAddress ∧ st.dataAddress ≤ st1.dataAddress ∧
      (∀ m, 2 ^ n ∣ m → st.dataAddress ≤ m → st1.dataAddress ≤ m) ∧
      (2 ^ n ∣ st.dataAddress → st1.dataAddress = st.dataAddress) ∧
      st1.sim = st.sim ∧ st1.parsingText = st.parsingText ∧ st1.instrIndex = st.instrIndex := by
  obtain ⟨_, hne, hnt, hnd, hlast, hword, halign, hrest⟩ := alignLine_clean n
  have hstoi : stoiChars (decimal (n : Int)) = Except.ok (n : Int) := by
    have := (extractInt_decimal (n : Int) [] (by omega) (by omega) (fun c hc => by cases hc)).2
    rwa [List.append_nil] at this
  have hpos : 0 < 2 ^ n := Nat.pow_pos (by decide)
  obtain ⟨h1, h2, h3, h4⟩ := round_up_least st.dataAddress (2 ^ n) hpos
  have haddr : alignAddress st.dataAddress (n : Int)
      = Except.ok (2 ^ n * ((st.dataAddress + 2 ^ n - 1) / 2 ^ n)) := by
    have hnot : ¬ ((n : Int) < 0 ∨ (n : Int) ≥ 32) := by omega
    simp only [alignAddress, hnot, if_false, Int.toNat_ofNat, Nat.mod_eq_of_lt hc]
    rw [and_not_low_mask _ n hc hn]
  refine ⟨{ st with dataAddress := 2 ^ n * ((st.dataAddress + 2 ^ n - 1) / 2 ^ n) }, ?_,
    h1, h2, h3, h4, rfl, rfl, rfl⟩
  rw [assembleLine_data st _ hdata hne hnt hnd]
  simp only [assembleData, hlast, hword, halign, hrest, hstoi, haddr, if_true, if_false]
  simp

/-- Instance of C15: `.align 4` with the cursor at 44 moves it to 48. -/
theorem align_directive_witness :
    ∃ st1, assembleLine { Assembly.start RiscVSim.init with dataAddress := 44 } ".align 4"
        = Except.ok st1 ∧
      st1.dataAddress = 48 := by
  obtain ⟨st1, hline, hdvd, hge, hleast, _⟩ :=
    align_directive { Assembly.start RiscVSim.init with dataAddress := 44 } 4 rfl (by decide)
      (by decide)
  refine ⟨st1, hline, Nat.le_antisymm (hleast 48 (by decide) (by decide)) ?_⟩
  have h44 : 44 ≤ st1.dataAddress := hge
  obtain ⟨q, hq⟩ := hdvd
  omega

/-! ## Assembler: stored records -/

theorem splitTokens_nonempty (cs cur : List Char) :
    ∀ t ∈ splitTokens cs cur, t ≠ "" := by
  induction cs generalizing cur with
  | nil =>
    intro t ht
    unfold splitTokens at ht
    by_cases hc : cur = []
    · simp [hc] at ht
    · simp only [List.isEmpty_iff, hc, if_false, List.mem_singleton] at ht
      rw [ht]
      intro h
      apply hc
      have := congrArg String.toList h
      simpa using this
  | cons c cs ih =>
    intro t ht
    unfold splitTokens at ht
    by_cases hs : isspace c = true
    · by_cases hc : cur = []
      · simp only [hs, if_true, List.isEmpty_iff, hc] at ht
        exact ih [] t ht
      · simp only [hs, if_true, List.isEmpty_iff, hc, if_false, List.mem_cons] at ht
        rcases ht with ht | ht
        · rw [ht]
          intro h
          apply hc
          have := congrArg String.toList h
          simpa using this
        · exact ih [] t ht
    · simp only [hs, if_false] at ht
      exact ih _ t ht

theorem parseInstructionLine_shape (line label m : String) (operands : List String)
    (h : lineShape line label m operands) :
    parseInstructionLine line
      = parseOperands { emptyInstruction with label := label, opcode := m } (m :: operands) ∧
    m ≠ "" := by
  have hm : m ≠ "" := by
    apply splitTokens_nonempty (commasToSpaces line.toList) []
    show m ∈ tokenize line
    rcases h with ⟨h, _, _⟩ | ⟨t0, h, _, _⟩ <;> simp [h]
  refine ⟨?_, hm⟩
  rcases h with ⟨htok, hlast, hl⟩ | ⟨t0, htok, hlast, hl⟩
  · simp only [parseInstructionLine, htok, hlast, if_false, hl]
    rfl
  · simp only [parseInstructionLine, htok, hlast, if_true, hl]

theorem parseOperands_other (instr : Instruction) (tokens : List String)
    (hm : instr.opcode ∉ ["addi", "add", "sub", "mul", "sll", "lw", "sw", "li", "beq", "bne"]) :
    parseOperands instr tokens = Except.ok instr := by
  simp only [List.mem_cons, List.mem_singleton, List.not_mem_nil, or_false, not_or] at hm
  obtain ⟨h1, h2, h3, h4, h5, h6, h7, h8, h9, h10⟩ := hm
  simp only [parseOperands, h1, h2, h3, h4, h5, h6, h7, h8, h9, h10, or_self, if_false]

/-- A record that has only a label and an opcode outside the assembler's
mnemonics changes nothing but the program counter when executed. -/
theorem execute_bare_record (s : RiscVSim) (label m : String)
    (hm : m ∉ ["addi", "add", "sub", "mul", "sll", "lw", "sw", "li", "beq", "bne", "ecall"]) :
    executeInstruction s { emptyInstruction with label := label, opcode := m }
      = Except.ok (commit s ((s.pc + 1) % 2 ^ 32)) := by
  simp only [List.mem_cons, List.mem_singleton, List.not_mem_nil, or_false, not_or] at hm
  obtain ⟨h1, h2, h3, h4, h5, h6, h7, h8, h9, h10, h11⟩ := hm
  by_cases hs : m = "slli"
  · subst hs
    have g : getRegister s "" = Except.ok 0 := by rfl
    have w : ∀ v, setRegister s "" v = Except.ok s := fun v => by rfl
    simp only [executeInstruction, emptyInstruction]
    simp +decide only [if_true, if_false, g, w]
  · simp only [executeInstruction, emptyInstruction, h1, h2, h3, h4, h5, h6, h7, h9, h10, h11,
      hs, if_false]

/-- One line read from two assembler states that differ only in the program, the
instruction label table and the instruction counter, the counter of the second
being one ahead: the line fails in both or succeeds in both, stores the same
records, declares the same labels, in the second state with the index one
higher, and leaves the counters one apart. -/
theorem assembleLine_shift (a b : Assembly) (line : String)
    (hidx : b.instrIndex = (a.instrIndex + 1) % 2 ^ 32)
    (hsame : b.parsingText = a.parsingText ∧ b.dataAddress = a.dataAddress ∧
      b.sim.memory = a.sim.memory ∧ b.sim.registers = a.sim.registers ∧
      b.sim.pc = a.sim.pc ∧ b.sim.dataLabelToAddress = a.sim.dataLabelToAddress) :
    match assembleLine a line with
    | Except.error e => assembleLine b line = Except.error e
    | Except.ok a1 =>
      ∃ b1 more newL, assembleLine b line = Except.ok b1 ∧
        a1.sim.instructions = a.sim.instructions ++ more ∧
        b1.sim.instructions = b.sim.instructions ++ more ∧
        a1.sim.labelToIndex = newL ++ a.sim.labelToIndex ∧
        b1.sim.labelToIndex
          = newL.map (fun p => (p.1, (p.2 + 1) % 2 ^ 32)) ++ b.sim.labelToIndex ∧
        (∀ p ∈ newL, p.2 = a.instrIndex) ∧
        ((more = [] ∧ a1.instrIndex = a.instrIndex) ∨
          (more.length = 1 ∧ a1.instrIndex = (a.instrIndex + 1) % 2 ^ 32)) ∧
        b1.instrIndex = (a1.instrIndex + 1) % 2 ^ 32 ∧
        b1.parsingText = a1.parsingText ∧ b1.dataAddress = a1.dataAddress ∧
        b1.sim.memory = a1.sim.memory ∧ b1.sim.registers = a1.sim.registers ∧
        b1.sim.pc = a1.sim.pc ∧ b1.sim.dataLabelToAddress = a1.sim.dataLabelToAddress := by
  obtain ⟨⟨ra, ma, ia, la, da, pa⟩, ta, xa, aa⟩ := a
  obtain ⟨⟨rb, mb, ib, lb, db, pb⟩, tb, xb, ab⟩ := b
  simp only at hidx hsame
  obtain ⟨h1, h2, h3, h4, h5, h6⟩ := hsame
  subst h1 h2 h3 h4 h5 h6 hidx
  simp only [assembleLine]
  by_cases c1 : (cleanLine line).isEmpty = true
  · simp only [c1, if_true]
    exact ⟨_, [], [], rfl, by simp⟩
  simp only [c1, if_false]
  by_cases c2 : cleanLine line = ".text".toList
  · simp only [c2, if_true]
    exact ⟨_, [], [], rfl, by simp⟩
  simp only [c2, if_false]
  by_cases c3 : cleanLine line = ".data".toList
  · simp only [c3, if_true]
    exact ⟨_, [], [], rfl, by simp⟩
  simp only [c3, if_false]
  cases tb with
  | true =>
    simp only [if_true, assembleText]
    by_cases c4 : (cleanLine line).getLast? = some ':'
    · simp only [c4, if_true, handleLabel]
      exact ⟨_, [], [(String.mk (cleanLine line).dropLast, xa)], rfl, by simp⟩
    simp only [c4, if_false]
    cases hp : parseInstructionLine (String.mk (cleanLine line)) with
    | error e => rfl
    | ok instr =>
      simp only []
      by_cases hl : instr.label = "" <;> by_cases ho : instr.opcode = ""
      all_goals simp only [hl, ho, ne_eq, not_true_eq_false, not_false_eq_true, if_true,
        if_false, handleLabel]
      · exact ⟨_, [], [], rfl, by simp⟩
      · exact ⟨_, [instr], [], rfl, by simp⟩
      · exact ⟨_, [], [(instr.label, xa)], rfl, by simp⟩
      · exact ⟨_, [instr], [(instr.label, xa)], rfl, by simp⟩
  | false =>
    simp only [Bool.false_eq_true, if_false, assembleData]
    by_cases c4 : (cleanLine line).getLast? = some ':'
    · simp only [c4, if_true]
      exact ⟨_, [], [], rfl, by simp⟩
    simp only [c4, if_false]
    by_cases c5 : ".word".toList.isPrefixOf (cleanLine line) = true
    · simp only [c5, if_true]
      cases hw : wordLoop
          ((commasToSpaces (List.dropWhile isspace (List.drop 5 (cleanLine line)))).length + 1)
          (commasToSpaces (List.dropWhile isspace (List.drop 5 (cleanLine line)))) ab mb with
      | error e => rfl
      | ok r =>
        obtain ⟨d1, m1⟩ := r
        simp only []
        exact ⟨_, [], [], rfl, by simp⟩
    simp only [c5, if_false]
    by_cases c6 : ".align".toList.isPrefixOf (cleanLine line) = true
    · simp only [c6, if_true]
      cases hs : stoiChars (List.dropWhile isspace (List.drop 6 (cleanLine line))) with
      | error e => rfl
      | ok v =>
        simp only []
        cases hal : alignAddress ab v with
        | error e => rfl
        | ok d1 =>
          simp only []
          exact ⟨_, [], [], rfl, by simp⟩
    simp only [c6, if_false]
    exact ⟨_, [], [], rfl, by simp⟩

/-- Any run of lines read from two such states: the same outcome, the same
records appended, the same labels declared, each with the index one higher (in
`uint32_t`) in the state whose counter is one ahead.  While the counter does not
wrap, the labels declared lie between the counter at the start and at the end. -/
theorem assembleLines_shift (a b : Assembly) (lines : List String)
    (hidx : b.instrIndex = (a.instrIndex + 1) % 2 ^ 32)
    (hsame : b.parsingText = a.parsingText ∧ b.dataAddress = a.dataAddress ∧
      b.sim.memory = a.sim.memory ∧ b.sim.registers = a.sim.registers ∧
      b.sim.pc = a.sim.pc ∧ b.sim.dataLabelToAddress = a.sim.dataLabelToAddress) :
    match assembleLines a lines with
    | Except.error e => assembleLines b lines = Except.error e
    | Except.ok a1 =>
      ∃ b1 more newL, assembleLines b lines = Except.ok b1 ∧
        a1.sim.instructions = a.sim.instructions ++ more ∧
        b1.sim.instructions = b.sim.instructions ++ more ∧
        a1.sim.labelToIndex = newL ++ a.sim.labelToIndex ∧
        b1.sim.labelToIndex
          = newL.map (fun p => (p.1, (p.2 + 1) % 2 ^ 32)) ++ b.sim.labelToIndex ∧
        b1.instrIndex = (a1.instrIndex + 1) % 2 ^ 32 ∧
        (a.instrIndex + more.length + 1 < 2 ^ 32 →
          a1.instrIndex = a.instrIndex + more.length ∧
          ∀ p ∈ newL, a.instrIndex ≤ p.2 ∧ p.2 ≤ a.instrIndex + more.length) ∧
        b1.parsingText = a1.parsingText ∧ b1.dataAddress = a1.dataAddress ∧
        b1.sim.memory = a1.sim.memory ∧ b1.sim.registers = a1.sim.registers ∧
        b1.sim.pc = a1.sim.pc ∧ b1.sim.dataLabelToAddress = a1.sim.dataLabelToAddress := by
  induction lines generalizing a b with
  | nil =>
    simp only [assembleLines]
    exact ⟨b, [], [], rfl, by simp, by simp, rfl, by simp, hidx, by simp, hsame⟩
  | cons l ls ih =>
    have hA := assembleLine_shift a b l hidx hsame
    simp only [assembleLines]
    cases hl : assembleLine a l with
    | error e =>
      rw [hl] at hA
      simp only [] at hA ⊢
      rw [hA]
    | ok a2 =>
      rw [hl] at hA
      simp only [] at hA ⊢
      obtain ⟨b2, m1, n1, hb, hia, hib, hla, hlb, hn1, hcnt, hidx2, hsame2⟩ := hA
      rw [hb]
      simp only []
      have hB := ih a2 b2 hidx2 hsame2
      cases hr : assembleLines a2 ls with
      | error e =>
        rw [hr] at hB
        simp only [] at hB ⊢
        exact hB
      | ok a1 =>
        rw [hr] at hB
        simp only [] at hB ⊢
        obtain ⟨b1, m2, n2, hb1, hia1, hib1, hla1, hlb1, hidx1, hnw, hsame1⟩ := hB
        refine ⟨b1, m1 ++ m2, n2 ++ n1, hb1, ?_, ?_, ?_, ?_, hidx1, ?_, hsame1⟩
        · rw [hia1, hia, List.append_assoc]
        · rw [hib1, hib, List.append_assoc]
        · rw [hla1, hla, List.append_assoc]
        · rw [hlb1, hlb, List.map_append, List.append_assoc]
        · intro hlt
          rw [List.length_append] at hlt
          have h2 : a2.instrIndex = a.instrIndex + m1.length := by
            rcases hcnt with ⟨hm, hc⟩ | ⟨hm, hc⟩
            · rw [hc, hm]; rfl
            · rw [hc, hm]; exact Nat.mod_eq_of_lt (by omega)
          obtain ⟨hc1, hp1⟩ := hnw (by omega)
          refine ⟨by rw [hc1, h2, List.length_append]; omega, ?_⟩
          intro p hp
          rw [List.length_append]
          simp only [List.mem_append] at hp
          rcases hp with hp | hp
          · have := hp1 p hp
            omega
          · have := hn1 p hp
            omega

theorem lookup_map_snd (f : Nat → Nat) (L : String) (table : List (String × Nat)) :
    (table.map (fun p => (p.1, f p.2))).lookup L = (table.lookup L).map f := by
  induction table with
  | nil => rfl
  | cons p ps ih =>
    obtain ⟨k, v⟩ := p
    simp only [List.map_cons, List.lookup]
    cases (L == k) with
    | true => rfl
    | false => exact ih

/-- C16 (amended): in text mode, a line whose mnemonic is not one of addi, add,
sub, mul, sll, lw, sw, li, beq, bne, ecall stores one record, made of the line's
label (if any) and the mnemonic as opcode, with every operand field empty: the
program grows by that record, the line's label (if any) is bound to the counter
before the line, and the instruction counter advances by one.  Whatever lines
`post` follow, they fail alike or succeed alike with and without the line; when
they succeed they store the same records `more`, each at a position one higher
with the line, and declare the same labels `newL`, each bound to an index one
higher with the line (one higher in `uint32_t`, and exactly one higher as long as
the counter stays below `2^32`); the counter ends one higher and nothing else
differs.  Executing the record changes nothing but the program counter, which
becomes `pc + 1`. -/
theorem unknown_mnemonic_stored (st : Assembly) (line label m : String)
    (operands : List String)
    (htext : st.parsingText = true)
    (hnt : cleanLine line ≠ ".text".toList) (hnd : cleanLine line ≠ ".data".toList)
    (hlast : (cleanLine line).getLast? ≠ some ':')
    (hshape : lineShape (String.mk (cleanLine line)) label m operands)
    (hm : m ∉ ["addi", "add", "sub", "mul", "sll", "lw", "sw", "li", "beq", "bne", "ecall"]) :
    (∃ st1, assembleLine st line = Except.ok st1 ∧
      st1.sim.instructions
        = st.sim.instructions ++ [{ emptyInstruction with label := label, opcode := m }] ∧
      st1.instrIndex = (st.instrIndex + 1) % 2 ^ 32 ∧
      st1.sim.labelToIndex
        = (if label = "" then st.sim.labelToIndex
          else (label, st.instrIndex) :: st.sim.labelToIndex) ∧
      ∀ post : List String,
        (∀ e, assembleLines st post = Except.error e ↔
          assembleLines st1 post = Except.error e) ∧
        (∀ b1, assembleLines st1 post = Except.ok b1 →
          ∃ a1, assembleLines st post = Except.ok a1) ∧
        ∀ a1, assembleLines st post = Except.ok a1 →
          ∃ b1 more newL, assembleLines st1 post = Except.ok b1 ∧
            a1.sim.instructions = st.sim.instructions ++ more ∧
            b1.sim.instructions = st.sim.instructions
              ++ { emptyInstruction with label := label, opcode := m } :: more ∧
            (∀ j, st.sim.instructions.length ≤ j →
              b1.sim.instructions[j + 1]? = a1.sim.instructions[j]?) ∧
            a1.sim.labelToIndex = newL ++ st.sim.labelToIndex ∧
            b1.sim.labelToIndex
              = newL.map (fun p => (p.1, (p.2 + 1) % 2 ^ 32)) ++ st1.sim.labelToIndex ∧
            (∀ L i, newL.lookup L = some i →
              a1.sim.labelToIndex.lookup L = some i ∧
              b1.sim.labelToIndex.lookup L = some ((i + 1) % 2 ^ 32)) ∧
            b1.instrIndex = (a1.instrIndex + 1) % 2 ^ 32 ∧
            (st.instrIndex + more.length + 1 < 2 ^ 32 →
              b1.instrIndex = a1.instrIndex + 1 ∧
              b1.sim.labelToIndex
                = newL.map (fun p => (p.1, p.2 + 1)) ++ st1.sim.labelToIndex ∧
              ∀ L i, newL.lookup L = some i →
                b1.sim.labelToIndex.lookup L = some (i + 1)) ∧
            b1.parsingText = a1.parsingText ∧ b1.dataAddress = a1.dataAddress ∧
            b1.sim.memory = a1.sim.memory ∧ b1.sim.registers = a1.sim.registers ∧
            b1.sim.pc = a1.sim.pc ∧
            b1.sim.dataLabelToAddress = a1.sim.dataLabelToAddress ∧
            ∀ s0 pre, assembleLines (Assembly.start s0) pre = Except.ok st →
              loadAssembly s0 (pre ++ post) = Except.ok a1.sim ∧
              loadAssembly s0 (pre ++ line :: post) = Except.ok b1.sim) ∧
    ∀ s : RiscVSim, ∃ flag s1,
      executeInstruction s { emptyInstruction with label := label, opcode := m }
        = Except.ok (flag, s1) ∧
      s1.registers = s.registers ∧ s1.memory = s.memory ∧ s1.pc = (s.pc + 1) % 2 ^ 32 ∧
      s1 = { s with pc := (s.pc + 1) % 2 ^ 32 } := by
  obtain ⟨hparse, hne⟩ := parseInstructionLine_shape _ label m operands hshape
  have hm10 : m ∉ ["addi", "add", "sub", "mul", "sll", "lw", "sw", "li", "beq", "bne"] := by
    intro h
    apply hm
    simp only [List.mem_cons, List.mem_singleton, List.not_mem_nil, or_false] at h ⊢
    tauto
  rw [parseOperands_other _ _ hm10] at hparse
  have hnonempty : cleanLine line ≠ [] := by
    intro h
    rw [h] at hshape
    rcases hshape with ⟨htok, _⟩ | ⟨t0, htok, _⟩ <;> cases htok
  have hline : ∃ st1, assembleLine st line = Except.ok st1 ∧
      st1.sim.instructions
        = st.sim.instructions ++ [{ emptyInstruction with label := label, opcode := m }] ∧
      st1.instrIndex = (st.instrIndex + 1) % 2 ^ 32 ∧
      st1.sim.labelToIndex
        = (if label = "" then st.sim.labelToIndex
          else (label, st.instrIndex) :: st.sim.labelToIndex) ∧
      (st1.parsingText = st.parsingText ∧ st1.dataAddress = st.dataAddress ∧
        st1.sim.memory = st.sim.memory ∧ st1.sim.registers = st.sim.registers ∧
        st1.sim.pc = st.sim.pc ∧ st1.sim.dataLabelToAddress = st.sim.dataLabelToAddress) := by
    rw [assembleLine_text st line htext hnonempty hnt hnd]
    simp only [assembleText, hlast, if_false, hparse]
    by_cases hl : label = ""
    · simp only [hl, hne, ne_eq, not_true_eq_false, not_false_eq_true, if_true, if_false]
      exact ⟨_, rfl, rfl, rfl, rfl, rfl, rfl, rfl, rfl, rfl, rfl⟩
    · simp only [hl, hne, ne_eq, not_true_eq_false, not_false_eq_true, if_true, if_false]
      exact ⟨_, rfl, rfl, rfl, rfl, rfl, rfl, rfl, rfl, rfl, rfl⟩
  constructor
  · obtain ⟨st1, h1, hins, hidx, hlab, hsame⟩ := hline
    refine ⟨st1, h1, hins, hidx, hlab, ?_⟩
    intro post
    have hS := assembleLines_shift st st1 post hidx hsame
    have hfwd : ∀ a1, assembleLines st post = Except.ok a1 →
        ∃ b1 more newL, assembleLines st1 post = Except.ok b1 ∧
          a1.sim.instructions = st.sim.instructions ++ more ∧
          b1.sim.instructions = st1.sim.instructions ++ more ∧
          a1.sim.labelToIndex = newL ++ st.sim.labelToIndex ∧
          b1.sim.labelToIndex
            = newL.map (fun p => (p.1, (p.2 + 1) % 2 ^ 32)) ++ st1.sim.labelToIndex ∧
          b1.instrIndex = (a1.instrIndex + 1) % 2 ^ 32 ∧
          (st.instrIndex + more.length + 1 < 2 ^ 32 →
            a1.instrIndex = st.instrIndex + more.length ∧
            ∀ p ∈ newL, st.instrIndex ≤ p.2 ∧ p.2 ≤ st.instrIndex + more.length) ∧
          b1.parsingText = a1.parsingText ∧ b1.dataAddress = a1.dataAddress ∧
          b1.sim.memory = a1.sim.memory ∧ b1.sim.registers = a1.sim.registers ∧
          b1.sim.pc = a1.sim.pc ∧
          b1.sim.dataLabelToAddress = a1.sim.dataLabelToAddress := by
      intro a1 ha
      rw [ha] at hS
      exact hS
    have herr : ∀ e, assembleLines st post = Except.error e →
        assembleLines st1 post = Except.error e := by
      intro e he
      rw [he] at hS
      exact hS
    refine ⟨?_, ?_, ?_⟩
    · intro e
      refine ⟨herr e, ?_⟩
      intro hb
      cases ha : assembleLines st post with
      | error e2 =>
        have := herr e2 ha
        rw [hb] at this
        cases this
        rfl
      | ok a1 =>
        obtain ⟨b1, _, _, hb1, _⟩ := hfwd a1 ha
        rw [hb] at hb1
        cases hb1
    · intro b1 hb
      cases ha : assembleLines st post with
      | error e =>
        have := herr e ha
        rw [hb] at this
        cases this
      | ok a1 => exact ⟨a1, rfl⟩
    · intro a1 ha
      obtain ⟨b1, more, newL, hb, hia, hib, hla, hlb, hix, hnw, s1, s2, s3, s4, s5, s6⟩ :=
        hfwd a1 ha
      have hib2 : b1.sim.instructions = st.sim.instructions
          ++ { emptyInstruction with label := label, opcode := m } :: more := by
        rw [hib, hins, List.append_assoc]
        rfl
      have hbump : st.instrIndex + more.length + 1 < 2 ^ 32 →
          newL.map (fun p => (p.1, (p.2 + 1) % 2 ^ 32))
            = newL.map (fun p => (p.1, p.2 + 1)) := by
        intro hlt
        apply List.map_congr_left
        intro p hp
        have := (hnw hlt).2 p hp
        rw [Nat.mod_eq_of_lt (by omega)]
      refine ⟨b1, more, newL, hb, hia, hib2, ?_, hla, hlb, ?_, hix, ?_, s1, s2, s3, s4, s5, s6,
        ?_⟩
      · intro j hj
        obtain ⟨k, rfl⟩ := Nat.exists_eq_add_of_le hj
        rw [hib2, hia]
        rw [List.getElem?_append_right (by omega), List.getElem?_append_right (by omega)]
        have e1 : st.sim.instructions.length + k + 1 - st.sim.instructions.length = k + 1 := by
          omega
        have e2 : st.sim.instructions.length + k - st.sim.instructions.length = k := by omega
        rw [e1, e2]
        exact List.getElem?_cons_succ
      · intro L i hL
        constructor
        · rw [hla, List.lookup_append, hL]
          rfl
        · rw [hlb, List.lookup_append, lookup_map_snd (fun n => (n + 1) % 2 ^ 32), hL]
          rfl
      · intro hlt
        refine ⟨?_, ?_, ?_⟩
        · rw [hix, (hnw hlt).1]
          exact Nat.mod_eq_of_lt (by omega)
        · rw [hlb, hbump hlt]
        · intro L i hL
          rw [hlb, hbump hlt, List.lookup_append, lookup_map_snd (fun n => n + 1), hL]
          rfl
      · intro s0 pre hpre
        constructor
        · simp only [loadAssembly, assembleLines_append, hpre, ha]
        · simp only [loadAssembly, assembleLines_append, hpre, assembleLines, h1, hb]
  · intro s
    exact ⟨_, _, execute_bare_record s label m hm, rfl, rfl, rfl, rfl⟩

/-- Instance of C16 (amended): the line `nop` in text mode, before the lines
`end:` and `ecall`.  The label `end` is bound to 0 without the line and to 1
with it, and the `ecall` record stands at position 0 without it and 1 with it. -/
theorem unknown_mnemonic_stored_witness :
    ∃ st1 a1 b1,
      assembleLine { Assembly.start RiscVSim.init with parsingText := true } "nop"
        = Except.ok st1 ∧
      st1.sim.instructions = [mkInstr "nop" "" "" "" 0 ""] ∧ st1.instrIndex = 1 ∧
      assembleLines { Assembly.start RiscVSim.init with parsingText := true } ["end:", "ecall"]
        = Except.ok a1 ∧
      assembleLines st1 ["end:", "ecall"] = Except.ok b1 ∧
      a1.sim.labelToIndex.lookup "end" = some 0 ∧
      b1.sim.labelToIndex.lookup "end" = some 1 ∧
      a1.sim.instructions[0]? = some (mkInstr "ecall" "" "" "" 0 "") ∧
      b1.sim.instructions[1]? = some (mkInstr "ecall" "" "" "" 0 "") := by
  obtain ⟨st1, h1, hins, hidx, _, hpost⟩ :=
    (unknown_mnemonic_stored { Assembly.start RiscVSim.init with parsingText := true } "nop" ""
      "nop" [] rfl (by decide) (by decide) (by decide) (Or.inl ⟨by rfl, by decide, rfl⟩)
      (by decide)).1
  obtain ⟨_, _, hcmp⟩ := hpost ["end:", "ecall"]
  obtain ⟨b1, more, newL, hb, _, _, hpos, hla, _, hlook, _⟩ := hcmp _ rfl
  have hnew : newL = [("end", 0)] := by
    have : [("end", 0)] = newL ++ [] := hla
    simpa using this.symm
  subst hnew
  obtain ⟨hl0, hl1⟩ := hlook "end" 0 rfl
  have hp := hpos 0 (Nat.le_refl 0)
  exact ⟨st1, _, b1, h1, hins, hidx, rfl, hb, hl0, hl1, rfl, hp⟩

/-- C16 as stated fails on the line `nop`: it is stored as a record and takes
an index, so the label `end` declared after it is bound to 1, not to 0. -/
theorem unknown_mnemonic_changes_indices :
    (∃ st1, assembleLine { Assembly.start RiscVSim.init with parsingText := true } "nop"
        = Except.ok st1 ∧
      st1.sim.instructions = [mkInstr "nop" "" "" "" 0 ""] ∧
      st1.sim.instructions ≠ (Assembly.start RiscVSim.init).sim.instructions ∧
      st1.instrIndex = 1 ∧ (Assembly.start RiscVSim.init).instrIndex = 0) ∧
    (∃ final, loadAssembly RiscVSim.init [".text", "nop", "end:", "ecall"] = Except.ok final ∧
      final.labelToIndex.lookup "end" = some 1 ∧
      final.instructions.map (fun i => i.opcode) = ["nop", "ecall"]) ∧
    (∃ final, loadAssembly RiscVSim.init [".text", "end:", "ecall"] = Except.ok final ∧
      final.labelToIndex.lookup "end" = some 0) := by
  refine ⟨⟨_, rfl, rfl, by simp [Assembly.start], rfl, rfl⟩, ⟨_, rfl, rfl, rfl⟩, ⟨_, rfl, rfl⟩⟩

/-- A line either leaves the program alone or, in text mode, appends the record
that `parseInstructionLine` returns for its cleaned text, whose opcode is not
empty. -/
theorem assembleLine_stored (st st1 : Assembly) (line : String)
    (h : assembleLine st line = Except.ok st1) :
    st1.sim.instructions = st.sim.instructions ∨
      ∃ instr, parseInstructionLine (String.mk (cleanLine line)) = Except.ok instr ∧
        instr.opcode ≠ "" ∧ st1.sim.instructions = st.sim.instructions ++ [instr] := by
  unfold assembleLine at h
  simp only [] at h
  split at h
  · cases h; exact Or.inl rfl
  split at h
  · cases h; exact Or.inl rfl
  split at h
  · cases h; exact Or.inl rfl
  split at h
  · unfold assembleText at h
    split at h
    · cases h; exact Or.inl rfl
    · split at h
      · cases h
      · rename_i instr hp
        simp only [] at h
        by_cases hl : instr.label = "" <;> by_cases ho : instr.opcode = ""
        all_goals simp only [hl, ho, ne_eq, not_true_eq_false, not_false_eq_true, if_true,
          if_false] at h
        all_goals cases h
        · exact Or.inl rfl
        · exact Or.inr ⟨instr, hp, ho, rfl⟩
        · exact Or.inl rfl
        · exact Or.inr ⟨instr, hp, ho, rfl⟩
  · unfold assembleData at h
    split at h
    · cases h; exact Or.inl rfl
    split at h
    · simp only [] at h
      split at h
      · cases h
      · cases h; exact Or.inl rfl
    split at h
    · simp only [] at h
      split at h
      · cases h
      · split at h
        · cases h
        · cases h; exact Or.inl rfl
    · cases h; exact Or.inl rfl

theorem assembleLines_stored (st st1 : Assembly) (lines : List String)
    (h : assembleLines st lines = Except.ok st1) :
    ∀ instr ∈ st1.sim.instructions, instr ∈ st.sim.instructions ∨
      (instr.opcode ≠ "" ∧
        ∃ line ∈ lines, parseInstructionLine (String.mk (cleanLine line)) = Except.ok instr) := by
  induction lines generalizing st with
  | nil =>
    simp only [assembleLines] at h
    cases h
    intro instr hi
    exact Or.inl hi
  | cons l ls ih =>
    simp only [assembleLines] at h
    split at h
    · cases h
    · rename_i st2 hl
      intro instr hi
      rcases ih st2 h instr hi with h2 | ⟨ho, line, hline, hp⟩
      · rcases assembleLine_stored st st2 l hl with e | ⟨i2, hp2, ho2, e⟩
        · rw [e] at h2; exact Or.inl h2
        · rw [e] at h2
          simp only [List.mem_append, List.mem_singleton] at h2
          rcases h2 with h2 | h2
          · exact Or.inl h2
          · subst h2
            exact Or.inr ⟨ho2, l, by simp, hp2⟩
      · exact Or.inr ⟨ho, line, by simp [hline], hp⟩

theorem findChar_append (c : Char) (a b : List Char) (h : ∀ d ∈ a, d ≠ c) :
    findChar c (a ++ c :: b) = some a.length := by
  induction a with
  | nil => simp [findChar]
  | cons d ds ih =>
    have hd : d ≠ c := h d (by simp)
    have ih2 := ih (fun e he => h e (by simp [he]))
    simp only [List.cons_append, findChar, hd, if_false, List.length_cons]
    change Option.map (fun i => i + 1) (findChar c (ds ++ c :: b)) = some (ds.length + 1)
    rw [ih2]
    rfl

/-- The operand `offset(base)` of `lw`/`sw` is taken apart into its two texts. -/
theorem memOperand_parts (off base : List Char)
    (hoff : ∀ d ∈ off, d ≠ '(' ∧ d ≠ ')') (hbase : ∀ d ∈ base, d ≠ ')') :
    findChar '(' (off ++ '(' :: (base ++ [')'])) = some off.length ∧
    findChar ')' (off ++ '(' :: (base ++ [')'])) = some (off.length + 1 + base.length) ∧
    (off ++ '(' :: (base ++ [')'])).take off.length = off ∧
    ((off ++ '(' :: (base ++ [')'])).drop (off.length + 1)).take
      (off.length + 1 + base.length - off.length - 1) = base := by
  refine ⟨findChar_append _ _ _ (fun d hd => (hoff d hd).1), ?_, by simp, ?_⟩
  · have e : off ++ '(' :: (base ++ [')']) = (off ++ '(' :: base) ++ ')' :: [] := by simp
    rw [e, findChar_append]
    · simp; omega
    · intro d hd
      simp only [List.mem_append, List.mem_cons] at hd
      rcases hd with hd | hd | hd
      · exact (hoff d hd).2
      · rw [hd]; decide
      · exact hbase d hd
  · have e1 : (off ++ '(' :: (base ++ [')'])).drop (off.length + 1) = base ++ [')'] := by
      rw [show off ++ '(' :: (base ++ [')']) = (off ++ ['(']) ++ (base ++ [')']) by simp]
      rw [List.drop_append_of_le_length (by simp)]
      simp
    rw [e1]
    have e2 : off.length + 1 + base.length - off.length - 1 = base.length := by omega
    rw [e2]; simp

/-- The rows of the operand table, on a record that has its label and opcode. -/
theorem parseOperands_table (label : String) :
    (∀ rd rs1 t more v, stoi t = Except.ok v →
      parseOperands { emptyInstruction with label := label, opcode := "addi" }
          ("addi" :: rd :: rs1 :: t :: more)
        = Except.ok { emptyInstruction with
            label := label, opcode := "addi", rd := rd, rs1 := rs1, imm := v }) ∧
    (∀ m rd rs1 rs2 more, m = "add" ∨ m = "sub" ∨ m = "mul" →
      parseOperands { emptyInstruction with label := label, opcode := m }
          (m :: rd :: rs1 :: rs2 :: more)
        = Except.ok { emptyInstruction with
            label := label, opcode := m, rd := rd, rs1 := rs1, rs2 := rs2 }) ∧
    (∀ rd rs1 t more v, isNumberToken t = true → stoi t = Except.ok v →
      parseOperands { emptyInstruction with label := label, opcode := "sll" }
          ("sll" :: rd :: rs1 :: t :: more)
        = Except.ok { emptyInstruction with
            label := label, opcode := "slli", rd := rd, rs1 := rs1, imm := v }) ∧
    (∀ rd rs1 rs2 more, isNumberToken rs2 = false →
      parseOperands { emptyInstruction with label := label, opcode := "sll" }
          ("sll" :: rd :: rs1 :: rs2 :: more)
        = Except.ok { emptyInstruction with
            label := label, opcode := "sll", rd := rd, rs1 := rs1, rs2 := rs2 }) ∧
    (∀ m rd off base more v, m = "lw" ∨ m = "sw" →
      (∀ d ∈ off, d ≠ '(' ∧ d ≠ ')') → (∀ d ∈ base, d ≠ ')') → off ≠ [] →
      stoiChars off = Except.ok v →
      parseOperands { emptyInstruction with label := label, opcode := m }
          (m :: rd :: String.mk (off ++ '(' :: (base ++ [')'])) :: more)
        = Except.ok { emptyInstruction with
            label := label, opcode := m, rd := rd, rs1 := String.mk base, imm := v }) ∧
    (∀ rd t more v, stoi t = Except.ok v →
      parseOperands { emptyInstruction with label := label, opcode := "li" }
          ("li" :: rd :: t :: more)
        = Except.ok { emptyInstruction with
            label := label, opcode := "addi", rd := rd, rs1 := "x0", imm := v }) ∧
    (∀ m rs1 rs2 t more v, m = "beq" ∨ m = "bne" → isNumberToken t = true →
      stoi t = Except.ok v →
      parseOperands { emptyInstruction with label := label, opcode := m }
          (m :: rs1 :: rs2 :: t :: more)
        = Except.ok { emptyInstruction with
            label := label, opcode := m, rs1 := rs1, rs2 := rs2, imm := v }) ∧
    (∀ m rs1 rs2 target more, m = "beq" ∨ m = "bne" → isNumberToken target = false →
      parseOperands { emptyInstruction with label := label, opcode := m }
          (m :: rs1 :: rs2 :: target :: more)
        = Except.ok { emptyInstruction with
            label := label, opcode := m, rs1 := rs1, rs2 := rs2, labelTarget := target }) ∧
    (∀ more, parseOperands { emptyInstruction with label := label, opcode := "ecall" }
        ("ecall" :: more)
      = Except.ok { emptyInstruction with label := label, opcode := "ecall" }) := by
  refine ⟨?_, ?_, ?_, ?_, ?_, ?_, ?_, ?_, ?_⟩
  · intro rd rs1 t more v hv
    simp only [parseOperands, emptyInstruction, if_true, hv]
  · intro m rd rs1 rs2 more hm
    rcases hm with h | h | h <;> subst h <;> simp +decide only [parseOperands, emptyInstruction,
      if_true, if_false, or_true, true_or, or_false, false_or]
  · intro rd rs1 t more v hn hv
    simp +decide only [parseOperands, emptyInstruction, if_true, if_false, hn, hv, or_self]
  · intro rd rs1 rs2 more hn
    simp +decide only [parseOperands, emptyInstruction, if_true, if_false, hn, or_self]
  · intro m rd off base more v hm hoff hbase hne hv
    obtain ⟨f1, f2, f3, f4⟩ := memOperand_parts off base hoff hbase
    have hlt : off.length < off.length + 1 + base.length := by omega
    rcases hm with h | h <;> subst h <;>
      simp +decide only [parseOperands, emptyInstruction, String.toList, if_true, if_false, f1,
        f2, f3, f4, hlt, hne, hv, or_true, true_or, or_false, false_or, or_self]
  · intro rd t more v hv
    simp +decide only [parseOperands, emptyInstruction, if_true, if_false, hv, or_self]
  · intro m rs1 rs2 t more v hm hn hv
    rcases hm with h | h <;> subst h <;>
      simp +decide only [parseOperands, emptyInstruction, if_true, if_false, hn, hv, or_true,
        true_or, or_false, false_or, or_self]
  · intro m rs1 rs2 target more hm hn
    rcases hm with h | h <;> subst h <;>
      simp +decide only [parseOperands, emptyInstruction, if_true, if_false, hn, or_true,
        true_or, or_false, false_or, or_self]
    all_goals try simp
  · intro more
    simp +decide only [parseOperands, emptyInstruction, if_true, if_false, or_self]

/-- C17 (amended): every record stored in the program after assembly has a
non-empty operation and is the record `parseInstructionLine` returns for one of
the source lines; a record is left out of the program exactly when its
operation is empty.  A line that carries the operand tokens of its row of the
operand table gives the populated record of that row: ADDI its destination,
source and immediate; ADD, SUB, MUL their three registers; SLL with a numeric
third operand SLLI with that immediate, otherwise SLL with rs2; LW, SW their
register, base register and offset; LI the ADDI from x0; BEQ, BNE their two
sources and the immediate or the label target; ECALL nothing. -/
theorem stored_records (s0 final : RiscVSim) (lines : List String)
    (hload : loadAssembly s0 lines = Except.ok final) :
    (∀ instr ∈ final.instructions, instr.opcode ≠ "" ∧
      ∃ line ∈ lines, parseInstructionLine (String.mk (cleanLine line)) = Except.ok instr) ∧
    (∀ (st st1 : Assembly) (line : String) (instr : Instruction),
      st.parsingText = true → cleanLine line ≠ [] → cleanLine line ≠ ".text".toList →
      cleanLine line ≠ ".data".toList → (cleanLine line).getLast? ≠ some ':' →
      parseInstructionLine (String.mk (cleanLine line)) = Except.ok instr →
      assembleLine st line = Except.ok st1 →
      (instr.opcode = "" → st1.sim.instructions = st.sim.instructions) ∧
      (instr.opcode ≠ "" → st1.sim.instructions = st.sim.instructions ++ [instr])) ∧
    (∀ line label rd rs1 t more v, lineShape line label "addi" (rd :: rs1 :: t :: more) →
      stoi t = Except.ok v →
      parseInstructionLine line = Except.ok { emptyInstruction with
        label := label, opcode := "addi", rd := rd, rs1 := rs1, imm := v }) ∧
    (∀ line label m rd rs1 rs2 more, m = "add" ∨ m = "sub" ∨ m = "mul" →
      lineShape line label m (rd :: rs1 :: rs2 :: more) →
      parseInstructionLine line = Except.ok { emptyInstruction with
        label := label, opcode := m, rd := rd, rs1 := rs1, rs2 := rs2 }) ∧
    (∀ line label rd rs1 t more v, lineShape line label "sll" (rd :: rs1 :: t :: more) →
      isNumberToken t = true → stoi t = Except.ok v →
      parseInstructionLine line = Except.ok { emptyInstruction with
        label := label, opcode := "slli", rd := rd, rs1 := rs1, imm := v }) ∧
    (∀ line label rd rs1 rs2 more, lineShape line label "sll" (rd :: rs1 :: rs2 :: more) →
      isNumberToken rs2 = false →
      parseInstructionLine line = Except.ok { emptyInstruction with
        label := label, opcode := "sll", rd := rd, rs1 := rs1, rs2 := rs2 }) ∧
    (∀ line label m rd off base more v, m = "lw" ∨ m = "sw" →
      lineShape line label m (rd :: String.mk (off ++ '(' :: (base ++ [')'])) :: more) →
      (∀ d ∈ off, d ≠ '(' ∧ d ≠ ')') → (∀ d ∈ base, d ≠ ')') → off ≠ [] →
      stoiChars off = Except.ok v →
      parseInstructionLine line = Except.ok { emptyInstruction with
        label := label, opcode := m, rd := rd, rs1 := String.mk base, imm := v }) ∧
    (∀ line label rd t more v, lineShape line label "li" (rd :: t :: more) →
      stoi t = Except.ok v →
      parseInstructionLine line = Except.ok { emptyInstruction with
        label := label, opcode := "addi", rd := rd, rs1 := "x0", imm := v }) ∧
    (∀ line label m rs1 rs2 t more v, m = "beq" ∨ m = "bne" →
      lineShape line label m (rs1 :: rs2 :: t :: more) →
      isNumberToken t = true → stoi t = Except.ok v →
      parseInstructionLine line = Except.ok { emptyInstruction with
        label := label, opcode := m, rs1 := rs1, rs2 := rs2, imm := v }) ∧
    (∀ line label m rs1 rs2 target more, m = "beq" ∨ m = "bne" →
      lineShape line label m (rs1 :: rs2 :: target :: more) →
      isNumberToken target = false →
      parseInstructionLine line = Except.ok { emptyInstruction with
        label := label, opcode := m, rs1 := rs1, rs2 := rs2, labelTarget := target }) ∧
    (∀ line label more, lineShape line label "ecall" more →
      parseInstructionLine line
        = Except.ok { emptyInstruction with label := label, opcode := "ecall" }) := by
  refine ⟨?_, ?_, ?_, ?_, ?_, ?_, ?_, ?_, ?_, ?_, ?_⟩
  · unfold loadAssembly at hload
    cases hrun : assembleLines (Assembly.start s0) lines with
    | error e => rw [hrun] at hload; cases hload
    | ok st =>
      rw [hrun] at hload
      cases hload
      intro instr hi
      rcases assembleLines_stored _ st lines hrun instr hi with h | h
      · cases h
      · exact h
  · intro st st1 line instr htext hne hnt hnd hlast hp hline
    rw [assembleLine_text st line htext hne hnt hnd] at hline
    simp only [assembleText, hlast, if_false, hp] at hline
    constructor
    · intro ho
      by_cases hl : instr.label = ""
      all_goals simp only [hl, ho, ne_eq, not_true_eq_false, not_false_eq_true, if_true,
        if_false] at hline
      all_goals cases hline
      all_goals rfl
    · intro ho
      by_cases hl : instr.label = ""
      all_goals simp only [hl, ho, ne_eq, not_true_eq_false, not_false_eq_true, if_true,
        if_false] at hline
      all_goals cases hline
      all_goals rfl
  · intro line label rd rs1 t more v hs hv
    rw [(parseInstructionLine_shape line label _ _ hs).1]
    exact (parseOperands_table label).1 rd rs1 t more v hv
  · intro line label m rd rs1 rs2 more hm hs
    rw [(parseInstructionLine_shape line label _ _ hs).1]
    exact (parseOperands_table label).2.1 m rd rs1 rs2 more hm
  · intro line label rd rs1 t more v hs hn hv
    rw [(parseInstructionLine_shape line label _ _ hs).1]
    exact (parseOperands_table label).2.2.1 rd rs1 t more v hn hv
  · intro line label rd rs1 rs2 more hs hn
    rw [(parseInstructionLine_shape line label _ _ hs).1]
    exact (parseOperands_table label).2.2.2.1 rd rs1 rs2 more hn
  · intro line label m rd off base more v hm hs hoff hbase hne hv
    rw [(parseInstructionLine_shape line label _ _ hs).1]
    exact (parseOperands_table label).2.2.2.2.1 m rd off base more v hm hoff hbase hne hv
  · intro line label rd t more v hs hv
    rw [(parseInstructionLine_shape line label _ _ hs).1]
    exact (parseOperands_table label).2.2.2.2.2.1 rd t more v hv
  · intro line label m rs1 rs2 t more v hm hs hn hv
    rw [(parseInstructionLine_shape line label _ _ hs).1]
    exact (parseOperands_table label).2.2.2.2.2.2.1 m rs1 rs2 t more v hm hn hv
  · intro line label m rs1 rs2 target more hm hs hn
    rw [(parseInstructionLine_shape line label _ _ hs).1]
    exact (parseOperands_table label).2.2.2.2.2.2.2.1 m rs1 rs2 target more hm hn
  · intro line label more hs
    rw [(parseInstructionLine_shape line label _ _ hs).1]
    exact (parseOperands_table label).2.2.2.2.2.2.2.2 more

/-- Instance of C17 (amended): `.text`, `addi x5, x0, 100`, `lw x6, 8(x5)`. -/
theorem stored_records_witness :
    ∃ final, loadAssembly RiscVSim.init [".text", "addi x5, x0, 100", "lw x6, 8(x5)"]
        = Except.ok final ∧
      final.instructions = [mkInstr "addi" "x5" "x0" "" 100 "", mkInstr "lw" "x6" "x5" "" 8 ""] ∧
      ∀ instr ∈ final.instructions, instr.opcode ≠ "" := by
  have hload : loadAssembly RiscVSim.init [".text", "addi x5, x0, 100", "lw x6, 8(x5)"]
      = Except.ok { RiscVSim.init with
          instructions := [mkInstr "addi" "x5" "x0" "" 100 "", mkInstr "lw" "x6" "x5" "" 8 ""] } := by
    rfl
  exact ⟨_, hload, rfl, fun instr hi => ((stored_records _ _ _ hload).1 instr hi).1⟩

/-- C17 as stated fails on `.text`, `nop`, `addi x1`: both lines are stored, the
first with an operation outside the closed set, the second as an ADDI without
destination and source. -/
theorem stored_records_not_all_populated :
    ∃ final, loadAssembly RiscVSim.init [".text", "nop", "addi x1"] = Except.ok final ∧
      final.instructions = [mkInstr "nop" "" "" "" 0 "", mkInstr "addi" "" "" "" 0 ""] ∧
      "nop" ∉ ["addi", "add", "sub", "mul", "sll", "slli", "lw", "sw", "beq", "bne", "ecall"] ∧
      (mkInstr "addi" "" "" "" 0 "").rd = "" ∧ (mkInstr "addi" "" "" "" 0 "").rs1 = "" ∧
      (mkInstr "nop" "" "" "" 0 "") ≠ emptyInstruction ∧
      (mkInstr "addi" "" "" "" 0 "") ≠ emptyInstruction := by
  refine ⟨_, rfl, rfl, by decide, rfl, rfl, by decide, by decide⟩

/-! ## Tokens of a line -/

theorem splitTokens_word (t rest cur : List Char) (ht : ∀ c ∈ t, isspace c = false) :
    splitTokens (t ++ rest) cur = splitTokens rest (cur ++ t) := by
  induction t generalizing cur with
  | nil => simp
  | cons c cs ih =>
    have hc := ht c (by simp)
    show splitTokens (c :: (cs ++ rest)) cur = _
    rw [splitTokens]
    simp only [hc, Bool.false_eq_true, if_false]
    rw [ih _ (fun d hd => ht d (by simp [hd]))]
    simp

theorem splitTokens_token_blank (t rest : List Char) (hne : t ≠ [])
    (ht : ∀ c ∈ t, isspace c = false) :
    splitTokens (t ++ ' ' :: rest) [] = String.mk t :: splitTokens rest [] := by
  rw [splitTokens_word t _ [] ht, List.nil_append, splitTokens]
  simp [show isspace ' ' = true by rfl, hne]

theorem splitTokens_token_end (t : List Char) (hne : t ≠ [])
    (ht : ∀ c ∈ t, isspace c = false) :
    splitTokens t [] = [String.mk t] := by
  have := splitTokens_word t [] [] ht
  rw [List.append_nil, List.nil_append] at this
  rw [this, splitTokens]
  simp [hne]

theorem splitTokens_skip (rest : List Char) :
    splitTokens (' ' :: rest) [] = splitTokens rest [] := by
  rw [splitTokens]
  simp [show isspace ' ' = true by rfl]

theorem decimal_token (v : Int) :
    decimal v ≠ [] ∧ ∀ c ∈ decimal v, isspace c = false ∧ c ≠ ',' := by
  obtain ⟨hne, hch, _⟩ := decimal_chars v
  refine ⟨hne, ?_⟩
  intro c hc
  rcases hch c hc with h | h
  · exact ⟨(digit_not_special c h).1, (digit_not_special c h).2.2.2.2.2.1⟩
  · rw [h]; exact ⟨by rfl, by decide⟩

/-- Tokens of `li rd, imm` and of `addi rd, rs1, imm`. -/
theorem tokenize_li_addi (rd rs1 : String) (imm : Int)
    (hrd : rd.toList ≠ [] ∧ ∀ c ∈ rd.toList, isspace c = false ∧ c ≠ ',')
    (hrs1 : rs1.toList ≠ [] ∧ ∀ c ∈ rs1.toList, isspace c = false ∧ c ≠ ',') :
    tokenize (liLine rd imm) = ["li", rd, String.mk (decimal imm)] ∧
    tokenize (addiLine rd rs1 imm) = ["addi", rd, rs1, String.mk (decimal imm)] := by
  obtain ⟨hdne, hdch⟩ := decimal_token imm
  have crd : commasToSpaces rd.toList = rd.toList :=
    commasToSpaces_not_comma _ (fun c hc => (hrd.2 c hc).2)
  have crs : commasToSpaces rs1.toList = rs1.toList :=
    commasToSpaces_not_comma _ (fun c hc => (hrs1.2 c hc).2)
  have cdec : commasToSpaces (decimal imm) = decimal imm := commasToSpaces_decimal imm
  have wrd : ∀ c ∈ rd.toList, isspace c = false := fun c hc => (hrd.2 c hc).1
  have wrs : ∀ c ∈ rs1.toList, isspace c = false := fun c hc => (hrs1.2 c hc).1
  have wdec : ∀ c ∈ decimal imm, isspace c = false := fun c hc => (hdch c hc).1
  have csep : commasToSpaces ", ".toList = [' ', ' '] := by rfl
  constructor
  · have e : commasToSpaces (liLine rd imm).toList
        = "li".toList ++ ' ' :: (rd.toList ++ ' ' :: ' ' :: decimal imm) := by
      have e1 : (liLine rd imm).toList
          = "li ".toList ++ (rd.toList ++ (", ".toList ++ decimal imm)) := by
        simp [liLine]
      rw [e1, commasToSpaces_append, commasToSpaces_append, commasToSpaces_append, crd, cdec,
        csep]
      rfl
    unfold tokenize
    rw [e, splitTokens_token_blank "li".toList _ (by decide) (by decide),
      splitTokens_token_blank rd.toList _ hrd.1 wrd, splitTokens_skip,
      splitTokens_token_end _ hdne wdec]
    rfl
  · have e : commasToSpaces (addiLine rd rs1 imm).toList
        = "addi".toList ++ ' ' :: (rd.toList ++ ' ' :: ' ' :: (rs1.toList
            ++ ' ' :: ' ' :: decimal imm)) := by
      have e1 : (addiLine rd rs1 imm).toList
          = "addi ".toList ++ (rd.toList ++ (", ".toList ++ (rs1.toList
              ++ (", ".toList ++ decimal imm)))) := by
        simp [addiLine]
      rw [e1, commasToSpaces_append, commasToSpaces_append, commasToSpaces_append,
        commasToSpaces_append, commasToSpaces_append, crd, crs, cdec, csep]
      rfl
    unfold tokenize
    rw [e, splitTokens_token_blank "addi".toList _ (by decide) (by decide),
      splitTokens_token_blank rd.toList _ hrd.1 wrd, splitTokens_skip,
      splitTokens_token_blank rs1.toList _ hrs1.1 wrs, splitTokens_skip,
      splitTokens_token_end _ hdne wdec]
    rfl

/-- C18: for every register token `rd` and every decimal signed 32-bit `imm`,
`parseInstructionLine` returns for `li rd, imm` the same record as for
`addi rd, x0, imm`: operation ADDI, destination `rd`, source x0, immediate
`imm`; executing it with `rd` other than x0 leaves that register equal to
`imm`. -/
theorem li_is_addi (rd : String) (imm : Int)
    (hrd : rd.toList ≠ [] ∧ ∀ c ∈ rd.toList, isspace c = false ∧ c ≠ ',')
    (h1 : -(2 ^ 31) ≤ imm) (h2 : imm < 2 ^ 31) :
    parseInstructionLine (liLine rd imm) = parseInstructionLine (addiLine rd "x0" imm) ∧
    parseInstructionLine (liLine rd imm) = Except.ok (mkInstr "addi" rd "x0" "" imm "") ∧
    ∀ (s : RiscVSim) (r : Nat), parseRegisterNumber rd = Except.ok r → r ≠ 0 →
      ∃ flag s1, executeInstruction s (mkInstr "addi" rd "x0" "" imm "") = Except.ok (flag, s1) ∧
        s1.registers r = imm := by
  obtain ⟨tli, taddi⟩ := tokenize_li_addi rd "x0" imm hrd ⟨by decide, by decide⟩
  have hstoi : stoi (String.mk (decimal imm)) = Except.ok imm := by
    have := (extractInt_decimal imm [] h1 h2 (fun c hc => by cases hc)).2
    rw [List.append_nil] at this
    exact this
  have hli : parseInstructionLine (liLine rd imm) = Except.ok (mkInstr "addi" rd "x0" "" imm "") := by
    rw [(parseInstructionLine_shape (liLine rd imm) "" "li" [rd, String.mk (decimal imm)]
      (Or.inl ⟨tli, by decide, rfl⟩)).1]
    exact (parseOperands_table "").2.2.2.2.2.1 rd _ [] imm hstoi
  have haddi : parseInstructionLine (addiLine rd "x0" imm)
      = Except.ok (mkInstr "addi" rd "x0" "" imm "") := by
    rw [(parseInstructionLine_shape (addiLine rd "x0" imm) "" "addi"
      [rd, "x0", String.mk (decimal imm)] (Or.inl ⟨taddi, by decide, rfl⟩)).1]
    exact (parseOperands_table "").1 rd "x0" _ [] imm hstoi
  refine ⟨by rw [hli, haddi], hli, ?_⟩
  intro s r hr hr0
  have g : getRegister s "x0" = Except.ok 0 := by
    simp [getRegister, parseRegisterNumber_x0]
  have hexec : executeInstruction s (mkInstr "addi" rd "x0" "" imm "") = Except.ok (commit
      (if r = 0 then s
        else { s with registers := Function.update s.registers r (toInt32 (0 + imm)) })
      ((s.pc + 1) % 2 ^ 32)) := by
    simp only [executeInstruction, mkInstr]
    simp +decide only [if_true, if_false, g, setRegister_of_parse s rd _ r hr]
  obtain ⟨flag, s1, hc, hv, _⟩ :=
    commit_setRd s r (toInt32 (0 + imm)) ((s.pc + 1) % 2 ^ 32) hr0
  refine ⟨flag, s1, by rw [hexec, hc], ?_⟩
  rw [hv, Int.zero_add, toInt32_of_range imm h1 h2]

/-- Instance of C18: `li x5, -42` and `addi x5, x0, -42`. -/
theorem li_is_addi_witness :
    parseInstructionLine "li x5, -42" = parseInstructionLine "addi x5, x0, -42" ∧
    parseInstructionLine "li x5, -42" = Except.ok (mkInstr "addi" "x5" "x0" "" (-42) "") ∧
    ∃ flag s1, executeInstruction RiscVSim.init (mkInstr "addi" "x5" "x0" "" (-42) "")
        = Except.ok (flag, s1) ∧ s1.registers 5 = -42 := by
  obtain ⟨hsame, hrec, hexec⟩ := li_is_addi "x5" (-42) (by decide) (by decide) (by decide)
  exact ⟨hsame, hrec, hexec RiscVSim.init 5 (by rfl) (by decide)⟩

/-! ## A label in front of a data directive -/

theorem identifier_char (c : Char) (h : c.isAlphanum = true ∨ c = '_') :
    c ≠ ' ' ∧ c ≠ '\t' ∧ c ≠ '#' ∧ c ≠ ':' ∧ c ≠ '.' := by
  have key : ∀ s : Char, s.isAlphanum = false → s ≠ '_' → c ≠ s := by
    intro s hs hu e
    rcases h with h | h
    · rw [e, hs] at h; cases h
    · rw [e] at h; exact hu h
  exact ⟨key _ (by rfl) (by decide), key _ (by rfl) (by decide), key _ (by rfl) (by decide),
    key _ (by rfl) (by decide), key _ (by rfl) (by decide)⟩

/-- Cleaning leaves alone a line that starts with neither blank nor tab and has
no `#`. -/
theorem cleanLine_plain (c0 : Char) (rest : List Char) (h0 : c0 ≠ ' ' ∧ c0 ≠ '\t')
    (hplain : ∀ c ∈ c0 :: rest, c ≠ '#') :
    cleanLine (String.mk (c0 :: rest)) = c0 :: rest := by
  unfold cleanLine
  have e : (String.mk (c0 :: rest)).toList = c0 :: rest := rfl
  rw [e]
  have hb : (decide (c0 = ' ') || decide (c0 = '\t')) = false := by simp [h0.1, h0.2]
  simp only [List.dropWhile, hb]
  exact takeWhile_all _ _ (fun c hc => by simpa using hplain c hc)

/-- In data mode a cleaned line that does not start with `.` and does not end
with `:` is an unrecognized directive: nothing changes. -/
theorem assembleData_unrecognized (st : Assembly) (c0 : Char) (rest : List Char)
    (h0 : c0 ≠ '.') (hlast : (c0 :: rest).getLast? ≠ some ':') :
    assembleData st (c0 :: rest) = Except.ok st := by
  have hw : ".word".toList.isPrefixOf (c0 :: rest) = false := by
    show ('.' :: "word".toList).isPrefixOf (c0 :: rest) = false
    simp [List.isPrefixOf, Ne.symm h0]
  have ha : ".align".toList.isPrefixOf (c0 :: rest) = false := by
    show ('.' :: "align".toList).isPrefixOf (c0 :: rest) = false
    simp [List.isPrefixOf, Ne.symm h0]
  simp only [assembleData, hlast, hw, ha, if_false, Bool.false_eq_true]

/-- C19 (amended): in data mode with the cursor at `c`, for an identifier `L`
and decimal 32-bit values `v1..vk` with `c + 4k` within the memory, the single
line `L: .word v1,...,vk` is an unrecognized directive and changes nothing: `L`
is not bound, no value is written, the cursor stays at `c`.  The line `L:`
followed by the line `.word v1,...,vk` binds `L` to `c` in the data label table,
writes the values as little-endian words from `c` and ends with the cursor at
`c + 4k`. -/
theorem labelled_word_line (st : Assembly) (L : String) (vs : List Int)
    (hdata : st.parsingText = false)
    (hL : L.toList ≠ [] ∧ ∀ c ∈ L.toList, c.isAlphanum = true ∨ c = '_')
    (hrange : ∀ v ∈ vs, -(2 ^ 31) ≤ v ∧ v < 2 ^ 31)
    (hfit : st.dataAddress + 4 * vs.length ≤ MEM_SIZE) :
    assembleLine st (String.mk (L.toList ++ ": ".toList ++ (wordLine vs).toList))
      = Except.ok st ∧
    ∃ st1 st2, assembleLine st (String.mk (L.toList ++ [':'])) = Except.ok st1 ∧
      assembleLine st1 (wordLine vs) = Except.ok st2 ∧
      st2.sim.dataLabelToAddress = (L, st.dataAddress) :: st.sim.dataLabelToAddress ∧
      st2.sim.dataLabelToAddress.lookup L = some st.dataAddress ∧
      st2.dataAddress = st.dataAddress + 4 * vs.length ∧
      ∀ i v, vs[i]? = some v →
        loadWord st2.sim.memory (st.dataAddress + 4 * i) = Except.ok v := by
  obtain ⟨hLne, hLch⟩ := hL
  obtain ⟨c0, cs, hLeq⟩ : ∃ c0 cs, L.toList = c0 :: cs := by
    cases h : L.toList with
    | nil => exact absurd h hLne
    | cons c0 cs => exact ⟨c0, cs, rfl⟩
  have hc0 := identifier_char c0 (hLch c0 (by rw [hLeq]; simp))
  obtain ⟨hwch, _, _⟩ := wordOperands_chars vs
  have hwplain : ∀ c ∈ (wordLine vs).toList, c ≠ '#' ∧ c ≠ ':' := by
    intro c hc
    have e : (wordLine vs).toList = ".word ".toList ++ wordOperands vs := rfl
    rw [e, List.mem_append] at hc
    rcases hc with hc | hc
    · revert c; decide
    · exact operand_char_plain c (hwch c hc)
  constructor
  · -- the single line
    have eline : L.toList ++ ": ".toList ++ (wordLine vs).toList
        = c0 :: (cs ++ ": ".toList ++ (wordLine vs).toList) := by
      rw [hLeq]; simp
    have hplain : ∀ c ∈ c0 :: (cs ++ ": ".toList ++ (wordLine vs).toList), c ≠ '#' := by
      intro c hc
      rw [← eline] at hc
      simp only [List.mem_append] at hc
      rcases hc with (hc | hc) | hc
      · exact (identifier_char c (hLch c hc)).2.2.1
      · revert c; decide
      · exact (hwplain c hc).1
    have hclean := cleanLine_plain c0 _ ⟨hc0.1, hc0.2.1⟩ hplain
    rw [eline]
    have hlast : (c0 :: (cs ++ ": ".toList ++ (wordLine vs).toList)).getLast? ≠ some ':' := by
      intro hl
      have e2 : c0 :: (cs ++ ": ".toList ++ (wordLine vs).toList)
          = (c0 :: (cs ++ ": ".toList)) ++ (wordLine vs).toList := by simp
      have hne2 : (wordLine vs).toList ≠ [] := by
        show ".word ".toList ++ wordOperands vs ≠ []
        simp
      rw [e2, List.getLast?_append_of_ne_nil _ hne2] at hl
      exact (hwplain ':' (getLast_mem _ _ hl)).2 rfl
    rw [assembleLine_data st _ hdata (by rw [hclean]; simp)
      (by rw [hclean]; intro h; have := congrArg List.head? h; simp at this; exact hc0.2.2.2.2 this)
      (by rw [hclean]; intro h; have := congrArg List.head? h; simp at this; exact hc0.2.2.2.2 this),
      hclean]
    exact assembleData_unrecognized st c0 _ hc0.2.2.2.2 hlast
  · -- the label line, then the directive
    have eline : L.toList ++ [':'] = c0 :: (cs ++ [':']) := by rw [hLeq]; simp
    have hplain : ∀ c ∈ c0 :: (cs ++ [':']), c ≠ '#' := by
      intro c hc
      rw [← eline] at hc
      simp only [List.mem_append, List.mem_singleton] at hc
      rcases hc with hc | hc
      · exact (identifier_char c (hLch c hc)).2.2.1
      · rw [hc]; decide
    have hclean := cleanLine_plain c0 _ ⟨hc0.1, hc0.2.1⟩ hplain
    have hlabel : assembleLine st (String.mk (L.toList ++ [':'])) = Except.ok { st with
        sim := { st.sim with
          dataLabelToAddress := (L, st.dataAddress) :: st.sim.dataLabelToAddress } } := by
      rw [eline]
      rw [assembleLine_data st _ hdata (by rw [hclean]; simp)
        (by rw [hclean]; intro h; have := congrArg List.head? h; simp at this
            exact hc0.2.2.2.2 this)
        (by rw [hclean]; intro h; have := congrArg List.head? h; simp at this
            exact hc0.2.2.2.2 this),
        hclean, ← eline]
      have hl : (L.toList ++ [':']).getLast? = some ':' := by simp
      simp only [assembleData, hl, if_true]
      simp
    obtain ⟨mem1, hline, hbytes, _⟩ :=
      wordLine_assembled { st with
        sim := { st.sim with
          dataLabelToAddress := (L, st.dataAddress) :: st.sim.dataLabelToAddress } }
        vs hdata hrange hfit
    refine ⟨_, _, hlabel, hline, rfl, ?_, rfl, ?_⟩
    · simp [List.lookup]
    · intro i v hi
      have hv := hrange v (List.getElem?_mem hi)
      have hi2 : i < vs.length := by
        rcases List.getElem?_eq_some_iff.mp hi with ⟨h, _⟩
        exact h
      have hin : st.dataAddress + 4 * i + 3 < MEM_SIZE := by
        unfold MEM_SIZE at *; omega
      exact loadWord_of_bytes _ _ v hin hv.1 hv.2 (hbytes i v hi)

/-- Instance of C19 (amended): `A: .word 7,8` against `A:` then `.word 7,8`, from
the start of assembly (data mode, cursor 32). -/
theorem labelled_word_line_witness :
    assembleLine (Assembly.start RiscVSim.init) "A: .word 7,8"
      = Except.ok (Assembly.start RiscVSim.init) ∧
    ∃ st1 st2, assembleLine (Assembly.start RiscVSim.init) "A:" = Except.ok st1 ∧
      assembleLine st1 ".word 7,8" = Except.ok st2 ∧
      st2.sim.dataLabelToAddress.lookup "A" = some 32 ∧ st2.dataAddress = 40 ∧
      loadWord st2.sim.memory 32 = Except.ok 7 ∧ loadWord st2.sim.memory 36 = Except.ok 8 := by
  obtain ⟨hsingle, st1, st2, h1, h2, _, hlook, haddr, hwords⟩ :=
    labelled_word_line (Assembly.start RiscVSim.init) "A" [7, 8] rfl (by decide) (by decide)
      (by decide)
  exact ⟨hsingle, st1, st2, h1, h2, hlook, haddr, hwords 0 7 rfl, hwords 1 8 rfl⟩

/-- C19 as stated fails for `A: .word 7,8` at cursor 32: the single line binds
nothing and writes nothing, while the two lines bind `A` to 32 and write 7. -/
theorem labelled_word_line_not_equivalent :
    (∃ st1, assembleLine (Assembly.start RiscVSim.init) "A: .word 7,8" = Except.ok st1 ∧
      st1.sim.dataLabelToAddress.lookup "A" = none ∧ st1.sim.memory 32 = 0 ∧
      st1.dataAddress = 32) ∧
    (∃ st2, assembleLines (Assembly.start RiscVSim.init) ["A:", ".word 7,8"] = Except.ok st2 ∧
      st2.sim.dataLabelToAddress.lookup "A" = some 32 ∧ st2.sim.memory 32 = 7 ∧
      st2.dataAddress = 40) := by
  exact ⟨⟨_, rfl, rfl, rfl, rfl⟩, ⟨_, rfl, rfl, rfl, rfl⟩⟩

/-! ## Frame of a step -/

theorem setRegister_frame (s s1 : RiscVSim) (name : String) (v : Int)
    (h : setRegister s name v = Except.ok s1) :
    s1.memory = s.memory ∧
      ∀ j, parseRegisterNumber name ≠ Except.ok j → s1.registers j = s.registers j := by
  unfold setRegister at h
  split at h
  · cases h
  · rename_i r hr
    split at h
    · cases h; exact ⟨rfl, fun _ _ => rfl⟩
    · cases h
      refine ⟨rfl, ?_⟩
      intro j hj
      have hne : j ≠ r := by
        intro e; subst e; exact hj hr
      simp [Function.update_noteq hne]

/-- Every operation other than SW leaves the memory as it was and changes no
register but the one its `rd` names. -/
theorem executeInstruction_not_sw (s s1 : RiscVSim) (instr : Instruction) (flag : Bool)
    (h : executeInstruction s instr = Except.ok (flag, s1)) (hsw : instr.opcode ≠ "sw") :
    s1.memory = s.memory ∧
      ∀ j, parseRegisterNumber instr.rd ≠ Except.ok j → s1.registers j = s.registers j := by
  rcases opcode_cases instr.opcode with
    hop | hop | hop | hop | hop | hop | hop | hop | hop | hop | hop |
    ⟨h1, h2, h3, h4, h5, h6, h7, h8, h9, h10, h11⟩
  case inr.inr.inr.inr.inr.inr.inr.inr.inr.inr.inr =>
    simp only [executeInstruction, h1, h2, h3, h4, h5, h6, h7, h8, h9, h10, h11, if_false] at h
    cases h
    exact ⟨rfl, fun _ _ => rfl⟩
  case inr.inr.inr.inr.inr.inr.inr.inl => exact absurd hop hsw
  all_goals
    simp only [executeInstruction, hop] at h
    simp +decide only [if_true, if_false] at h
    repeat' split at h
    all_goals first
      | (cases h; done)
      | (rename_i hs; have hz := setRegister_frame _ _ _ _ hs; cases h
         exact ⟨hz.1, hz.2⟩)
      | (cases h; exact ⟨rfl, fun _ _ => rfl⟩)

/-- C20: a successful call of `executeInstruction` changes the memory only for
SW.  For every other operation the memory is unchanged and every register other
than the one named by `rd` keeps its value.  For SW the register file is
unchanged, and when the effective address `A` is in range (`A + 3 < 1024`) byte
`A + i` becomes byte `i` of the stored value (bits `8i..8i+7`) for `i < 4` and
every other byte keeps its value. -/
theorem step_frame (s s1 : RiscVSim) (instr : Instruction) (flag : Bool)
    (h : executeInstruction s instr = Except.ok (flag, s1)) :
    (instr.opcode ≠ "sw" →
      s1.memory = s.memory ∧
      ∀ j, parseRegisterNumber instr.rd ≠ Except.ok j → s1.registers j = s.registers j) ∧
    (instr.opcode = "sw" →
      s1.registers = s.registers ∧
      ∀ (base v : Int), getRegister s instr.rs1 = Except.ok base →
        getRegister s instr.rd = Except.ok v →
        toUInt32 (toInt32 (base + instr.imm)) + 3 < MEM_SIZE →
        (∀ i, i < 4 → s1.memory (toUInt32 (toInt32 (base + instr.imm)) + i) = byteOf v i) ∧
        ∀ a, a < toUInt32 (toInt32 (base + instr.imm)) ∨
            toUInt32 (toInt32 (base + instr.imm)) + 4 ≤ a → s1.memory a = s.memory a) := by
  constructor
  · intro hsw
    exact executeInstruction_not_sw s s1 instr flag h hsw
  · intro hop
    simp only [executeInstruction, hop] at h
    simp +decide only [if_true, if_false] at h
    cases hb : getRegister s instr.rs1 with
    | error e => rw [hb] at h; cases h
    | ok base0 =>
      rw [hb] at h
      dsimp only at h
      cases hv : getRegister s instr.rd with
      | error e => rw [hv] at h; cases h
      | ok v0 =>
        rw [hv] at h
        dsimp only at h
        cases hm : storeWord s.memory (toUInt32 (toInt32 (base0 + instr.imm))) v0 with
        | error e => rw [hm] at h; cases h
        | ok mem1 =>
          rw [hm] at h
          cases h
          refine ⟨rfl, ?_⟩
          intro base v hbase hval hin
          cases hbase
          cases hval
          rw [storeWord_in_range _ _ _ hin] at hm
          cases hm
          constructor
          · intro i hi
            interval_cases i
            · simp [commit, Function.update]
            · simp [commit, Function.update]
            · simp [commit, Function.update]
            · simp [commit, Function.update]
          · intro a ha
            have n0 : a ≠ toUInt32 (toInt32 (base0 + instr.imm)) := by omega
            have n1 : a ≠ toUInt32 (toInt32 (base0 + instr.imm)) + 1 := by omega
            have n2 : a ≠ toUInt32 (toInt32 (base0 + instr.imm)) + 2 := by omega
            have n3 : a ≠ toUInt32 (toInt32 (base0 + instr.imm)) + 3 := by omega
            simp [commit, Function.update, n0, n1, n2, n3]

/-- Instance of C20: with x1 = 258, `sw x1, 100(x0)` writes the bytes 2, 1, 0, 0
at 100..103 and leaves byte 104 and the registers as they were. -/
theorem step_frame_witness :
    ∃ flag s1,
      executeInstruction { RiscVSim.init with registers := Function.update (fun _ => 0) 1 258 }
        (mkInstr "sw" "x1" "x0" "" 100 "") = Except.ok (flag, s1) ∧
      s1.memory 100 = 2 ∧ s1.memory 101 = 1 ∧ s1.memory 102 = 0 ∧ s1.memory 103 = 0 ∧
      s1.memory 104 = 0 ∧ s1.registers = Function.update (fun _ => 0) 1 258 := by
  have hexec : executeInstruction
      { RiscVSim.init with registers := Function.update (fun _ => 0) 1 258 }
      (mkInstr "sw" "x1" "x0" "" 100 "") = Except.ok (false,
        { RiscVSim.init with
          registers := Function.update (fun _ => 0) 1 258
          memory := Function.update (Function.update (Function.update (Function.update
            (fun _ => 0) 100 2) 101 1) 102 0) 103 0
          pc := 1 }) := by rfl
  obtain ⟨hregs, hmem⟩ := (step_frame _ _ _ _ hexec).2 rfl
  obtain ⟨hbytes, hframe⟩ := hmem 0 258 (by rfl) (by rfl) (by decide)
  exact ⟨_, _, hexec, hbytes 0 (by decide), hbytes 1 (by decide), hbytes 2 (by decide),
    hbytes 3 (by decide), hframe 104 (Or.inr (by decide)), hregs⟩

/-! ## Label indices and the program length -/

theorem lookup_mem (L : String) (i : Nat) (table : List (String × Nat))
    (h : table.lookup L = some i) : (L, i) ∈ table := by
  induction table with
  | nil => cases h
  | cons p ps ih =>
    obtain ⟨k, v⟩ := p
    by_cases hk : L = k
    · subst hk
      simp only [List.lookup, beq_self_eq_true, Option.some.injEq] at h
      subst h
      simp
    · have hb : (L == k) = false := by simpa [beq_eq_false_iff_ne] using hk
      simp only [List.lookup, hb] at h
      exact List.mem_cons_of_mem _ (ih h)

/-- One line keeps every index of the instruction label table within the
program length, and the counter in step with the program length. -/
theorem assembleLine_bounded (st st1 : Assembly) (line : String)
    (h : assembleLine st line = Except.ok st1)
    (hinv : st.instrIndex = st.sim.instructions.length % 2 ^ 32)
    (hb : ∀ p ∈ st.sim.labelToIndex, p.2 ≤ st.sim.instructions.length) :
    st1.instrIndex = st1.sim.instructions.length % 2 ^ 32 ∧
    st.sim.instructions.length ≤ st1.sim.instructions.length ∧
    ∀ p ∈ st1.sim.labelToIndex, p.2 ≤ st1.sim.instructions.length := by
  obtain ⟨⟨new, hnew, hidx⟩, hins⟩ := assembleLine_effect st st1 line h
  have hle : st.instrIndex ≤ st.sim.instructions.length := by
    rw [hinv]; exact Nat.mod_le _ _
  have hgrow : st.sim.instructions.length ≤ st1.sim.instructions.length := by
    rcases hins with ⟨e, _⟩ | ⟨i, _, e, _⟩
    · rw [e]
    · rw [e]; simp
  refine ⟨?_, hgrow, ?_⟩
  · rcases hins with ⟨e1, e2⟩ | ⟨i, _, e1, e2⟩
    · rw [e1, e2]; exact hinv
    · rw [e1, e2, hinv]; simp [Nat.add_mod]
  · intro p hp
    rw [hnew, List.mem_append] at hp
    rcases hp with hp | hp
    · rw [hidx p hp]; omega
    · have := hb p hp; omega

theorem assembleLines_bounded (st st1 : Assembly) (lines : List String)
    (h : assembleLines st lines = Except.ok st1)
    (hinv : st.instrIndex = st.sim.instructions.length % 2 ^ 32)
    (hb : ∀ p ∈ st.sim.labelToIndex, p.2 ≤ st.sim.instructions.length) :
    st1.instrIndex = st1.sim.instructions.length % 2 ^ 32 ∧
    st.sim.instructions.length ≤ st1.sim.instructions.length ∧
    ∀ p ∈ st1.sim.labelToIndex, p.2 ≤ st1.sim.instructions.length := by
  induction lines generalizing st with
  | nil =>
    simp only [assembleLines] at h
    cases h
    exact ⟨hinv, Nat.le_refl _, hb⟩
  | cons l ls ih =>
    simp only [assembleLines] at h
    split at h
    · cases h
    · rename_i st2 hl
      obtain ⟨i2, g2, b2⟩ := assembleLine_bounded st st2 l hl hinv hb
      obtain ⟨i3, g3, b3⟩ := ih st2 h i2 b2
      exact ⟨i3, Nat.le_trans g2 g3, b3⟩

/-- C21: after `loadAssembly`, with `N` the number of records of the program,
every index in the instruction label table is at most `N`.  For a program of
fewer than `2^32` records the instruction counter equals the number of records
stored so far at every point of the assembly, never decreases, and is `N` at the
end.  Hence a taken branch to a label of the table commits a program counter at
most `N`, and when the label is bound to `N` the call returns `false` and `run`
returns there with program counter `N`, past the last record. -/
theorem label_indices_bounded (s0 final : RiscVSim) (lines : List String)
    (hload : loadAssembly s0 lines = Except.ok final) :
    (∀ p ∈ final.labelToIndex, p.2 ≤ final.instructions.length) ∧
    (final.instructions.length < 2 ^ 32 →
      ∀ (pre mid post : List String) (st1 st2 : Assembly), lines = pre ++ mid ++ post →
        assembleLines (Assembly.start s0) pre = Except.ok st1 →
        assembleLines st1 mid = Except.ok st2 →
        st1.instrIndex = st1.sim.instructions.length ∧
        st2.instrIndex = st2.sim.instructions.length ∧
        st1.instrIndex ≤ st2.instrIndex ∧ st2.instrIndex ≤ final.instructions.length ∧
        (post = [] → st2.instrIndex = final.instructions.length)) ∧
    ∀ (s : RiscVSim) (instr : Instruction) (a b : Int) (i : Nat),
      s.labelToIndex = final.labelToIndex → s.instructions = final.instructions →
      getRegister s instr.rs1 = Except.ok a → getRegister s instr.rs2 = Except.ok b →
      ((instr.opcode = "beq" ∧ a = b) ∨ (instr.opcode = "bne" ∧ a ≠ b)) →
      instr.labelTarget ≠ "" → s.labelToIndex.lookup instr.labelTarget = some i →
      ∃ flag s1, executeInstruction s instr = Except.ok (flag, s1) ∧
        s1.pc = i ∧ s1.pc ≤ final.instructions.length ∧
        (i = final.instructions.length →
          flag = false ∧
          ∀ fuel, s.instructions[s.pc]? = some instr →
            ∃ r, run (fuel + 1) s = Except.ok (some r) ∧
              r.final.pc = final.instructions.length ∧ r.steps = [(s.pc, instr)]) := by
  have hinv0 : (Assembly.start s0).instrIndex
      = (Assembly.start s0).sim.instructions.length % 2 ^ 32 := by rfl
  have hb0 : ∀ p ∈ (Assembly.start s0).sim.labelToIndex,
      p.2 ≤ (Assembly.start s0).sim.instructions.length := by
    intro p hp; cases hp
  unfold loadAssembly at hload
  cases hrun : assembleLines (Assembly.start s0) lines with
  | error e => rw [hrun] at hload; cases hload
  | ok stf =>
    rw [hrun] at hload
    cases hload
    obtain ⟨_, _, hbound⟩ := assembleLines_bounded _ stf lines hrun hinv0 hb0
    refine ⟨hbound, ?_, ?_⟩
    · intro hN pre mid post st1 st2 hsplit hpre hmid
      obtain ⟨i1, _, b1⟩ := assembleLines_bounded _ st1 pre hpre hinv0 hb0
      obtain ⟨i2, g2, b2⟩ := assembleLines_bounded st1 st2 mid hmid i1 b1
      -- the rest of the text leads to the final state
      have hpost : assembleLines st2 post = Except.ok stf := by
        rw [hsplit, assembleLines_append, assembleLines_append, hpre] at hrun
        dsimp only at hrun
        rw [hmid] at hrun
        exact hrun
      obtain ⟨_, g3, _⟩ := assembleLines_bounded st2 stf post hpost i2 b2
      have e1 : st1.instrIndex = st1.sim.instructions.length := by
        rw [i1]; exact Nat.mod_eq_of_lt (by omega)
      have e2 : st2.instrIndex = st2.sim.instructions.length := by
        rw [i2]; exact Nat.mod_eq_of_lt (by omega)
      refine ⟨e1, e2, by omega, by omega, ?_⟩
      intro hnil
      rw [hnil] at hpost
      simp only [assembleLines] at hpost
      cases hpost
      exact e2
    · intro s instr a b i hlab hins h1 h2 hcond hl hfound
      have hexec := branch_to_label s instr a b i h1 h2 hcond hl hfound
      have hi : i ≤ stf.sim.instructions.length := by
        have hm := lookup_mem _ _ _ hfound
        rw [hlab] at hm
        exact hbound _ hm
      refine ⟨_, _, hexec, rfl, hi, ?_⟩
      intro hiN
      have hflag : (commit s i).1 = false := by
        simp [commit, hiN, hins]
      refine ⟨hflag, ?_⟩
      intro fuel hfetch
      have hc : commit s i = (false, { s with pc := i }) := by
        simp [commit, hiN, hins]
      refine ⟨{ final := { s with pc := i }, steps := [(s.pc, instr)] }, ?_, hiN, rfl⟩
      simp only [run, hfetch, hexec, hc]

/-- Instance of C21: in `.text`, `beq x0, x0, end`, `addi x1, x0, 1`, `end:` the
label `end` is bound to 2, the number of records, and the run started at the
branch returns at once with program counter 2. -/
theorem label_indices_bounded_witness :
    ∃ final, loadAssembly RiscVSim.init [".text", "beq x0, x0, end", "addi x1, x0, 1", "end:"]
        = Except.ok final ∧
      final.instructions.length = 2 ∧ final.labelToIndex = [("end", 2)] ∧
      (∀ p ∈ final.labelToIndex, p.2 ≤ 2) ∧
      ∃ r, run 1 final = Except.ok (some r) ∧ r.final.pc = 2 ∧
        r.steps = [(0, mkInstr "beq" "" "x0" "x0" 0 "end")] := by
  have hload : loadAssembly RiscVSim.init
      [".text", "beq x0, x0, end", "addi x1, x0, 1", "end:"]
      = Except.ok
        { RiscVSim.init with
          instructions := [mkInstr "beq" "" "x0" "x0" 0 "end", mkInstr "addi" "x1" "x0" "" 1 ""]
          labelToIndex := [("end", 2)] } := by rfl
  obtain ⟨hbound, _, hbranch⟩ := label_indices_bounded _ _ _ hload
  obtain ⟨_, _, _, _, _, hend⟩ :=
    hbranch _ (mkInstr "beq" "" "x0" "x0" 0 "end") 0 0 2 rfl rfl (by rfl) (by rfl)
      (Or.inl ⟨rfl, rfl⟩) (by decide) (by rfl)
  exact ⟨_, hload, rfl, rfl, hbound, (hend rfl).2 0 (by rfl)⟩

end RiscV
